import Mathlib

/-!
Verification of the Trilium core tree-mutation engine, consistency checker and
attribute-inheritance resolver.

The development shallowly embeds the JavaScript sources:
  * `src/services/notes.js`        — tree mutation engine (create, delete, undelete,
                                     duplicate, revision policy),
  * `src/services/consistency_checks.js` — the batch consistency checker,
  * the frontend `NoteShort` class — the memoized attribute-inheritance resolver.

Rows of the persisted tables become Lean structures, the database becomes an
explicit `Store` of row lists, and every operation becomes a pure function on
stores.  Recursion over the (possibly cyclic) branch graph is modelled with an
explicit fuel parameter; running out of fuel yields `RunError.fuelOut`, a thrown
JavaScript error yields `RunError.thrown`.  Date strings are modelled as
integers (the source always compares dates through a monotone string encoding).
Entity-layer methods that live outside the given sources (the `Note`/`Branch`
entity classes, `utils.newEntityId`, services referenced by the checker) are
modelled from the specification and marked as such in their doc comments.
-/

namespace Trilium

/-- Outcome of a run that can either exhaust its fuel or throw a JS error. -/
inductive RunError where
  | fuelOut : RunError
  | thrown : String → RunError
deriving Repr, DecidableEq

instance {ε α : Type} [DecidableEq ε] [DecidableEq α] : DecidableEq (Except ε α) := fun a b =>
  match a, b with
  | Except.ok x, Except.ok y =>
    if h : x = y then isTrue (by rw [h])
    else isFalse (by intro hc; cases hc; exact h rfl)
  | Except.error x, Except.error y =>
    if h : x = y then isTrue (by rw [h])
    else isFalse (by intro hc; cases hc; exact h rfl)
  | Except.ok _, Except.error _ => isFalse (by intro hc; cases hc)
  | Except.error _, Except.ok _ => isFalse (by intro hc; cases hc)

/-- JavaScript whitespace (the characters `String.prototype.trim` strips that
can occur in note titles here). -/
def isJsWhitespace (c : Char) : Bool :=
  c == ' ' || c == '\t' || c == '\n' || c == '\r'

/-- JavaScript's `String.prototype.trim`, character-exact (Lean's own
`String.trim` is byte-position based and is avoided so that concrete runs
evaluate inside the kernel). -/
def jsTrim (s : String) : String :=
  String.mk (((s.data.dropWhile isJsWhitespace).reverse.dropWhile isJsWhitespace).reverse)

/-- One pass of replace-all on character lists: substitute `rep` for every
occurrence of the non-empty pattern `pat`, scanning left to right.  Structural
fuel keeps the definition kernel-computable. -/
def replaceAllGo (pat rep : List Char) : Nat → List Char → List Char
  | 0, l => l
  | Nat.succ _, [] => []
  | Nat.succ fuel, c :: rest =>
    if pat.isPrefixOf (c :: rest) then
      rep ++ replaceAllGo pat rep fuel ((c :: rest).drop pat.length)
    else
      c :: replaceAllGo pat rep fuel rest

/-- JavaScript's global `String.prototype.replace` for a literal non-empty
pattern. -/
def replaceAllStr (s pat rep : String) : String :=
  if pat.data.isEmpty then s
  else String.mk (replaceAllGo pat.data rep.data s.data.length s.data)

/-- A row of the `notes` table (the fields the verified operations consult).
`deleteId` is the soft-delete correlation token, `none` while the row is live.
`utcDateCreated` is a date string in the source, modelled as an integer of
milliseconds since the epoch (the encoding is monotone). -/
structure Note where
  noteId : String
  title : String
  type : String
  mime : String
  isProtected : Bool
  isDeleted : Bool
  deleteId : Option String
  utcDateCreated : Int
deriving Repr, DecidableEq

/-- A row of the `branches` table.  `notePosition` is nullable in the database
(`duplicateSubtree` stores null when the source branch is unknown), hence an
`Option`.  The `prefix` column is called `prefix_` because `prefix` is a Lean
keyword. -/
structure Branch where
  branchId : String
  noteId : String
  parentNoteId : String
  notePosition : Option Int
  prefix_ : String
  isExpanded : Bool
  isDeleted : Bool
  deleteId : Option String
deriving Repr, DecidableEq

/-- A row of the `attributes` table.  `noteId` is the owning note, `type` is
"label" or "relation", and for relations `value` is the target note id. -/
structure Attribute where
  attributeId : String
  noteId : String
  type : String
  name : String
  value : String
  position : Int
  isInheritable : Bool
  isDeleted : Bool
  deleteId : Option String
deriving Repr, DecidableEq

/-- A row of the `note_contents` table; `content` is nullable. -/
structure NoteContentRow where
  noteId : String
  content : Option String
deriving Repr, DecidableEq

/-- A row of the `note_revisions` table (fields used by the revision policy and
the consistency checker). -/
structure NoteRevision where
  noteRevisionId : String
  noteId : String
  isProtected : Bool
  utcDateCreated : Int
deriving Repr, DecidableEq

/-- A row of the `note_revision_contents` table. -/
structure NoteRevisionContentRow where
  noteRevisionId : String
  content : Option String
deriving Repr, DecidableEq

/-- A row of the append-only `entity_changes` journal. -/
structure EntityChange where
  entityName : String
  entityId : String
  isErased : Bool
deriving Repr, DecidableEq

/-- A row of the `api_tokens` table (only its key matters to the checker). -/
structure ApiToken where
  apiTokenId : String
deriving Repr, DecidableEq

/-- A row of the `options` table (only key and sync flag matter to the checker). -/
structure OptionRow where
  name : String
  isSynced : Bool
deriving Repr, DecidableEq

/-- The whole persisted state.  `changeLog` records the ids of saved rows in
save order (the observable order of changes, used to state "children are
deleted before the parent").  `nextId` feeds `newEntityId`. -/
structure Store where
  notes : List Note
  branches : List Branch
  attributes : List Attribute
  noteContents : List NoteContentRow
  noteRevisions : List NoteRevision
  noteRevisionContents : List NoteRevisionContentRow
  entityChanges : List EntityChange
  apiTokens : List ApiToken
  options : List OptionRow
  changeLog : List String
  nextId : Nat
deriving Repr, DecidableEq

/-- Modelled from the spec: `utils.newEntityId` returns a fresh random id; we
generate a string of `n+1` letters `g` so that distinct counters give distinct
ids and freshness against a store is the decidable condition that no stored id
starts with `g`. -/
def genId (n : Nat) : String :=
  String.mk (List.replicate (n + 1) 'g')

/-- Draw a fresh entity id from the store's id supply. -/
def newEntityId (s : Store) : String × Store :=
  (genId s.nextId, { s with nextId := s.nextId + 1 })

/-- `repository.getNote`: first `notes` row with the given id. -/
def getNote (s : Store) (noteId : String) : Option Note :=
  s.notes.find? (fun n => n.noteId == noteId)

/-- `repository.getBranch`: first `branches` row with the given id. -/
def getBranch (s : Store) (branchId : String) : Option Branch :=
  s.branches.find? (fun b => b.branchId == branchId)

/-- `repository.getAttribute`: first `attributes` row with the given id. -/
def getAttribute (s : Store) (attributeId : String) : Option Attribute :=
  s.attributes.find? (fun a => a.attributeId == attributeId)

/-- `note.save()`: upsert the row by id and journal the save. -/
def saveNote (s : Store) (n : Note) : Store :=
  if s.notes.any (fun m => m.noteId == n.noteId) then
    { s with notes := s.notes.map (fun m => if m.noteId == n.noteId then n else m),
             changeLog := s.changeLog ++ [n.noteId] }
  else
    { s with notes := s.notes ++ [n], changeLog := s.changeLog ++ [n.noteId] }

/-- `branch.save()`: upsert the row by id and journal the save. -/
def saveBranch (s : Store) (b : Branch) : Store :=
  if s.branches.any (fun c => c.branchId == b.branchId) then
    { s with branches := s.branches.map (fun c => if c.branchId == b.branchId then b else c),
             changeLog := s.changeLog ++ [b.branchId] }
  else
    { s with branches := s.branches ++ [b], changeLog := s.changeLog ++ [b.branchId] }

/-- `attribute.save()`: upsert the row by id and journal the save. -/
def saveAttribute (s : Store) (a : Attribute) : Store :=
  if s.attributes.any (fun b => b.attributeId == a.attributeId) then
    { s with attributes := s.attributes.map (fun b => if b.attributeId == a.attributeId then a else b),
             changeLog := s.changeLog ++ [a.attributeId] }
  else
    { s with attributes := s.attributes ++ [a], changeLog := s.changeLog ++ [a.attributeId] }

/-- `note.setContent`: upsert the `note_contents` row of the note. -/
def setContent (s : Store) (noteId : String) (content : Option String) : Store :=
  if s.noteContents.any (fun c => c.noteId == noteId) then
    let upd := fun (c : NoteContentRow) => if c.noteId == noteId then { c with content := content } else c
    { s with noteContents := s.noteContents.map upd }
  else
    { s with noteContents := s.noteContents ++ [{ noteId := noteId, content := content }] }

/-- Modelled from the spec: the entity layer's `note.getBranches()` — the
note's placements that are not soft-deleted ("every non-deleted note other
than root has ≥ 1 non-deleted branch"). -/
def getBranchesOfNote (s : Store) (noteId : String) : List Branch :=
  s.branches.filter (fun b => b.noteId == noteId && !b.isDeleted)

/-- Modelled from the spec: the entity layer's `note.getChildBranches()` — the
non-deleted branches placing children under this note. -/
def getChildBranchesOf (s : Store) (noteId : String) : List Branch :=
  s.branches.filter (fun b => b.parentNoteId == noteId && !b.isDeleted)

/-- Modelled from the spec: the entity layer's `note.getOwnedAttributes()` —
the non-deleted attributes owned by the note. -/
def getOwnedAttributesOf (s : Store) (noteId : String) : List Attribute :=
  s.attributes.filter (fun a => a.noteId == noteId && !a.isDeleted)

/-- Modelled from the spec: the entity layer's `note.getTargetRelations()` —
the non-deleted relation attributes whose value is this note. -/
def getTargetRelationsOf (s : Store) (noteId : String) : List Attribute :=
  s.attributes.filter (fun a => a.type == "relation" && a.value == noteId && !a.isDeleted)

/-- Soft-delete a branch under the given delete operation id. -/
def markBranchDeleted (d : String) (b : Branch) : Branch :=
  { b with isDeleted := true, deleteId := some d }

/-- Soft-delete a note under the given delete operation id. -/
def markNoteDeleted (d : String) (n : Note) : Note :=
  { n with isDeleted := true, deleteId := some d }

/-- Soft-delete an attribute under the given delete operation id. -/
def markAttributeDeleted (d : String) (a : Attribute) : Attribute :=
  { a with isDeleted := true, deleteId := some d }

mutual

/-- `deleteBranch(branch, deleteId)` of `services/notes.js`.  Looks the branch
up by id (a missing row models a null `branch` argument); a no-op on absent or
already deleted branches, throws on the root or hoisted branch, otherwise marks
the branch deleted and, when that removed the note's last non-deleted branch,
recursively deletes child branches, then the note, its owned attributes and its
targeting relations, returning whether the note itself was deleted.
`hoisted` models `cls.getHoistedNoteId()`.  Fuel decreases on every call; a
completed run is independent of the exact fuel. -/
def deleteBranchGo : Nat → String → String → Store → String → Except RunError (Store × Bool)
  | 0, _, _, _, _ => Except.error RunError.fuelOut
  | Nat.succ fuel, hoisted, d, s, branchId =>
    match getBranch s branchId with
    | none => Except.ok (s, false)
    | some branch =>
      if branch.isDeleted then Except.ok (s, false)
      else if branch.branchId == "root" || branch.noteId == "root" || branch.noteId == hoisted then
        Except.error (RunError.thrown "Cannot delete root branch/note")
      else
        let s1 := saveBranch s (markBranchDeleted d branch)
        match getNote s1 branch.noteId with
        | none => Except.error (RunError.thrown "branch has no note")
        | some note =>
          if (getBranchesOfNote s1 note.noteId).isEmpty then
            match deleteChildBranchesGo fuel hoisted d s1
                ((getChildBranchesOf s1 note.noteId).map (fun b => b.branchId)) with
            | Except.error e => Except.error e
            | Except.ok s2 =>
              let s3 := saveNote s2 (markNoteDeleted d note)
              let s4 := (getOwnedAttributesOf s3 note.noteId).foldl
                  (fun st a => saveAttribute st (markAttributeDeleted d a)) s3
              let s5 := (getTargetRelationsOf s4 note.noteId).foldl
                  (fun st a => saveAttribute st (markAttributeDeleted d a)) s4
              Except.ok (s5, true)
          else
            Except.ok (s1, false)

/-- The `for (const childBranch of note.getChildBranches())` loop inside
`deleteBranch`: delete each listed branch in order, threading the store. -/
def deleteChildBranchesGo : Nat → String → String → Store → List String → Except RunError Store
  | 0, _, _, _, _ => Except.error RunError.fuelOut
  | Nat.succ _, _, _, s, [] => Except.ok s
  | Nat.succ fuel, hoisted, d, s, c :: rest =>
    match deleteBranchGo fuel hoisted d s c with
    | Except.error e => Except.error e
    | Except.ok (s', _) => deleteChildBranchesGo fuel hoisted d s' rest

end

/-- `getNewNotePosition(parentNoteId)`: `MAX(notePosition)` over the parent's
non-deleted branches (SQL `MAX` skips nulls and returns null on no rows),
plus 10, or 0 when there is no row. -/
def getNewNotePosition (s : Store) (parentNoteId : String) : Int :=
  let ps := (s.branches.filter (fun b => b.parentNoteId == parentNoteId && !b.isDeleted)).filterMap
    (fun b => b.notePosition)
  match ps with
  | [] => 0
  | p :: rest => rest.foldl max p + 10

/-- The parameter object of `createNewNote`. -/
structure CreateNoteParams where
  parentNoteId : String
  title : String
  content : String
  type : String
  mime : Option String
  isProtected : Bool
  isExpanded : Bool
  notePosition : Option Int
  noteId : Option String
deriving Repr, DecidableEq

/-- `deriveMime(type, mime)`: an explicitly passed non-empty mime wins,
otherwise the default mime of the note type. -/
def deriveMime (type : String) (mime : Option String) : Except RunError String :=
  if type == "" then Except.error (RunError.thrown "Note type is a required param")
  else if mime.getD "" != "" then Except.ok (mime.getD "")
  else if type == "text" then Except.ok "text/html"
  else if type == "code" then Except.ok "text/plain"
  else if ["relation-map", "search", "canvas-note"].contains type then Except.ok "application/json"
  else if ["render", "book"].contains type then Except.ok ""
  else Except.ok "application/octet-stream"

/-- `createNewNote(params)` of `services/notes.js`: validates the parent and
the title, derives the mime, saves the note and its content, and saves a branch
placing it under the parent at the explicit position or at
`getNewNotePosition`.  The trailing `scanForLinks` and `copyChildAttributes`
steps act only on contents and on attribute rows (never on branches or on
positions) and are outside every claim proved below, so they are not modelled.
`now` models the creation timestamp. -/
def createNewNote (now : Int) (s : Store) (params : CreateNoteParams) :
    Except RunError (Store × Note × Branch) :=
  match getNote s params.parentNoteId with
  | none => Except.error (RunError.thrown "Parent note not found")
  | some _parent =>
    if jsTrim params.title == "" then
      Except.error (RunError.thrown "Note title must not be empty")
    else
      match deriveMime params.type params.mime with
      | Except.error e => Except.error e
      | Except.ok mime =>
        let (noteId, s) :=
          match params.noteId with
          | some nid => (nid, s)
          | none => newEntityId s
        let note : Note :=
          { noteId := noteId, title := params.title, type := params.type, mime := mime,
            isProtected := params.isProtected, isDeleted := false, deleteId := none,
            utcDateCreated := now }
        let s := saveNote s note
        let s := setContent s note.noteId (some params.content)
        let position :=
          match params.notePosition with
          | some p => p
          | none => getNewNotePosition s params.parentNoteId
        let (branchId, s) := newEntityId s
        let branch : Branch :=
          { branchId := branchId, noteId := note.noteId, parentNoteId := params.parentNoteId,
            notePosition := some position, prefix_ := "", isExpanded := params.isExpanded,
            isDeleted := false, deleteId := none }
        let s := saveBranch s branch
        Except.ok (s, note, branch)

/-- `getUndeletedParentBranches(noteId, deleteId)`: the note's branches deleted
under this very deleteId whose parent note exists and is not deleted. -/
def getUndeletedParentBranches (s : Store) (noteId d : String) : List Branch :=
  s.branches.filter (fun b =>
    b.noteId == noteId && b.isDeleted && b.deleteId == some d &&
      (match getNote s b.parentNoteId with
       | some p => !p.isDeleted
       | none => false))

mutual

/-- `undeleteBranch(branch, deleteId)`: a no-op on a live branch and on a
branch whose note was deleted under a different deleteId; otherwise clears the
branch's deleted flag and, when the note was deleted under this very deleteId,
clears the note, restores the attributes tagged with the deleteId that are
owned by or target the note, and recurses into the note's child branches
tagged with the deleteId. -/
def undeleteBranchGo : Nat → String → Store → String → Except RunError Store
  | 0, _, _, _ => Except.error RunError.fuelOut
  | Nat.succ fuel, d, s, branchId =>
    match getBranch s branchId with
    | none => Except.error (RunError.thrown "branch has no row")
    | some branch =>
      if !branch.isDeleted then Except.ok s
      else
        match getNote s branch.noteId with
        | none => Except.error (RunError.thrown "branch has no note")
        | some note =>
          if note.isDeleted && note.deleteId != some d then Except.ok s
          else
            let s1 := saveBranch s { branch with isDeleted := false }
            if note.isDeleted && note.deleteId == some d then
              let s2 := saveNote s1 { note with isDeleted := false }
              let attrs := s2.attributes.filter (fun a =>
                a.isDeleted && a.deleteId == some d &&
                  (a.noteId == note.noteId || (a.type == "relation" && a.value == note.noteId)))
              let s3 := attrs.foldl (fun st a => saveAttribute st { a with isDeleted := false }) s2
              let childIds := (s3.branches.filter (fun b =>
                b.isDeleted && b.deleteId == some d && b.parentNoteId == note.noteId)).map
                  (fun b => b.branchId)
              undeleteBranchesGo fuel d s3 childIds
            else
              Except.ok s1

/-- A loop of `undeleteBranch` calls over a list of branch ids, threading the
store (both the parent-branch loop of `undeleteNote` and the child-branch loop
of `undeleteBranch` have this shape). -/
def undeleteBranchesGo : Nat → String → Store → List String → Except RunError Store
  | 0, _, _, _ => Except.error RunError.fuelOut
  | Nat.succ _, _, s, [] => Except.ok s
  | Nat.succ fuel, d, s, c :: rest =>
    match undeleteBranchGo fuel d s c with
    | Except.error e => Except.error e
    | Except.ok s' => undeleteBranchesGo fuel d s' rest

end

/-- `undeleteNote(note, deleteId)`: restore through every branch of the note
that was deleted under this deleteId and hangs under a live parent; a no-op
when there is no such branch. -/
def undeleteNote (fuel : Nat) (s : Store) (noteId d : String) : Except RunError Store :=
  let parentBranches := getUndeletedParentBranches s noteId d
  if parentBranches.isEmpty then Except.ok s
  else undeleteBranchesGo fuel d s (parentBranches.map (fun b => b.branchId))

/-- Modelled from the spec: the entity layer's `note.hasLabel(name)` used by
the revision policy for the "disableVersioning" marker — the note carries a
live label of that name (the backend attribute resolver itself is outside the
given sources). -/
def hasOwnedLabel (s : Store) (noteId name : String) : Bool :=
  s.attributes.any (fun a =>
    a.noteId == noteId && a.type == "label" && a.name == name && !a.isDeleted)

/-- `saveNoteRevision(note)` of `services/notes.js`: file and image notes and
notes carrying "disableVersioning" are never versioned; otherwise a revision is
taken exactly when no revision of the note was created at or after
`now - interval*1000` and the note is at least `interval*1000` milliseconds
old.  `interval` is the `noteRevisionSnapshotTimeInterval` option in seconds;
`createNoteRevision` (a collaborator outside the sources) is modelled from the
spec as appending one fresh revision row. -/
def saveNoteRevision (now interval : Int) (s : Store) (noteId : String) :
    Except RunError Store :=
  match getNote s noteId with
  | none => Except.error (RunError.thrown "note has no row")
  | some note =>
    if note.type == "file" || note.type == "image" ||
        hasOwnedLabel s note.noteId "disableVersioning" then
      Except.ok s
    else
      let revisionCutoff := now - interval * 1000
      let existing := s.noteRevisions.any (fun r =>
        r.noteId == noteId && revisionCutoff ≤ r.utcDateCreated)
      let msSinceDateCreated := now - note.utcDateCreated
      if !existing && interval * 1000 ≤ msSinceDateCreated then
        let (rid, s1) := newEntityId s
        let rev : NoteRevision :=
          { noteRevisionId := rid, noteId := noteId, isProtected := note.isProtected,
            utcDateCreated := now }
        Except.ok { s1 with noteRevisions := s1.noteRevisions ++ [rev] }
      else
        Except.ok s

/-- The `noteUpdates` argument of `updateNote`. -/
structure NoteUpdates where
  title : String
  isProtected : Bool
  content : Option String
deriving Repr, DecidableEq

/-- `updateNote(noteId, noteUpdates)`: guards content availability (modelled
from the spec: protected content is unavailable while no protected session is
open), takes the revision snapshot first via `saveNoteRevision`, then updates
title, protected flag and content.  The `saveLinks` content pass rewrites link
markup and link attributes only and is modelled as the identity on the content
(no claim below concerns link bookkeeping); `protectNoteRevisions` (outside the
sources) is modelled from the spec as syncing the protected flag of the note's
revisions, adding or removing no revision row. -/
def updateNote (now interval : Int) (protectedSessionAvailable : Bool) (s : Store)
    (noteId : String) (upd : NoteUpdates) : Except RunError Store :=
  match getNote s noteId with
  | none => Except.error (RunError.thrown "note has no row")
  | some note =>
    if note.isProtected && !protectedSessionAvailable then
      Except.error (RunError.thrown "Note is not available for change")
    else
      match saveNoteRevision now interval s noteId with
      | Except.error e => Except.error e
      | Except.ok s1 =>
        let upd :=
          if ["file", "image"].contains note.type && note.isProtected != upd.isProtected then
            { upd with content :=
                (s1.noteContents.find? (fun c => c.noteId == noteId)).bind (fun c => c.content) }
          else upd
        let note2 := { note with title := upd.title, isProtected := upd.isProtected }
        let s2 := saveNote s1 note2
        let s3 :=
          match upd.content with
          | none => s2
          | some c => setContent s2 noteId (some c)
        let protRev := fun (r : NoteRevision) =>
          if r.noteId == noteId then { r with isProtected := note2.isProtected } else r
        Except.ok { s3 with noteRevisions := s3.noteRevisions.map protRev }

/-- JavaScript's `String.prototype.endsWith`, character-exact. -/
def endsWithStr (s suf : String) : Bool :=
  List.isSuffixOf suf.data s.data

/-- `replaceByMap(str, mapObj)` — every mapped old id occurring in the string
is substituted by its new id.  The source does one simultaneous regex pass; a
left fold of whole-string replacements is an adequate model here because no
claim below concerns content rewriting. -/
def replaceByMap (str : String) (m : List (String × String)) : String :=
  m.foldl (fun c p => replaceAllStr c p.1 p.2) str

/-- Lookup in a pregenerated note-id mapping (a JS object keyed by old id). -/
def mlookup (m : List (String × String)) (k : String) : Option String :=
  (m.find? (fun p => p.1 == k)).map (fun p => p.2)

/-- The relation-repoint rule of `duplicateSubtreeInner`: a relation whose
target lies inside the mapping is repointed to the mapped id, anything else
keeps its value. -/
def rewriteRelationTarget (mp : List (String × String)) (a : Attribute) : String :=
  if a.type == "relation" then
    match mlookup mp a.value with
    | some v => v
    | none => a.value
  else a.value

/-- The body of the owned-attribute clone loop of `duplicateSubtreeInner`:
save a copy of the attribute under a fresh id, owned by the new note, with
the value rewritten through the mapping. -/
def cloneAttr (mp : List (String × String)) (newOwner : String) (st : Store)
    (a : Attribute) : Store :=
  let (aid, st') := newEntityId st
  saveAttribute st'
    { a with attributeId := aid, noteId := newOwner, value := rewriteRelationTarget mp a }

/-- Modelled from the spec: the entity layer's `note.getDescendantNoteIds()` —
the ids reachable from the note through non-deleted child branches, the note
itself included, gathered by a fuel-bounded worklist walk. -/
def descendantNoteIdsGo (s : Store) : Nat → List String → List String → List String
  | 0, visited, _ => visited
  | _, visited, [] => visited
  | Nat.succ n, visited, id :: rest =>
    if visited.contains id then descendantNoteIdsGo s n visited rest
    else
      let childIds := (getChildBranchesOf s id).map (fun b => b.noteId)
      descendantNoteIdsGo s n (visited ++ [id]) (rest ++ childIds)

/-- `getNoteIdMapping(origNote)`: pregenerate a fresh id for the source note
and every descendant, before any cloning happens. -/
def getNoteIdMapping (fuel : Nat) (s : Store) (origNoteId : String) :
    List (String × String) × Store :=
  let ids := descendantNoteIdsGo s fuel [] [origNoteId]
  ids.foldl
    (fun (acc : List (String × String) × Store) id =>
      let (nid, st) := newEntityId acc.2
      (acc.1 ++ [(id, nid)], st))
    ([], s)

mutual

/-- `duplicateSubtreeInner(origNote, origBranch, newParentNoteId, noteIdMapping)`:
refuses unreadable protected notes, creates the clone's branch (at the original
position plus one), short-circuits when the mapped note was already
materialized through another branch, otherwise clones the note row, its
content (with in-content ids substituted for text/relation-map/search notes),
its owned attributes — repointing relation values that fall inside the mapping
— and recurses into the child branches.  Returns the clone's note id and the
created branch. -/
def duplicateSubtreeInnerGo : Nat → Bool → List (String × String) → Int → Store → String →
    Option String → String → Except RunError (Store × String × Branch)
  | 0, _, _, _, _, _, _, _ => Except.error RunError.fuelOut
  | Nat.succ fuel, sess, mapping, now, s, origNoteId, origBranchId, newParentNoteId =>
    match getNote s origNoteId with
    | none => Except.error (RunError.thrown "orig note has no row")
    | some origNote =>
      if origNote.isProtected && !sess then
        Except.error (RunError.thrown "Cannot duplicate protected note outside protected session")
      else
        match mlookup mapping origNote.noteId with
        | none => Except.error (RunError.thrown "note id not in mapping")
        | some newNoteId =>
          let origBranch := origBranchId.bind (getBranch s)
          let position :=
            match origBranch with
            | some b => some (b.notePosition.getD 0 + 1)
            | none => none
          let (branchId, sb) := newEntityId s
          let newBranch : Branch :=
            { branchId := branchId, noteId := newNoteId, parentNoteId := newParentNoteId,
              notePosition := position, prefix_ := "", isExpanded := false,
              isDeleted := false, deleteId := none }
          let s1 := saveBranch sb newBranch
          match getNote s1 newNoteId with
          | some existingNote => Except.ok (s1, existingNote.noteId, newBranch)
          | none =>
            let newNote := { origNote with noteId := newNoteId, utcDateCreated := now }
            let s2 := saveNote s1 newNote
            let contentOpt := (s2.noteContents.find? (fun c => c.noteId == origNote.noteId)).bind
              (fun c => c.content)
            match (if ["text", "relation-map", "search"].contains origNote.type then
                     contentOpt.map (fun c => replaceByMap c mapping)
                   else contentOpt) with
            | none => Except.error (RunError.thrown "orig note has no content")
            | some content =>
              let s3 := setContent s2 newNote.noteId (some content)
              let s4 := (getOwnedAttributesOf s3 origNote.noteId).foldl
                (cloneAttr mapping newNote.noteId) s3
              match duplicateChildrenGo fuel sess mapping now s4 newNote.noteId
                  ((getChildBranchesOf s4 origNote.noteId).map (fun b => (b.noteId, b.branchId))) with
              | Except.error e => Except.error e
              | Except.ok s5 => Except.ok (s5, newNote.noteId, newBranch)

/-- The child-branch loop of `duplicateSubtreeInner`: clone each child under
the new parent, threading the store. -/
def duplicateChildrenGo : Nat → Bool → List (String × String) → Int → Store → String →
    List (String × String) → Except RunError Store
  | 0, _, _, _, _, _, _ => Except.error RunError.fuelOut
  | Nat.succ _, _, _, _, s, _, [] => Except.ok s
  | Nat.succ fuel, sess, mapping, now, s, newParent, (childNoteId, childBranchId) :: rest =>
    match duplicateSubtreeInnerGo fuel sess mapping now s childNoteId (some childBranchId) newParent with
    | Except.error e => Except.error e
    | Except.ok (s', _, _) => duplicateChildrenGo fuel sess mapping now s' newParent rest

end

/-- `duplicateSubtree(origNoteId, newParentNoteId)`: rejected for root;
pregenerates the id mapping, clones the subtree, and appends the " (dup)"
title suffix to the clone unless the title already ends with "(dup)". -/
def duplicateSubtree (fuel : Nat) (sess : Bool) (now : Int) (s : Store)
    (origNoteId newParentNoteId : String) : Except RunError (Store × String × Branch) :=
  if origNoteId == "root" then
    Except.error (RunError.thrown "Duplicating root is not possible")
  else
    match getNote s origNoteId with
    | none => Except.error (RunError.thrown "orig note has no row")
    | some _origNote =>
      let origBranch := (getBranchesOfNote s origNoteId).find?
        (fun b => b.parentNoteId == newParentNoteId)
      let (mapping, s1) := getNoteIdMapping fuel s origNoteId
      match duplicateSubtreeInnerGo fuel sess mapping now s1 origNoteId
          (origBranch.map (fun b => b.branchId)) newParentNoteId with
      | Except.error e => Except.error e
      | Except.ok (s2, resNoteId, branch) =>
        match getNote s2 resNoteId with
        | none => Except.error (RunError.thrown "result note has no row")
        | some resNote =>
          let resNote2 :=
            if endsWithStr resNote.title "(dup)" then resNote
            else { resNote with title := resNote.title ++ " (dup)" }
          let s3 := saveNote s2 resNote2
          Except.ok (s3, resNote2.noteId, branch)

/-! ## The frontend attribute-inheritance resolver (`NoteShort`) -/

/-- A frontend attribute as held in the tree cache. -/
structure FAttribute where
  attributeId : String
  noteId : String
  type : String
  name : String
  value : String
  isInheritable : Bool
deriving Repr, DecidableEq

/-- A frontend `NoteShort`: its id, type, parent note ids, and the ids of its
owned attributes. -/
structure FNote where
  noteId : String
  type : String
  parents : List String
  attributes : List String
deriving Repr, DecidableEq

/-- The frontend `TreeCache`: notes and attributes keyed by id. -/
structure TreeCache where
  notes : List (String × FNote)
  attributes : List (String × FAttribute)
deriving Repr, DecidableEq

/-- The shared `noteAttributeCache.attributes` memo: resolved attribute lists
keyed by note id. -/
abbrev AttrCache : Type := List (String × List FAttribute)

/-- `treeCache.notes[id]` / `getNotesFromCache` lookup. -/
def TreeCache.noteFromCache (tc : TreeCache) (id : String) : Option FNote :=
  (tc.notes.find? (fun p => p.1 == id)).map (fun p => p.2)

/-- `treeCache.attributes[id]` lookup. -/
def TreeCache.attrFromCache (tc : TreeCache) (id : String) : Option FAttribute :=
  (tc.attributes.find? (fun p => p.1 == id)).map (fun p => p.2)

/-- `noteAttributeCache.attributes[id]` lookup. -/
def cacheLookup (c : AttrCache) (id : String) : Option (List FAttribute) :=
  (List.find? (fun p => p.1 == id) c).map (fun p => p.2)

/-- `getOwnedAttributes()` of `NoteShort`: map the note's attribute ids through
the tree cache and drop the missing ones (`filter(Boolean)`). -/
def getOwnedAttributesF (tc : TreeCache) (n : FNote) : List FAttribute :=
  n.attributes.filterMap tc.attrFromCache

/-- The dedup-by-`attributeId` pass at the end of `__getCachedAttributes`:
keep the first occurrence of every attribute id. -/
def dedupById (l : List FAttribute) : List FAttribute :=
  (l.foldl
    (fun (acc : List FAttribute × List String) a =>
      if acc.2.contains a.attributeId then acc
      else (acc.1 ++ [a], acc.2 ++ [a.attributeId]))
    ([], [])).1

mutual

/-- `NoteShort.__getCachedAttributes(path)`: returns `[]` when the note is
already on the traversal path (template edges may cycle), returns the memoized
entry when present, and otherwise gathers the note's owned attributes, the
inheritable attributes of its non-search parents (unless the note is root),
and — for every "template" relation seen so far — the full attribute set of
the target note (unless the target is the note itself), dedups by attribute id
and memoizes.  `none` means the fuel ran out. -/
def getCachedAttributesGo : Nat → TreeCache → List String → AttrCache → FNote →
    Option (List FAttribute × AttrCache)
  | 0, _, _, _, _ => none
  | Nat.succ fuel, tc, path, cache, note =>
    if path.contains note.noteId then some ([], cache)
    else
      match cacheLookup cache note.noteId with
      | some attrs => some (attrs, cache)
      | none =>
        let newPath := path ++ [note.noteId]
        let own := getOwnedAttributesF tc note
        match (if note.noteId == "root" then some ([], cache)
               else inheritableFromParentsGo fuel tc newPath cache
                 (note.parents.filterMap tc.noteFromCache)) with
        | none => none
        | some (parentArrs, cache1) =>
          let snapshot := (own :: parentArrs).flatten
          let templateAttrs := snapshot.filter
            (fun a => a.type == "relation" && a.name == "template")
          match templatesGo fuel tc newPath cache1 note.noteId templateAttrs with
          | none => none
          | some (tmplArrs, cache2) =>
            let deduped := dedupById (snapshot ++ tmplArrs.flatten)
            some (deduped, cache2 ++ [(note.noteId, deduped)])

/-- The parents loop of `__getCachedAttributes`: collect
`__getInheritableAttributes(newPath)` of every non-search parent in order,
threading the memo cache. -/
def inheritableFromParentsGo : Nat → TreeCache → List String → AttrCache → List FNote →
    Option (List (List FAttribute) × AttrCache)
  | 0, _, _, _, _ => none
  | Nat.succ _, _, _, cache, [] => some ([], cache)
  | Nat.succ fuel, tc, path, cache, p :: rest =>
    if p.type == "search" then inheritableFromParentsGo fuel tc path cache rest
    else
      match getCachedAttributesGo fuel tc path cache p with
      | none => none
      | some (attrs, cache') =>
        match inheritableFromParentsGo fuel tc path cache' rest with
        | none => none
        | some (arrs, cache'') =>
          some ((attrs.filter (fun a => a.isInheritable)) :: arrs, cache'')

/-- The template loop of `__getCachedAttributes`: for every template relation
of the snapshot whose target exists and differs from the current note, collect
the target's full cached attributes, threading the memo cache. -/
def templatesGo : Nat → TreeCache → List String → AttrCache → String → List FAttribute →
    Option (List (List FAttribute) × AttrCache)
  | 0, _, _, _, _, _ => none
  | Nat.succ _, _, _, cache, _, [] => some ([], cache)
  | Nat.succ fuel, tc, path, cache, selfId, ta :: rest =>
    match tc.noteFromCache ta.value with
    | none => templatesGo fuel tc path cache selfId rest
    | some tnote =>
      if tnote.noteId == selfId then templatesGo fuel tc path cache selfId rest
      else
        match getCachedAttributesGo fuel tc path cache tnote with
        | none => none
        | some (attrs, cache') =>
          match templatesGo fuel tc path cache' selfId rest with
          | none => none
          | some (arrs, cache'') => some (attrs :: arrs, cache'')

end

/-- `getAttributes()` of `NoteShort` (no type/name filter): resolve the note's
effective attribute set starting from the empty traversal path. -/
def getAttributesF (fuel : Nat) (tc : TreeCache) (cache : AttrCache) (noteId : String) :
    Option (List FAttribute × AttrCache) :=
  match tc.noteFromCache noteId with
  | none => none
  | some n => getCachedAttributesGo fuel tc [] cache n

/-! ## The consistency checker (`services/consistency_checks.js`) -/

/-- The mutable fields of a `ConsistencyChecks` instance, together with the
store it operates on. -/
structure CheckState where
  store : Store
  autoFix : Bool
  unrecovered : Bool
  fixedIssues : Bool
deriving Repr, DecidableEq

/-- `findAndFixIssues(query, fixerCb)`: evaluate the query once, then run the
fixer on every result row against the evolving store.  In auto-fix mode each
repaired finding sets `fixedIssues`; in report-only mode each finding sets
`unrecoveredConsistencyErrors` and the store is untouched (the source fixers
mutate only inside `if (this.autoFix)`).  The fixers modelled here are total,
so the source's per-finding catch branch is unreachable. -/
def findAndFixIssues {ρ : Type} (query : Store → List ρ) (fixer : Store → ρ → Store)
    (cs : CheckState) : CheckState :=
  (query cs.store).foldl
    (fun c r =>
      if c.autoFix then { c with store := fixer c.store r, fixedIssues := true }
      else { c with unrecovered := true })
    cs

/-- Does a `notes` row with this id exist (whatever its deleted flag)? -/
def noteExists (s : Store) (noteId : String) : Bool :=
  s.notes.any (fun n => n.noteId == noteId)

/-- Is there a deleted `notes` row with this id (the `JOIN notes` of the
existency checks)? -/
def deletedNoteExists (s : Store) (noteId : String) : Bool :=
  s.notes.any (fun n => n.noteId == noteId && n.isDeleted)

/-- Scan 1: non-deleted branches referencing a missing note. -/
def qBranchMissingNote (s : Store) : List String :=
  (s.branches.filter (fun b => !b.isDeleted && !noteExists s b.noteId)).map (fun b => b.branchId)

/-- Fix 1: delete the branch. -/
def fixBranchMissingNote (st : Store) (branchId : String) : Store :=
  match getBranch st branchId with
  | some b => saveBranch st { b with isDeleted := true }
  | none => st

/-- Scan 2: non-root non-deleted branches referencing a missing parent note. -/
def qBranchMissingParent (s : Store) : List String :=
  (s.branches.filter (fun b =>
    !b.isDeleted && b.branchId != "root" && !noteExists s b.parentNoteId)).map (fun b => b.branchId)

/-- Fix 2: re-parent the branch to root. -/
def fixBranchMissingParent (st : Store) (branchId : String) : Store :=
  match getBranch st branchId with
  | some b => saveBranch st { b with parentNoteId := "root" }
  | none => st

/-- Scan 3: non-deleted attributes whose owner note is missing. -/
def qAttrMissingOwner (s : Store) : List String :=
  (s.attributes.filter (fun a => !a.isDeleted && !noteExists s a.noteId)).map
    (fun a => a.attributeId)

/-- Scan 4: non-deleted relations whose target note is missing. -/
def qRelationMissingTarget (s : Store) : List String :=
  (s.attributes.filter (fun a =>
    !a.isDeleted && a.type == "relation" && !noteExists s a.value)).map (fun a => a.attributeId)

/-- Fix 3/4/14/16/17: delete the attribute. -/
def fixDeleteAttribute (st : Store) (attributeId : String) : Store :=
  match getAttribute st attributeId with
  | some a => saveAttribute st { a with isDeleted := true }
  | none => st

/-- `findBrokenReferenceIssues()`. -/
def findBrokenReferenceIssues (cs : CheckState) : CheckState :=
  cs |> findAndFixIssues qBranchMissingNote fixBranchMissingNote
     |> findAndFixIssues qBranchMissingParent fixBranchMissingParent
     |> findAndFixIssues qAttrMissingOwner fixDeleteAttribute
     |> findAndFixIssues qRelationMissingTarget fixDeleteAttribute

/-- Scan 5: non-deleted branches whose note is deleted. -/
def qBranchOfDeletedNote (s : Store) : List String :=
  (s.branches.filter (fun b => !b.isDeleted && deletedNoteExists s b.noteId)).map
    (fun b => b.branchId)

/-- Scan 6: non-deleted branches whose parent note is deleted. -/
def qBranchParentDeleted (s : Store) : List String :=
  (s.branches.filter (fun b => !b.isDeleted && deletedNoteExists s b.parentNoteId)).map
    (fun b => b.branchId)

/-- Fix 5/6: delete the branch. -/
def fixDeleteBranch (st : Store) (branchId : String) : Store :=
  match getBranch st branchId with
  | some b => saveBranch st { b with isDeleted := true }
  | none => st

/-- Scan 7: non-deleted notes without a single non-deleted branch. -/
def qNoteWithoutBranch (s : Store) : List String :=
  ((s.notes.filter (fun n =>
    !n.isDeleted && !(s.branches.any (fun b => b.noteId == n.noteId && !b.isDeleted)))).map
      (fun n => n.noteId)).dedup

/-- Fix 7: synthesize a "recovered"-prefixed branch under root.  The entity
defaults of `new Branch({...})` (fresh id, null position, not deleted) are
modelled from the spec. -/
def fixNoteWithoutBranch (st : Store) (noteId : String) : Store :=
  let (bid, st1) := newEntityId st
  saveBranch st1
    { branchId := bid, noteId := noteId, parentNoteId := "root", notePosition := none,
      prefix_ := "recovered", isExpanded := false, isDeleted := false, deleteId := none }

/-- Scan 8: (noteId, parentNoteId) pairs with more than one non-deleted branch. -/
def qDuplicateBranches (s : Store) : List (String × String) :=
  let pairs := (s.branches.filter (fun b => !b.isDeleted)).map (fun b => (b.noteId, b.parentNoteId))
  pairs.dedup.filter (fun p => 2 ≤ pairs.count p)

/-- Fix 8: keep the first surviving branch of the pair, delete the rest. -/
def fixDuplicateBranches (st : Store) (r : String × String) : Store :=
  match st.branches.filter (fun b => b.noteId == r.1 && b.parentNoteId == r.2 && !b.isDeleted) with
  | [] => st
  | _ :: rest => rest.foldl (fun acc b => saveBranch acc { b with isDeleted := true }) st

/-- `findExistencyIssues()`. -/
def findExistencyIssues (cs : CheckState) : CheckState :=
  cs |> findAndFixIssues qBranchOfDeletedNote fixDeleteBranch
     |> findAndFixIssues qBranchParentDeleted fixDeleteBranch
     |> findAndFixIssues qNoteWithoutBranch fixNoteWithoutBranch
     |> findAndFixIssues qDuplicateBranches fixDuplicateBranches

/-- The fixed enumeration of note types accepted by the checker. -/
def validNoteTypes : List String :=
  ["text", "code", "render", "file", "image", "search", "relation-map", "canvas-note", "book"]

/-- Scan 9: non-deleted notes of unknown type. -/
def qInvalidNoteType (s : Store) : List String :=
  (s.notes.filter (fun n => !n.isDeleted && !validNoteTypes.contains n.type)).map
    (fun n => n.noteId)

/-- Fix 9: coerce the type to "file". -/
def fixInvalidNoteType (st : Store) (noteId : String) : Store :=
  match getNote st noteId with
  | some n => saveNote st { n with type := "file" }
  | none => st

/-- Scan 10: notes (deleted or not) without a `note_contents` row. -/
def qMissingContentRow (s : Store) : List String :=
  (s.notes.filter (fun n => !(s.noteContents.any (fun c => c.noteId == n.noteId)))).map
    (fun n => n.noteId)

/-- Upsert of an `entity_changes` row by (entityName, entityId); models
`entityChangesService.addEntityChange`. -/
def upsertEntityChange (st : Store) (name id : String) (erased : Bool) : Store :=
  if st.entityChanges.any (fun e => e.entityName == name && e.entityId == id) then
    let upd := fun (e : EntityChange) =>
      if e.entityName == name && e.entityId == id then { e with isErased := erased } else e
    { st with entityChanges := st.entityChanges.map upd }
  else
    { st with entityChanges := st.entityChanges ++ [{ entityName := name, entityId := id, isErased := erased }] }

/-- Fix 10: protected notes get a null placeholder row (plus a journal entry),
unprotected ones get empty-string content. -/
def fixMissingContentRow (st : Store) (noteId : String) : Store :=
  match getNote st noteId with
  | some n =>
    if n.isProtected then upsertEntityChange (setContent st noteId none) "note_contents" noteId false
    else setContent st noteId (some "")
  | none => st

/-- Scan 11: null content on a non-deleted unprotected note. -/
def qNullContent (s : Store) : List String :=
  (s.notes.filter (fun n =>
    !n.isDeleted && !n.isProtected &&
      s.noteContents.any (fun c => c.noteId == n.noteId && c.content == none))).map
    (fun n => n.noteId)

/-- Fix 11: set the content to the empty string. -/
def fixNullContent (st : Store) (noteId : String) : Store :=
  setContent st noteId (some "")

/-- Scan 12: unprotected note revisions without a content row. -/
def qMissingRevisionContent (s : Store) : List String :=
  (s.noteRevisions.filter (fun r =>
    !r.isProtected &&
      !(s.noteRevisionContents.any (fun c => c.noteRevisionId == r.noteRevisionId)))).map
    (fun r => r.noteRevisionId)

/-- Modelled from the spec: `noteRevisionService.eraseNoteRevisions` —
physically remove the revisions and their content rows and flag their journal
records erased. -/
def eraseNoteRevisionsModel (st : Store) (ids : List String) : Store :=
  let erase := fun (e : EntityChange) =>
    if (e.entityName == "note_revisions" || e.entityName == "note_revision_contents") &&
        ids.contains e.entityId then { e with isErased := true } else e
  { st with
    noteRevisions := st.noteRevisions.filter (fun r => !(ids.contains r.noteRevisionId)),
    noteRevisionContents := st.noteRevisionContents.filter (fun c => !(ids.contains c.noteRevisionId)),
    entityChanges := st.entityChanges.map erase }

/-- Fix 12: erase the revision. -/
def fixMissingRevisionContent (st : Store) (noteRevisionId : String) : Store :=
  eraseNoteRevisionsModel st [noteRevisionId]

/-- Scan 13: one row per non-deleted branch sitting under a live search note
(the row carries the parent note id). -/
def qSearchChildren (s : Store) : List String :=
  (s.branches.filter (fun b =>
    !b.isDeleted &&
      s.notes.any (fun n => n.noteId == b.parentNoteId && !n.isDeleted && n.type == "search"))).map
    (fun b => b.parentNoteId)

/-- Fix 13: move every non-deleted child branch of that parent to root. -/
def fixSearchChildren (st : Store) (parentNoteId : String) : Store :=
  (st.branches.filter (fun b => !b.isDeleted && b.parentNoteId == parentNoteId)).foldl
    (fun acc b => saveBranch acc { b with parentNoteId := "root" }) st

/-- Scan 14: non-deleted relations with an empty value. -/
def qEmptyRelation (s : Store) : List String :=
  (s.attributes.filter (fun a => !a.isDeleted && a.type == "relation" && a.value == "")).map
    (fun a => a.attributeId)

/-- Scan 15: non-deleted attributes that are neither labels nor relations. -/
def qInvalidAttributeType (s : Store) : List String :=
  (s.attributes.filter (fun a => !a.isDeleted && a.type != "label" && a.type != "relation")).map
    (fun a => a.attributeId)

/-- Fix 15: coerce the attribute type to "label". -/
def fixInvalidAttributeType (st : Store) (attributeId : String) : Store :=
  match getAttribute st attributeId with
  | some a => saveAttribute st { a with type := "label" }
  | none => st

/-- Scan 16: non-deleted attributes owned by a deleted note. -/
def qAttrOfDeletedNote (s : Store) : List String :=
  (s.attributes.filter (fun a => !a.isDeleted && deletedNoteExists s a.noteId)).map
    (fun a => a.attributeId)

/-- Scan 17: non-deleted relations targeting a deleted note. -/
def qRelationToDeletedNote (s : Store) : List String :=
  (s.attributes.filter (fun a =>
    a.type == "relation" && !a.isDeleted && deletedNoteExists s a.value)).map
    (fun a => a.attributeId)

/-- `findLogicIssues()`. -/
def findLogicIssues (cs : CheckState) : CheckState :=
  cs |> findAndFixIssues qInvalidNoteType fixInvalidNoteType
     |> findAndFixIssues qMissingContentRow fixMissingContentRow
     |> findAndFixIssues qNullContent fixNullContent
     |> findAndFixIssues qMissingRevisionContent fixMissingRevisionContent
     |> findAndFixIssues qSearchChildren fixSearchChildren
     |> findAndFixIssues qEmptyRelation fixDeleteAttribute
     |> findAndFixIssues qInvalidAttributeType fixInvalidAttributeType
     |> findAndFixIssues qAttrOfDeletedNote fixDeleteAttribute
     |> findAndFixIssues qRelationToDeletedNote fixDeleteAttribute

/-- Scan of `runEntityChangeChecks`, first half: rows of the table with no
journal record (erased or not); `tableIds` lists the table's keys (for
`options` only the synced rows are scanned). -/
def qMissingEntityChange (name : String) (tableIds : Store → List String) (s : Store) :
    List String :=
  (tableIds s).filter (fun i =>
    !(s.entityChanges.any (fun e => e.entityName == name && e.entityId == i)))

/-- Fix: synthesize the missing journal record. -/
def fixMissingEntityChange (name : String) (st : Store) (id : String) : Store :=
  upsertEntityChange st name id false

/-- Scan of `runEntityChangeChecks`, second half: non-erased journal records
whose row is gone (`existsIds` lists every key of the table, synced or not). -/
def qStrayEntityChange (name : String) (existsIds : Store → List String) (s : Store) :
    List String :=
  (s.entityChanges.filter (fun e =>
    !e.isErased && e.entityName == name && !((existsIds s).contains e.entityId))).map
    (fun e => e.entityId)

/-- Fix: delete every journal record of that entity. -/
def fixStrayEntityChange (name : String) (st : Store) (id : String) : Store :=
  let keep := fun (e : EntityChange) => !(e.entityName == name && e.entityId == id)
  { st with entityChanges := st.entityChanges.filter keep }

/-- `runEntityChangeChecks(entityName, key)` for one table. -/
def runEntityChangeChecks (name : String) (scanIds existsIds : Store → List String)
    (cs : CheckState) : CheckState :=
  cs |> findAndFixIssues (qMissingEntityChange name scanIds) (fixMissingEntityChange name)
     |> findAndFixIssues (qStrayEntityChange name existsIds) (fixStrayEntityChange name)

/-- Keys of the `notes` table. -/
def idsNotes (s : Store) : List String := s.notes.map (fun n => n.noteId)

/-- Keys of the `note_contents` table. -/
def idsNoteContents (s : Store) : List String := s.noteContents.map (fun c => c.noteId)

/-- Keys of the `note_revisions` table. -/
def idsNoteRevisions (s : Store) : List String := s.noteRevisions.map (fun r => r.noteRevisionId)

/-- Keys of the `branches` table. -/
def idsBranches (s : Store) : List String := s.branches.map (fun b => b.branchId)

/-- Keys of the `attributes` table. -/
def idsAttributes (s : Store) : List String := s.attributes.map (fun a => a.attributeId)

/-- Keys of the `api_tokens` table. -/
def idsApiTokens (s : Store) : List String := s.apiTokens.map (fun t => t.apiTokenId)

/-- Keys of the `options` table. -/
def idsOptionsAll (s : Store) : List String := s.options.map (fun o => o.name)

/-- Keys of the synced rows of the `options` table. -/
def idsOptionsSynced (s : Store) : List String :=
  (s.options.filter (fun o => o.isSynced)).map (fun o => o.name)

/-- `findEntityChangeIssues()`. -/
def findEntityChangeIssues (cs : CheckState) : CheckState :=
  cs |> runEntityChangeChecks "notes" idsNotes idsNotes
     |> runEntityChangeChecks "note_contents" idsNoteContents idsNoteContents
     |> runEntityChangeChecks "note_revisions" idsNoteRevisions idsNoteRevisions
     |> runEntityChangeChecks "branches" idsBranches idsBranches
     |> runEntityChangeChecks "attributes" idsAttributes idsAttributes
     |> runEntityChangeChecks "api_tokens" idsApiTokens idsApiTokens
     |> runEntityChangeChecks "options" idsOptionsSynced idsOptionsAll

/-- `findWronglyNamedAttributes()` with the sanitizer (a collaborator outside
the sources, passed as a parameter): every distinct attribute name whose
sanitized form differs is rewritten in place through a direct SQL update,
bypassing the entity save path. -/
def findWronglyNamedAttributes (sanitize : String → String) (cs : CheckState) : CheckState :=
  ((cs.store.attributes.map (fun a => a.name)).dedup).foldl
    (fun c origName =>
      let fixedName := sanitize origName
      if fixedName != origName then
        if c.autoFix then
          let ren := fun (a : Attribute) => if a.name == origName then { a with name := fixedName } else a
          { c with store := { c.store with attributes := c.store.attributes.map ren },
                   fixedIssues := true }
        else { c with unrecovered := true }
      else c)
    cs

/-- `childToParents` of `checkTreeCycles`: parent lists of every child note id
occurring in a non-deleted branch, in row order. -/
def buildChildToParents (s : Store) : List (String × List String) :=
  (s.branches.filter (fun b => !b.isDeleted)).foldl
    (fun acc b =>
      if acc.any (fun p => p.1 == b.noteId) then
        acc.map (fun p => if p.1 == b.noteId then (p.1, p.2 ++ [b.parentNoteId]) else p)
      else acc ++ [(b.noteId, [b.parentNoteId])])
    []

/-- Lookup in `childToParents`. -/
def parentsOf (m : List (String × List String)) (noteId : String) : Option (List String) :=
  (m.find? (fun p => p.1 == noteId)).map (fun p => p.2)

mutual

/-- `checkTreeCycle(noteId, path)`: walking every parent chain, flag (return
`true`) a note with no parents or a parent already on the path.  `none` means
the fuel ran out. -/
def checkTreeCycleGo : Nat → List (String × List String) → String → List String → Option Bool
  | 0, _, _, _ => none
  | Nat.succ fuel, m, noteId, path =>
    if noteId == "root" then some false
    else
      match parentsOf m noteId with
      | none => some true
      | some parents =>
        if parents.isEmpty then some true
        else checkTreeCycleParentsGo fuel m noteId path parents

/-- The parent loop of `checkTreeCycle`. -/
def checkTreeCycleParentsGo : Nat → List (String × List String) → String → List String →
    List String → Option Bool
  | 0, _, _, _, _ => none
  | Nat.succ _, _, _, _, [] => some false
  | Nat.succ fuel, m, noteId, path, parent :: rest =>
    if path.contains parent then
      match checkTreeCycleParentsGo fuel m noteId path rest with
      | none => none
      | some flag => some (true || flag)
    else
      match checkTreeCycleGo fuel m parent (path ++ [noteId]) with
      | none => none
      | some flag1 =>
        match checkTreeCycleParentsGo fuel m noteId path rest with
        | none => none
        | some flag2 => some (flag1 || flag2)

end

/-- The loop of `checkTreeCycles` over every child note id. -/
def checkTreeCyclesAllGo : Nat → List (String × List String) → List String → Option Bool
  | 0, _, _ => none
  | Nat.succ _, _, [] => some false
  | Nat.succ fuel, m, id :: rest =>
    match checkTreeCycleGo fuel m id [] with
    | none => none
    | some flag1 =>
      match checkTreeCyclesAllGo fuel m rest with
      | none => none
      | some flag2 => some (flag1 || flag2)

/-- `checkTreeCycles()`: walk every parent chain and verify root's parent set
is exactly {"none"}.  A store whose `childToParents` has no entry for "root"
makes the source throw a TypeError (`undefined.length`), modelled as a thrown
error. -/
def checkTreeCycles (fuel : Nat) (s : Store) : Except RunError Bool :=
  let m := buildChildToParents s
  match checkTreeCyclesAllGo fuel m (m.map (fun p => p.1)) with
  | none => Except.error RunError.fuelOut
  | some flag =>
    match parentsOf m "root" with
    | none => Except.error (RunError.thrown "childToParents of root is undefined")
    | some l => Except.ok (flag || !(l == ["none"]))

/-- The five scan-and-fix phases of `runAllChecksAndFixers`, in source order. -/
def checkerPhases (sanitize : String → String) (cs : CheckState) : CheckState :=
  findWronglyNamedAttributes sanitize (findEntityChangeIssues (findLogicIssues
    (findExistencyIssues (findBrokenReferenceIssues cs))))

/-- The root-expansion step of `runAllChecksAndFixers`. -/
def expandRoot (s : Store) : Store :=
  { s with branches := s.branches.map (fun b => if b.branchId == "root" then { b with isExpanded := true } else b) }

/-- `runAllChecksAndFixers()`: reset the flags, run the whole battery, force
the root branch expanded, and run the cycle detection only when the predicate
phase left no unrecovered error. -/
def runAllChecksAndFixers (sanitize : String → String) (fuel : Nat) (autoFix : Bool)
    (s : Store) : Except RunError CheckState :=
  let cs := checkerPhases sanitize
    { store := s, autoFix := autoFix, unrecovered := false, fixedIssues := false }
  let cs := { cs with store := expandRoot cs.store }
  if !cs.unrecovered then
    match checkTreeCycles fuel cs.store with
    | Except.error e => Except.error e
    | Except.ok flag => Except.ok { cs with unrecovered := cs.unrecovered || flag }
  else
    Except.ok cs

/-- The positions of a parent's non-deleted branches (the rows over which
`getNewNotePosition` takes the SQL `MAX`). -/
def sibPositions (s : Store) (parentNoteId : String) : List Int :=
  (s.branches.filter (fun b => b.parentNoteId == parentNoteId && !b.isDeleted)).filterMap
    (fun b => b.notePosition)

/-- Whether an id has the shape produced by `genId` (starts with `g`); fresh
generated ids are disjoint from any store whose ids do not look generated. -/
def looksGenerated (id : String) : Bool :=
  match id.data with
  | [] => false
  | c :: _ => c == 'g'

/-- `a'` is a faithful clone of some source attribute of `src` under the id
mapping `m`: all descriptive fields copied, and the value repointed through
`m` exactly when the source is a relation into the mapping's domain (C7's
rewrite rule).  The source is owned by an original (non-generated) note. -/
def cloneOf (m : List (String × String)) (src : List Attribute) (a' : Attribute) : Prop :=
  ∃ a ∈ src, looksGenerated a.noteId = false ∧
    a'.type = a.type ∧ a'.name = a.name ∧ a'.position = a.position ∧
    a'.isInheritable = a.isInheritable ∧ a'.isDeleted = a.isDeleted ∧
    ((a.type = "relation" ∧ ∃ v, mlookup m a.value = some v ∧ a'.value = v) ∨
     ((a.type ≠ "relation" ∨ mlookup m a.value = none) ∧ a'.value = a.value))

/-- Ids at or above the store's id counter are unused among the attribute
rows (so the next generated attribute id is fresh). -/
def nextIdFresh (s : Store) : Prop :=
  ∀ a ∈ s.attributes, ∀ k, s.nextId ≤ k → a.attributeId ≠ genId k

/-- The revision ids of a store, in row order ("which revisions exist"). -/
def revIds (s : Store) : List String :=
  s.noteRevisions.map (fun r => r.noteRevisionId)

/-- The revision-policy claim, stated in the claim's own words with "the
note's age since creation exceeds that interval" read strictly: a revision is
expected exactly when the note is not file/image/disableVersioning, no
revision lies within the trailing interval, and the age strictly exceeds the
interval.  Kept separate from `saveNoteRevision` (which embeds the source) to
compare the two. -/
def revisionExpectedByClaim (now interval : Int) (s : Store) (note : Note) : Prop :=
  ¬(note.type = "file" ∨ note.type = "image" ∨
      hasOwnedLabel s note.noteId "disableVersioning" = true) ∧
  ¬(∃ r ∈ s.noteRevisions, r.noteId = note.noteId ∧ now - interval * 1000 ≤ r.utcDateCreated) ∧
  interval * 1000 < now - note.utcDateCreated

/-! ## Concrete example entities and stores (used by witnesses and
counterexamples) -/

/-- A live text note with the given id. -/
def exNote (id : String) : Note :=
  { noteId := id, title := id, type := "text", mime := "text/html", isProtected := false,
    isDeleted := false, deleteId := none, utcDateCreated := 0 }

/-- A live branch with the given id, note, parent and position. -/
def exBranch (bid nid pid : String) (pos : Int) : Branch :=
  { branchId := bid, noteId := nid, parentNoteId := pid, notePosition := some pos, prefix_ := "",
    isExpanded := false, isDeleted := false, deleteId := none }

/-- A live attribute with the given id, owner, type, name and value. -/
def exAttr (aid owner ty nm v : String) (inh : Bool) : Attribute :=
  { attributeId := aid, noteId := owner, type := ty, name := nm, value := v, position := 0,
    isInheritable := inh, isDeleted := false, deleteId := none }

/-- The empty store. -/
def emptyStore : Store :=
  { notes := [], branches := [], attributes := [], noteContents := [], noteRevisions := [],
    noteRevisionContents := [], entityChanges := [], apiTokens := [], options := [],
    changeLog := [], nextId := 0 }

/-- A store whose root branch is already soft-deleted. -/
def wRootDeletedStore : Store :=
  { emptyStore with
    notes := [exNote "root"],
    branches := [{ exBranch "root" "root" "none" 0 with isDeleted := true }] }

/-- A store with root siblings at positions 0, 10 and 20. -/
def wPosStore : Store :=
  { emptyStore with
    notes := [exNote "root"],
    branches := [exBranch "root" "root" "none" 0, exBranch "p0" "n0" "root" 0,
                 exBranch "p1" "n1" "root" 10, exBranch "p2" "n2" "root" 20] }

/-- Parameters of a createNote call without an explicit position. -/
def wPosParams : CreateNoteParams :=
  { parentNoteId := "root", title := "t", content := "", type := "text", mime := none,
    isProtected := false, isExpanded := false, notePosition := none, noteId := none }

/-- The result triple of the witness createNote run. -/
def wPosRes : Store × Note × Branch :=
  match createNewNote 0 wPosStore wPosParams with
  | Except.ok r => r
  | Except.error _ => (emptyStore, exNote "x", exBranch "x" "x" "x" 0)

/-- A store with a small subtree under "A" (child "C"), a sibling "Z", a
relation from "A" into the subtree and one out of it. -/
def wDupStore : Store :=
  { emptyStore with
    notes := [exNote "root", exNote "A", exNote "C", exNote "Z"],
    branches := [exBranch "root" "root" "none" 0, exBranch "bA" "A" "root" 10,
                 exBranch "bC" "C" "A" 10, exBranch "bZ" "Z" "root" 20],
    attributes := [exAttr "r1" "A" "relation" "inner" "C" false,
                   exAttr "r2" "A" "relation" "outer" "Z" false],
    noteContents := [{ noteId := "root", content := some "" },
                     { noteId := "A", content := some "hello" },
                     { noteId := "C", content := some "see A" },
                     { noteId := "Z", content := some "" }] }

/-- The result triple of the witness duplicateSubtree run. -/
def wDupRes : Store × String × Branch :=
  match duplicateSubtree 20 true 5 wDupStore "A" "Z" with
  | Except.ok r => r
  | Except.error _ => (emptyStore, "x", exBranch "x" "x" "x" 0)

/-- A store with a single fresh note "A" (created at time 0, no revisions). -/
def wRevStore : Store :=
  { emptyStore with notes := [exNote "A"], branches := [exBranch "bA" "A" "root" 0] }

/-- The result store of the witness updateNote run (note "A" is well past the
revision interval). -/
def wUpdRes : Store :=
  match updateNote 60000000 600 true wRevStore "A"
      { title := "A2", isProtected := false, content := none } with
  | Except.ok t => t
  | Except.error _ => emptyStore

/-- An inheritable label owned by note "A" of the frontend example cache. -/
def aLblC10 : FAttribute :=
  { attributeId := "a1", noteId := "A", type := "label", name := "lbl", value := "v", isInheritable := true }

/-- A "template" relation from note "A" to note "T". -/
def aTmplC10 : FAttribute :=
  { attributeId := "a2", noteId := "A", type := "relation", name := "template", value := "T", isInheritable := false }

/-- A frontend tree cache: "A" (child of root) owns the inheritable label and
the template relation to "T"; "T" is a child of "A" with no owned attributes,
so its template chain climbs back into "A" via the parent walk. -/
def tcC10 : TreeCache :=
  { notes := [("root", { noteId := "root", type := "text", parents := [], attributes := [] }),
              ("A", { noteId := "A", type := "text", parents := ["root"], attributes := ["a1", "a2"] }),
              ("T", { noteId := "T", type := "text", parents := ["A"], attributes := [] })],
    attributes := [("a1", aLblC10), ("a2", aTmplC10)] }

/-- The (attributes, memo cache) pair produced by resolving "A" first on
`tcC10` with a fresh memo cache. -/
def c10ResA : List FAttribute × AttrCache :=
  match getAttributesF 10 tcC10 [] "A" with
  | some rc => rc
  | none => ([], [])

/-- Well-formedness of the frontend tree cache: every note row is keyed by its
own note id. -/
def WFTreeCache (tc : TreeCache) : Prop :=
  ∀ p ∈ tc.notes, p.2.noteId = p.1

/-- Invariant of the shared memo cache: every memoized attribute list contains
a representative (same attribute id) of every owned attribute of its note. -/
def GoodCache (tc : TreeCache) (c : AttrCache) : Prop :=
  ∀ (id : String) (attrs : List FAttribute), cacheLookup c id = some attrs →
    ∀ noteI, tc.noteFromCache id = some noteI →
      ∀ b ∈ getOwnedAttributesF tc noteI, ∃ a' ∈ attrs, a'.attributeId = b.attributeId

/-- Template relation from "A" to "T" in the cyclic template example. -/
def aTmplC3 : FAttribute :=
  { attributeId := "c1", noteId := "A", type := "relation", name := "template", value := "T", isInheritable := false }

/-- Plain non-inheritable label owned by "T" in the cyclic template example. -/
def tLblC3 : FAttribute :=
  { attributeId := "c2", noteId := "T", type := "label", name := "tl", value := "w", isInheritable := false }

/-- Template relation from "T" back to "A": the cyclic template edge. -/
def tTmplC3 : FAttribute :=
  { attributeId := "c3", noteId := "T", type := "relation", name := "template", value := "A", isInheritable := false }

/-- A frontend tree cache with a template cycle: "A" has a template relation
to "T" (a sibling, not an ancestor), and "T" has a template relation back to
"A"; "T" also owns a non-inheritable label. -/
def tcC3 : TreeCache :=
  { notes := [("root", { noteId := "root", type := "text", parents := [], attributes := [] }),
              ("A", { noteId := "A", type := "text", parents := ["root"], attributes := ["c1"] }),
              ("T", { noteId := "T", type := "text", parents := ["root"], attributes := ["c2", "c3"] })],
    attributes := [("c1", aTmplC3), ("c2", tLblC3), ("c3", tTmplC3)] }

/-- The (attributes, memo cache) pair of resolving "A" on `tcC3` with a fresh
memo cache. -/
def c3Res : List FAttribute × AttrCache :=
  match getAttributesF 10 tcC3 [] "A" with
  | some rc => rc
  | none => ([], [])

/-- A search note "S" under root whose child "X" also has a second branch
directly under root: the search-children fix re-parents the child to root and
thereby creates a duplicate (note, parent) pair that only the next checker run
detects. -/
def s4C4 : Store :=
  { emptyStore with
    notes := [exNote "root", { exNote "S" with type := "search" }, exNote "X"],
    branches := [exBranch "root" "root" "none" 0, exBranch "bS" "S" "root" 10,
                 exBranch "bX1" "X" "S" 10, exBranch "bX2" "X" "root" 20],
    noteContents := [{ noteId := "root", content := some "" },
                     { noteId := "S", content := some "" },
                     { noteId := "X", content := some "" }] }

/-- A parent cycle between "A" and "B" that no fixer repairs. -/
def s5C4 : Store :=
  { emptyStore with
    notes := [exNote "root", exNote "A", exNote "B"],
    branches := [exBranch "root" "root" "none" 0, exBranch "bA" "A" "B" 10,
                 exBranch "bB" "B" "A" 10],
    noteContents := [{ noteId := "root", content := some "" },
                     { noteId := "A", content := some "" },
                     { noteId := "B", content := some "" }] }

/-- Fallback state for failed checker runs. -/
def csFail : CheckState :=
  { store := emptyStore, autoFix := true, unrecovered := true, fixedIssues := false }

/-- First autofix run on the search store. -/
def c4Run1 : CheckState :=
  match runAllChecksAndFixers (fun x => x) 10 true s4C4 with
  | Except.ok cs => cs
  | Except.error _ => csFail

/-- Second autofix run on the search store. -/
def c4Run2 : CheckState :=
  match runAllChecksAndFixers (fun x => x) 10 true c4Run1.store with
  | Except.ok cs => cs
  | Except.error _ => csFail

/-- First autofix run on the cyclic store. -/
def c4bRun1 : CheckState :=
  match runAllChecksAndFixers (fun x => x) 10 true s5C4 with
  | Except.ok cs => cs
  | Except.error _ => csFail

/-- Second autofix run on the cyclic store. -/
def c4bRun2 : CheckState :=
  match runAllChecksAndFixers (fun x => x) 10 true c4bRun1.store with
  | Except.ok cs => cs
  | Except.error _ => csFail

/-- A store that satisfies every scan of the checker: one root note, its
branch (already expanded), a content row and complete journal records. -/
def sCleanC4 : Store :=
  { emptyStore with
    notes := [exNote "root"],
    branches := [{ exBranch "root" "root" "none" 0 with isExpanded := true }],
    noteContents := [{ noteId := "root", content := some "" }],
    entityChanges := [{ entityName := "notes", entityId := "root", isErased := false },
                      { entityName := "note_contents", entityId := "root", isErased := false },
                      { entityName := "branches", entityId := "root", isErased := false }] }

/-- The autofix run on the clean store. -/
def c4CleanRes : CheckState :=
  match runAllChecksAndFixers (fun x => x) 10 true sCleanC4 with
  | Except.ok cs => cs
  | Except.error _ => csFail

/-- The id columns of the three entity tables are duplicate-free (unique
primary keys). -/
def idsNodup (s : Store) : Prop :=
  (s.branches.map (fun b => b.branchId)).Nodup ∧
  (s.notes.map (fun n => n.noteId)).Nodup ∧
  (s.attributes.map (fun a => a.attributeId)).Nodup

/-- Pointwise evolution of a branch row under a delete cascade with operation
id `d`: unchanged, or soft-deleted from a live row carrying exactly `d`. -/
def delEvB (d : String) (old new : Branch) : Prop :=
  new = old ∨ (old.isDeleted = false ∧ new = markBranchDeleted d old)

/-- Pointwise evolution of a note row under a delete cascade. -/
def delEvN (d : String) (old new : Note) : Prop :=
  new = old ∨ (old.isDeleted = false ∧ new = markNoteDeleted d old)

/-- Pointwise evolution of an attribute row under a delete cascade. -/
def delEvA (d : String) (old new : Attribute) : Prop :=
  new = old ∨ (old.isDeleted = false ∧ new = markAttributeDeleted d old)

/-- Pointwise evolution of a branch row under an undelete with operation id
`d`: unchanged, or restored from a row soft-deleted under exactly `d`. -/
def undelEvB (d : String) (old new : Branch) : Prop :=
  new = old ∨ (old.isDeleted = true ∧ old.deleteId = some d ∧
    new = { old with isDeleted := false })

/-- Pointwise evolution of a note row under an undelete. -/
def undelEvN (d : String) (old new : Note) : Prop :=
  new = old ∨ (old.isDeleted = true ∧ old.deleteId = some d ∧
    new = { old with isDeleted := false })

/-- Pointwise evolution of an attribute row under an undelete. -/
def undelEvA (d : String) (old new : Attribute) : Prop :=
  new = old ∨ (old.isDeleted = true ∧ old.deleteId = some d ∧
    new = { old with isDeleted := false })

/-- Store consistency used by the delete cascade: the note of every live
branch is itself live (deleting a note's last branch soft-deletes the note, so
a live branch always hangs onto a live note). -/
def liveBranchNoteLive (s : Store) : Prop :=
  ∀ b ∈ s.branches, b.isDeleted = false → ∀ n ∈ s.notes, n.noteId = b.noteId →
    n.isDeleted = false

/-- Deletion-cascade witness store: "A" under root with child "C", one label
owned by "A" and one relation (owned by root) targeting "A". -/
def wDelStore : Store :=
  { emptyStore with
    notes := [exNote "root", exNote "A", exNote "C"],
    branches := [exBranch "root" "root" "none" 0, exBranch "bA" "A" "root" 10,
                 exBranch "bC" "C" "A" 10],
    attributes := [exAttr "a1" "A" "label" "x" "v" false,
                   exAttr "a2" "root" "relation" "r" "A" false] }

/-- The result of deleting branch "bA" of the witness store. -/
def wDelRes : Store × Bool :=
  match deleteBranchGo 10 "hoist" "D1" wDelStore "bA" with
  | Except.ok r => r
  | Except.error _ => (emptyStore, false)

/-- Undelete example store: note "N" under root through branch "bN"; note "C"
clone-placed both under "N" (branch "bC") and under root (branch "bC2"). -/
def wUndelStore : Store :=
  { emptyStore with
    notes := [exNote "root", exNote "N", exNote "C"],
    branches := [exBranch "root" "root" "none" 0, exBranch "bN" "N" "root" 10,
                 exBranch "bC" "C" "N" 10, exBranch "bC2" "C" "root" 20] }

/-- After deleting branch "bN" under deleteId "D": "bN", "N" and "bC" are
deleted with "D"; "C" stays live through its second branch "bC2". -/
def wUndelS1 : Store :=
  match deleteBranchGo 10 "hoist" "D" wUndelStore "bN" with
  | Except.ok (s, _) => s
  | Except.error _ => emptyStore

/-- After further deleting branch "bC2" under deleteId "D2": "bC2" and note
"C" are deleted with "D2". -/
def wUndelS2 : Store :=
  match deleteBranchGo 10 "hoist" "D2" wUndelS1 "bC2" with
  | Except.ok (s, _) => s
  | Except.error _ => emptyStore

/-- Undeleting note "N" with deleteId "D" on the doubly-deleted store. -/
def wUndelS3 : Store :=
  match undeleteNote 10 wUndelS2 "N" "D" with
  | Except.ok s => s
  | Except.error _ => emptyStore

/-- Undeleting note "N" with deleteId "D" right after the first delete. -/
def wUndelRestored : Store :=
  match undeleteNote 10 wUndelS1 "N" "D" with
  | Except.ok s => s
  | Except.error _ => emptyStore

/-! ## General helper lemmas -/

theorem foldl_max_le_self (l : List Int) (a : Int) : a ≤ l.foldl max a := by
  induction l generalizing a with
  | nil => exact le_refl a
  | cons x xs ih => exact le_trans (le_max_left a x) (ih (max a x))

theorem le_foldl_max_of_mem {l : List Int} {q : Int} (hq : q ∈ l) (a : Int) :
    q ≤ l.foldl max a := by
  induction l generalizing a with
  | nil => cases hq
  | cons x xs ih =>
    rcases List.mem_cons.mp hq with h | h
    · subst h
      exact le_trans (le_max_right a q) (foldl_max_le_self xs (max a q))
    · exact ih h (max a x)

theorem foldl_max_mem (l : List Int) (a : Int) : l.foldl max a = a ∨ l.foldl max a ∈ l := by
  induction l generalizing a with
  | nil => exact Or.inl rfl
  | cons x xs ih =>
    simp only [List.foldl_cons]
    rcases ih (max a x) with h | h
    · rcases max_cases a x with ⟨hm, _⟩ | ⟨hm, _⟩
      · exact Or.inl (h.trans hm)
      · exact Or.inr (by rw [h, hm]; exact List.mem_cons_self x xs)
    · exact Or.inr (List.mem_cons_of_mem x h)

/-! ## C9: deleteBranch on an absent or already deleted branch -/

/-- C9.  `deleteBranch` called on a branch that is absent or already marked
deleted returns false and modifies nothing, whatever the branch id and the
hoisted note id — in particular for the root branch or the hoisted note's
branch: the idempotency check precedes the root/hoisted guard, so no error is
raised. -/
theorem deleteBranch_absent_or_deleted_noop (fuel : Nat) (hoisted d : String) (s : Store)
    (branchId : String)
    (h : getBranch s branchId = none ∨
         ∃ b, getBranch s branchId = some b ∧ b.isDeleted = true) :
    deleteBranchGo (fuel + 1) hoisted d s branchId = Except.ok (s, false) := by
  rcases h with h | ⟨b, hb, hdel⟩
  · simp [deleteBranchGo, h]
  · simp [deleteBranchGo, hb, hdel]

/-- Witness for C9: a concrete store whose root branch is already deleted;
deleting it again is an accepted no-op even though it is the root branch. -/
theorem deleteBranch_absent_or_deleted_noop_witness :
    (getBranch wRootDeletedStore "root" = none ∨
      ∃ b, getBranch wRootDeletedStore "root" = some b ∧ b.isDeleted = true) ∧
    deleteBranchGo 5 "hoist" "D" wRootDeletedStore "root" = Except.ok (wRootDeletedStore, false) := by
  refine ⟨Or.inr ⟨_, rfl, rfl⟩, ?_⟩
  exact deleteBranch_absent_or_deleted_noop 4 "hoist" "D" wRootDeletedStore "root"
    (Or.inr ⟨_, rfl, rfl⟩)

/-! ## C5: createNote position policy -/

theorem saveNote_branches (s : Store) (n : Note) : (saveNote s n).branches = s.branches := by
  unfold saveNote
  split <;> rfl

theorem setContent_branches (s : Store) (noteId : String) (c : Option String) :
    (setContent s noteId c).branches = s.branches := by
  unfold setContent
  split <;> rfl

theorem newEntityId_branches (s : Store) : (newEntityId s).2.branches = s.branches := rfl

theorem getNewNotePosition_congr {s t : Store} (h : s.branches = t.branches)
    (parentNoteId : String) : getNewNotePosition s parentNoteId = getNewNotePosition t parentNoteId := by
  unfold getNewNotePosition
  rw [h]

theorem getNewNotePosition_eq_sib (s : Store) (pid : String) :
    getNewNotePosition s pid =
      (match sibPositions s pid with
       | [] => 0
       | p :: rest => rest.foldl max p + 10) := rfl

theorem getNewNotePosition_spec (s inner : Store) (hb : inner.branches = s.branches)
    (pid : String) :
    (sibPositions s pid = [] → getNewNotePosition inner pid = 0) ∧
    (sibPositions s pid ≠ [] →
      ∃ p ∈ sibPositions s pid, getNewNotePosition inner pid = p + 10 ∧
        ∀ q ∈ sibPositions s pid, q ≤ p) := by
  have hs : sibPositions inner pid = sibPositions s pid := by
    unfold sibPositions
    rw [hb]
  rw [getNewNotePosition_eq_sib, hs]
  constructor
  · intro h
    rw [h]
  · intro h
    rcases hl : sibPositions s pid with - | ⟨p, rest⟩
    · exact absurd hl h
    · have hmem : rest.foldl max p ∈ p :: rest := by
        rcases foldl_max_mem rest p with hm | hm
        · rw [hm]; exact List.mem_cons_self p rest
        · exact List.mem_cons_of_mem p hm
      refine ⟨rest.foldl max p, hmem, rfl, ?_⟩
      intro q hq
      rcases List.mem_cons.mp hq with hh | hh
      · subst hh; exact foldl_max_le_self rest q
      · exact le_foldl_max_of_mem hh p

/-- C5.  A `createNewNote` call without an explicit position places the new
branch at the maximum position among the parent's non-deleted branches plus
ten, and at zero when the parent has no non-deleted (positioned) branch. -/
theorem createNewNote_position (now : Int) (s : Store) (params : CreateNoteParams)
    (s' : Store) (note : Note) (branch : Branch)
    (hp : params.notePosition = none)
    (hrun : createNewNote now s params = Except.ok (s', note, branch)) :
    ∃ pos, branch.notePosition = some pos ∧
      (sibPositions s params.parentNoteId = [] → pos = 0) ∧
      (sibPositions s params.parentNoteId ≠ [] →
        ∃ p ∈ sibPositions s params.parentNoteId, pos = p + 10 ∧
          ∀ q ∈ sibPositions s params.parentNoteId, q ≤ p) := by
  unfold createNewNote at hrun
  cases h1 : getNote s params.parentNoteId with
  | none => rw [h1] at hrun; exact absurd hrun (by simp)
  | some parent =>
    rw [h1] at hrun
    cases h2 : (jsTrim params.title == "") with
    | true => rw [h2] at hrun; exact absurd hrun (by simp)
    | false =>
      rw [h2] at hrun
      cases h3 : deriveMime params.type params.mime with
      | error e => rw [h3] at hrun; exact absurd hrun (by simp)
      | ok mime =>
        rw [h3, hp] at hrun
        simp only [Bool.false_eq_true, if_false, reduceIte] at hrun
        cases h4 : params.noteId with
        | some nid =>
          rw [h4] at hrun
          simp only [Except.ok.injEq, Prod.mk.injEq] at hrun
          obtain ⟨-, -, hbr⟩ := hrun
          have hspec := getNewNotePosition_spec s
            (setContent (saveNote s
              { noteId := nid, title := params.title, type := params.type, mime := mime,
                isProtected := params.isProtected, isDeleted := false, deleteId := none,
                utcDateCreated := now }) nid (some params.content))
            (by rw [setContent_branches, saveNote_branches]) params.parentNoteId
          exact ⟨_, by rw [← hbr], hspec.1, hspec.2⟩
        | none =>
          rw [h4] at hrun
          simp only [Except.ok.injEq, Prod.mk.injEq] at hrun
          obtain ⟨-, -, hbr⟩ := hrun
          have hspec := getNewNotePosition_spec s
            (setContent (saveNote (newEntityId s).2
              { noteId := (newEntityId s).1, title := params.title, type := params.type,
                mime := mime, isProtected := params.isProtected, isDeleted := false,
                deleteId := none, utcDateCreated := now }) (newEntityId s).1 (some params.content))
            (by rw [setContent_branches, saveNote_branches, newEntityId_branches])
            params.parentNoteId
          exact ⟨_, by rw [← hbr], hspec.1, hspec.2⟩

/-- Witness for C5: under root siblings at positions 0, 10 and 20 the new
branch lands at 30 (= 20 + 10). -/
theorem createNewNote_position_witness :
    (∃ pos, wPosRes.2.2.notePosition = some pos ∧
      (sibPositions wPosStore "root" = [] → pos = 0) ∧
      (sibPositions wPosStore "root" ≠ [] →
        ∃ p ∈ sibPositions wPosStore "root", pos = p + 10 ∧
          ∀ q ∈ sibPositions wPosStore "root", q ≤ p)) ∧
    wPosRes.2.2.notePosition = some 30 := by
  refine ⟨createNewNote_position 0 wPosStore wPosParams wPosRes.1 wPosRes.2.1 wPosRes.2.2
    rfl (by decide), by decide⟩

/-! ## C8: the revision policy of updateNote -/

theorem saveNote_noteRevisions (s : Store) (n : Note) :
    (saveNote s n).noteRevisions = s.noteRevisions := by
  unfold saveNote
  split <;> rfl

theorem setContent_noteRevisions (s : Store) (noteId : String) (c : Option String) :
    (setContent s noteId c).noteRevisions = s.noteRevisions := by
  unfold setContent
  split <;> rfl

/-- The skip guard of `saveNoteRevision`, Bool and Prop forms. -/
theorem revisionSkip_iff (s : Store) (note : Note) :
    ((note.type == "file" || note.type == "image" ||
        hasOwnedLabel s note.noteId "disableVersioning") = true) ↔
      (note.type = "file" ∨ note.type = "image" ∨
        hasOwnedLabel s note.noteId "disableVersioning" = true) := by
  simp [Bool.or_eq_true, beq_iff_eq, or_assoc]

/-- The recent-revision test of `saveNoteRevision`, Bool and Prop forms. -/
theorem revisionRecent_iff (s : Store) (noteId : String) (cutoff : Int) :
    ((s.noteRevisions.any (fun r => r.noteId == noteId && cutoff ≤ r.utcDateCreated)) = true) ↔
      (∃ r ∈ s.noteRevisions, r.noteId = noteId ∧ cutoff ≤ r.utcDateCreated) := by
  simp [List.any_eq_true, Bool.and_eq_true, beq_iff_eq, decide_eq_true_eq]

/-- Characterization of `saveNoteRevision`: nothing for file/image or
disableVersioning notes; otherwise one appended revision exactly when no
revision lies at or after the cutoff and the age is at least the interval. -/
theorem saveNoteRevision_revIds (now interval : Int) (s : Store) (noteId : String) (note : Note)
    (hn : getNote s noteId = some note) (s1 : Store)
    (hrun : saveNoteRevision now interval s noteId = Except.ok s1) :
    ((note.type = "file" ∨ note.type = "image" ∨
        hasOwnedLabel s note.noteId "disableVersioning" = true) → revIds s1 = revIds s) ∧
    (¬(note.type = "file" ∨ note.type = "image" ∨
        hasOwnedLabel s note.noteId "disableVersioning" = true) →
      ((((¬∃ r ∈ s.noteRevisions, r.noteId = noteId ∧
            now - interval * 1000 ≤ r.utcDateCreated) ∧
          interval * 1000 ≤ now - note.utcDateCreated) →
          ∃ rid, revIds s1 = revIds s ++ [rid]) ∧
        ((¬((¬∃ r ∈ s.noteRevisions, r.noteId = noteId ∧
            now - interval * 1000 ≤ r.utcDateCreated) ∧
          interval * 1000 ≤ now - note.utcDateCreated)) → revIds s1 = revIds s))) := by
  unfold saveNoteRevision at hrun
  rw [hn] at hrun
  simp only [] at hrun
  cases hskip : (note.type == "file" || note.type == "image" ||
      hasOwnedLabel s note.noteId "disableVersioning") with
  | true =>
    rw [hskip] at hrun
    simp only [if_true, Except.ok.injEq, reduceIte] at hrun
    subst hrun
    refine ⟨fun _ => rfl, fun hns => absurd ((revisionSkip_iff s note).mp hskip) hns⟩
  | false =>
    rw [hskip] at hrun
    simp only [Bool.false_eq_true, if_false, reduceIte] at hrun
    have hskipP : ¬(note.type = "file" ∨ note.type = "image" ∨
        hasOwnedLabel s note.noteId "disableVersioning" = true) := by
      intro hc
      rw [← revisionSkip_iff s note] at hc
      rw [hskip] at hc
      cases hc
    refine ⟨fun hc => absurd hc hskipP, fun _ => ?_⟩
    cases hcond : (!s.noteRevisions.any (fun r =>
        r.noteId == noteId && now - interval * 1000 ≤ r.utcDateCreated) &&
        interval * 1000 ≤ now - note.utcDateCreated) with
    | true =>
      rw [hcond] at hrun
      simp only [if_true, Except.ok.injEq, reduceIte] at hrun
      subst hrun
      have hcondP := hcond
      simp only [Bool.and_eq_true, Bool.not_eq_true', decide_eq_true_eq] at hcondP
      have hnotex : ¬∃ r ∈ s.noteRevisions,
          r.noteId = noteId ∧ now - interval * 1000 ≤ r.utcDateCreated := by
        intro hc
        rw [← revisionRecent_iff s noteId (now - interval * 1000)] at hc
        rw [hcondP.1] at hc
        cases hc
      constructor
      · intro _
        exact ⟨genId s.nextId, by simp [revIds, newEntityId]⟩
      · intro hnc
        exact absurd ⟨hnotex, hcondP.2⟩ hnc
    | false =>
      rw [hcond] at hrun
      simp only [Bool.false_eq_true, if_false, Except.ok.injEq, reduceIte] at hrun
      subst hrun
      have hcondP : ¬((¬∃ r ∈ s.noteRevisions, r.noteId = noteId ∧
          now - interval * 1000 ≤ r.utcDateCreated) ∧
          interval * 1000 ≤ now - note.utcDateCreated) := by
        intro ⟨hne, hage⟩
        rw [← revisionRecent_iff s noteId (now - interval * 1000)] at hne
        have : (!s.noteRevisions.any (fun r =>
            r.noteId == noteId && now - interval * 1000 ≤ r.utcDateCreated) &&
            interval * 1000 ≤ now - note.utcDateCreated) = true := by
          simp only [Bool.and_eq_true, Bool.not_eq_true', decide_eq_true_eq]
          exact ⟨Bool.not_eq_true _ ▸ (by simpa using hne), hage⟩
        rw [hcond] at this
        cases this
      exact ⟨fun hc => absurd hc hcondP, fun _ => rfl⟩

/-- Mapping an id-preserving function over the revisions (as the
revision-protection sync of `updateNote` does) renames no revision. -/
theorem revIds_protSync (t : Store) (f : NoteRevision → NoteRevision)
    (hf : ∀ r, (f r).noteRevisionId = r.noteRevisionId) :
    revIds { t with noteRevisions := t.noteRevisions.map f } = revIds t := by
  unfold revIds
  simp only [List.map_map]
  congr 1
  funext r
  exact hf r

/-- The set of revisions after `updateNote` is exactly the set after its
initial `saveNoteRevision` step: the remaining steps never touch it. -/
theorem updateNote_revIds (now interval : Int) (sess : Bool) (s : Store) (noteId : String)
    (upd : NoteUpdates) (s' : Store) (note : Note)
    (hn : getNote s noteId = some note)
    (hrun : updateNote now interval sess s noteId upd = Except.ok s') :
    ∃ s1, saveNoteRevision now interval s noteId = Except.ok s1 ∧ revIds s' = revIds s1 := by
  unfold updateNote at hrun
  rw [hn] at hrun
  simp only [] at hrun
  cases hpr : (note.isProtected && !sess) with
  | true => rw [hpr] at hrun; exact absurd hrun (by simp)
  | false =>
    rw [hpr] at hrun
    simp only [Bool.false_eq_true, if_false, reduceIte] at hrun
    cases hs1 : saveNoteRevision now interval s noteId with
    | error e => rw [hs1] at hrun; exact absurd hrun (by simp)
    | ok s1 =>
      rw [hs1] at hrun
      simp only [Except.ok.injEq] at hrun
      refine ⟨s1, rfl, ?_⟩
      rw [← hrun, revIds_protSync _ _ (fun r => by
        by_cases h : (r.noteId == noteId) = true <;> simp [h])]
      split
      · unfold revIds
        rw [saveNote_noteRevisions]
      · unfold revIds
        rw [setContent_noteRevisions, saveNote_noteRevisions]

/-- C8 (amended: "age at least the interval").  The revision step preceding an
`updateNote` creates no revision for file or image notes or notes carrying a
"disableVersioning" label; otherwise it creates exactly one new revision when
no revision of the note lies within the trailing interval and the note's age
since creation is at least the interval, and none otherwise. -/
theorem updateNote_revision_policy (now interval : Int) (sess : Bool) (s : Store)
    (noteId : String) (upd : NoteUpdates) (s' : Store) (note : Note)
    (hn : getNote s noteId = some note)
    (hrun : updateNote now interval sess s noteId upd = Except.ok s') :
    ((note.type = "file" ∨ note.type = "image" ∨
        hasOwnedLabel s note.noteId "disableVersioning" = true) → revIds s' = revIds s) ∧
    (¬(note.type = "file" ∨ note.type = "image" ∨
        hasOwnedLabel s note.noteId "disableVersioning" = true) →
      ((((¬∃ r ∈ s.noteRevisions, r.noteId = noteId ∧
            now - interval * 1000 ≤ r.utcDateCreated) ∧
          interval * 1000 ≤ now - note.utcDateCreated) →
          ∃ rid, revIds s' = revIds s ++ [rid]) ∧
        ((¬((¬∃ r ∈ s.noteRevisions, r.noteId = noteId ∧
            now - interval * 1000 ≤ r.utcDateCreated) ∧
          interval * 1000 ≤ now - note.utcDateCreated)) → revIds s' = revIds s))) := by
  obtain ⟨s1, hs1, heq⟩ := updateNote_revIds now interval sess s noteId upd s' note hn hrun
  rw [heq]
  exact saveNoteRevision_revIds now interval s noteId note hn s1 hs1

/-- Counterexample for C8 as stated: for a note whose age equals the interval
exactly (600 s at 600000 ms), the source takes a revision although the claim
("age strictly exceeds the interval") forbids one. -/
theorem updateNote_revision_policy_counterexample :
    (updateNote 600000 600 true wRevStore "A"
        { title := "A", isProtected := false, content := none }).map revIds =
      Except.ok ["g"] ∧
    revIds wRevStore = [] ∧
    ¬ revisionExpectedByClaim 600000 600 wRevStore (exNote "A") := by
  refine ⟨by decide, rfl, ?_⟩
  rintro ⟨-, -, hage⟩
  simp [exNote] at hage

/-- Witness for C8's amended theorem: a fresh unlabelled text note one hundred
intervals old with no revision gets exactly one new revision. -/
theorem updateNote_revision_policy_witness :
    ((exNote "A").type = "file" ∨ (exNote "A").type = "image" ∨
        hasOwnedLabel wRevStore "A" "disableVersioning" = true → False) ∧
    ∃ rid, revIds wUpdRes = revIds wRevStore ++ [rid] := by
  have h := updateNote_revision_policy 60000000 600 true wRevStore "A"
    { title := "A2", isProtected := false, content := none } wUpdRes (exNote "A")
    (by decide) (by decide)
  refine ⟨by decide, ?_⟩
  refine (h.2 (by decide)).1 ⟨?_, by decide⟩
  rintro ⟨r, hr, -⟩
  simp [wRevStore, emptyStore] at hr

/-! ## C6 and C7: duplicateSubtree -/

theorem genId_looksGenerated (n : Nat) : looksGenerated (genId n) = true := by
  simp [looksGenerated, genId, List.replicate_succ]

theorem saveBranch_notes (s : Store) (b : Branch) : (saveBranch s b).notes = s.notes := by
  unfold saveBranch
  split <;> rfl

theorem saveAttribute_notes (s : Store) (a : Attribute) :
    (saveAttribute s a).notes = s.notes := by
  unfold saveAttribute
  split <;> rfl

theorem setContent_notes (s : Store) (noteId : String) (c : Option String) :
    (setContent s noteId c).notes = s.notes := by
  unfold setContent
  split <;> rfl

theorem newEntityId_notes (s : Store) : (newEntityId s).2.notes = s.notes := rfl

theorem getNote_congr {s t : Store} (h : s.notes = t.notes) (id : String) :
    getNote s id = getNote t id := by
  unfold getNote
  rw [h]

/-- One clone step rewritten as a plain `saveAttribute` on the bumped store. -/
theorem cloneAttr_eq (mp : List (String × String)) (newOwner : String) (st : Store)
    (a : Attribute) :
    cloneAttr mp newOwner st a =
      saveAttribute { st with nextId := st.nextId + 1 }
        { a with
          attributeId := genId st.nextId,
          noteId := newOwner,
          value := rewriteRelationTarget mp a } := rfl

/-- The attribute-clone loop of `duplicateSubtreeInner` leaves `notes`
untouched. -/
theorem dupAttrFold_notes (mapping : List (String × String)) (newOwner : String)
    (l : List Attribute) (st : Store) :
    (l.foldl (cloneAttr mapping newOwner) st).notes = st.notes := by
  induction l generalizing st with
  | nil => rfl
  | cons a rest ih =>
    simp only [List.foldl_cons]
    rw [ih, cloneAttr_eq, saveAttribute_notes]

/-- The note rows of the input store survive, in place, every
`duplicateSubtreeInner` run: the clone phase only appends note rows. -/
theorem dup_notes_append (fuel : Nat) :
    (∀ sess mapping now s oid obid np t nid br,
      duplicateSubtreeInnerGo fuel sess mapping now s oid obid np = Except.ok (t, nid, br) →
      ∃ Δ, t.notes = s.notes ++ Δ) ∧
    (∀ sess mapping now s np l t,
      duplicateChildrenGo fuel sess mapping now s np l = Except.ok t →
      ∃ Δ, t.notes = s.notes ++ Δ) := by
  induction fuel with
  | zero =>
    constructor
    · intro sess mapping now s oid obid np t nid br h
      exact absurd h (by simp [duplicateSubtreeInnerGo])
    · intro sess mapping now s np l t h
      exact absurd h (by simp [duplicateChildrenGo])
  | succ fuel ih =>
    constructor
    · intro sess mapping now s oid obid np t nid br h
      unfold duplicateSubtreeInnerGo at h
      cases ho : getNote s oid with
      | none => rw [ho] at h; exact absurd h (by simp)
      | some origNote =>
        rw [ho] at h
        simp only [] at h
        cases hp : (origNote.isProtected && !sess) with
        | true => rw [hp] at h; exact absurd h (by simp)
        | false =>
          rw [hp] at h
          simp only [Bool.false_eq_true, if_false, reduceIte] at h
          cases hm : mlookup mapping origNote.noteId with
          | none => rw [hm] at h; exact absurd h (by simp)
          | some newNoteId =>
            rw [hm] at h
            simp only [] at h
            cases hex : getNote (saveBranch (newEntityId s).2
                { branchId := (newEntityId s).1, noteId := newNoteId, parentNoteId := np,
                  notePosition :=
                    match obid.bind (getBranch s) with
                    | some b => some (b.notePosition.getD 0 + 1)
                    | none => none,
                  prefix_ := "", isExpanded := false, isDeleted := false,
                  deleteId := none }) newNoteId with
            | some existingNote =>
              rw [hex] at h
              simp only [Except.ok.injEq, Prod.mk.injEq] at h
              obtain ⟨ht, -, -⟩ := h
              exact ⟨[], by rw [← ht, saveBranch_notes, newEntityId_notes, List.append_nil]⟩
            | none =>
              rw [hex] at h
              simp only [] at h
              cases hc : (if ["text", "relation-map", "search"].contains origNote.type then
                  ((saveNote (saveBranch (newEntityId s).2
                    { branchId := (newEntityId s).1, noteId := newNoteId, parentNoteId := np,
                      notePosition :=
                        match obid.bind (getBranch s) with
                        | some b => some (b.notePosition.getD 0 + 1)
                        | none => none,
                      prefix_ := "", isExpanded := false, isDeleted := false,
                      deleteId := none })
                    { origNote with noteId := newNoteId, utcDateCreated := now }).noteContents.find?
                      (fun c => c.noteId == origNote.noteId)).bind (fun c => c.content) |>.map
                    (fun c => replaceByMap c mapping)
                else
                  ((saveNote (saveBranch (newEntityId s).2
                    { branchId := (newEntityId s).1, noteId := newNoteId, parentNoteId := np,
                      notePosition :=
                        match obid.bind (getBranch s) with
                        | some b => some (b.notePosition.getD 0 + 1)
                        | none => none,
                      prefix_ := "", isExpanded := false, isDeleted := false,
                      deleteId := none })
                    { origNote with noteId := newNoteId, utcDateCreated := now }).noteContents.find?
                      (fun c => c.noteId == origNote.noteId)).bind (fun c => c.content)) with
              | none => rw [hc] at h; exact absurd h (by simp)
              | some content =>
                rw [hc] at h
                simp only [] at h
                cases hch : duplicateChildrenGo fuel sess mapping now _ newNoteId _ with
                | error e => rw [hch] at h; exact absurd h (by simp)
                | ok s5 =>
                  rw [hch] at h
                  simp only [Except.ok.injEq, Prod.mk.injEq] at h
                  obtain ⟨ht, -, -⟩ := h
                  obtain ⟨Δ, hΔ⟩ := ih.2 _ _ _ _ _ _ _ hch
                  refine ⟨{ origNote with noteId := newNoteId, utcDateCreated := now } :: Δ, ?_⟩
                  rw [← ht, hΔ, dupAttrFold_notes, setContent_notes]
                  have hany : ((saveBranch (newEntityId s).2
                      { branchId := (newEntityId s).1, noteId := newNoteId, parentNoteId := np,
                        notePosition :=
                          match obid.bind (getBranch s) with
                          | some b => some (b.notePosition.getD 0 + 1)
                          | none => none,
                        prefix_ := "", isExpanded := false, isDeleted := false,
                        deleteId := none }).notes.any
                      (fun m => m.noteId == newNoteId)) = false := by
                    rw [List.any_eq_false]
                    intro x hx
                    unfold getNote at hex
                    have := List.find?_eq_none.mp hex x hx
                    simpa using this
                  unfold saveNote
                  rw [hany]
                  simp only [Bool.false_eq_true, if_false, reduceIte]
                  rw [saveBranch_notes, newEntityId_notes]
                  simp
    · intro sess mapping now s np l t h
      unfold duplicateChildrenGo at h
      cases l with
      | nil =>
        simp only [Except.ok.injEq] at h
        exact ⟨[], by rw [← h, List.append_nil]⟩
      | cons c rest =>
        obtain ⟨cn, cb⟩ := c
        simp only [] at h
        cases hc : duplicateSubtreeInnerGo fuel sess mapping now s cn (some cb) np with
        | error e => rw [hc] at h; exact absurd h (by simp)
        | ok r =>
          rw [hc] at h
          obtain ⟨r1, r2, r3⟩ := r
          obtain ⟨Δ1, h1⟩ := ih.1 _ _ _ _ _ _ _ _ _ _ hc
          obtain ⟨Δ2, h2⟩ := ih.2 _ _ _ _ _ _ _ h
          exact ⟨Δ1 ++ Δ2, by rw [h2, h1, List.append_assoc]⟩

theorem mlookup_mem {m : List (String × String)} {k v : String}
    (h : mlookup m k = some v) : ∃ p ∈ m, p.1 = k ∧ p.2 = v := by
  unfold mlookup at h
  cases hf : m.find? (fun p => p.1 == k) with
  | none => rw [hf] at h; cases h
  | some p =>
    rw [hf] at h
    refine ⟨p, List.mem_of_find?_eq_some hf, ?_, by simpa using h⟩
    have := List.find?_some hf
    simpa using this

/-- When no row carries the note id yet, `saveNote` appends. -/
theorem saveNote_notes_append {s : Store} {n : Note}
    (h : s.notes.any (fun m => m.noteId == n.noteId) = false) :
    (saveNote s n).notes = s.notes ++ [n] := by
  unfold saveNote
  rw [h]
  simp

/-- Every pregenerated id of `getNoteIdMapping` looks generated. -/
theorem getNoteIdMapping_values_generated (fuel : Nat) (s : Store) (o : String) :
    ∀ p ∈ (getNoteIdMapping fuel s o).1, looksGenerated p.2 = true := by
  unfold getNoteIdMapping
  generalize descendantNoteIdsGo s fuel [] [o] = ids
  have hgen : ∀ (acc : List (String × String) × Store),
      (∀ p ∈ acc.1, looksGenerated p.2 = true) →
      ∀ p ∈ (ids.foldl
        (fun acc id =>
          let (nid, st) := newEntityId acc.2
          (acc.1 ++ [(id, nid)], st)) acc).1, looksGenerated p.2 = true := by
    induction ids with
    | nil => intro acc hacc p hp; exact hacc p hp
    | cons i rest ih =>
      intro acc hacc p hp
      refine ih _ ?_ p hp
      intro q hq
      rcases List.mem_append.mp hq with hq | hq
      · exact hacc q hq
      · rcases List.mem_singleton.mp hq with rfl
        exact genId_looksGenerated _
  exact hgen ([], s) (by intro p hp; cases hp)

/-- Pregenerating the id mapping leaves note rows untouched. -/
theorem getNoteIdMapping_notes (fuel : Nat) (s : Store) (o : String) :
    (getNoteIdMapping fuel s o).2.notes = s.notes := by
  unfold getNoteIdMapping
  generalize descendantNoteIdsGo s fuel [] [o] = ids
  have hinv : ∀ (acc : List (String × String) × Store), acc.2.notes = s.notes →
      (ids.foldl
        (fun acc id =>
          let (nid, st) := newEntityId acc.2
          (acc.1 ++ [(id, nid)], st)) acc).2.notes = s.notes := by
    induction ids with
    | nil => intro acc hacc; exact hacc
    | cons i rest ih =>
      intro acc hacc
      exact ih _ (by rw [newEntityId_notes]; exact hacc)
  exact hinv ([], s) rfl

/-- A generated-looking id matches no note of a store whose note ids do not
look generated. -/
theorem getNote_none_of_generated {s t : Store} {id : String}
    (hfresh : ∀ n ∈ t.notes, looksGenerated n.noteId = false)
    (hnotes : s.notes = t.notes)
    (hgen : looksGenerated id = true) : getNote s id = none := by
  unfold getNote
  rw [hnotes, List.find?_eq_none]
  intro x hx hbeq
  have hx2 := hfresh x hx
  rw [show x.noteId = id from by simpa using hbeq, hgen] at hx2
  cases hx2

theorem find?_append_left_none {α : Type} (p : α → Bool) (l₁ l₂ : List α)
    (h : l₁.find? p = none) : (l₁ ++ l₂).find? p = l₂.find? p := by
  induction l₁ with
  | nil => rfl
  | cons a l ih =>
    rw [List.find?_cons] at h
    cases hp : p a with
    | true => rw [hp] at h; simp at h
    | false =>
      rw [hp] at h
      rw [List.cons_append, List.find?_cons, hp]
      exact ih h

/-- JavaScript's endsWith holds after appending the suffix. -/
theorem endsWithStr_append_dup (x : String) : endsWithStr (x ++ " (dup)") "(dup)" = true := by
  unfold endsWithStr
  rw [String.data_append]
  have : "(dup)".data <:+ x.data ++ " (dup)".data := ⟨x.data ++ [' '], by simp⟩
  simpa [List.isSuffixOf_iff_suffix] using this

/-- A non-shortcut top-level `duplicateSubtreeInner` run stores the clone
under its pregenerated id with the source note's title (and all other fields)
copied. -/
theorem dup_inner_clone (fuel : Nat) (sess : Bool) (mp : List (String × String)) (now : Int)
    (s1 : Store) (oid : String) (obid : Option String) (np : String) (s2 : Store)
    (rid : String) (br2 : Branch) (origNote : Note)
    (horig : getNote s1 oid = some origNote)
    (hfreshN : ∀ n ∈ s1.notes, looksGenerated n.noteId = false)
    (hgenvals : ∀ p ∈ mp, looksGenerated p.2 = true)
    (hrun : duplicateSubtreeInnerGo (fuel + 1) sess mp now s1 oid obid np =
      Except.ok (s2, rid, br2)) :
    getNote s2 rid = some { origNote with noteId := rid, utcDateCreated := now } ∧
    looksGenerated rid = true := by
  unfold duplicateSubtreeInnerGo at hrun
  rw [horig] at hrun
  simp only [] at hrun
  cases hp : (origNote.isProtected && !sess) with
  | true => rw [hp] at hrun; exact absurd hrun (by simp)
  | false =>
    rw [hp] at hrun
    simp only [Bool.false_eq_true, if_false, reduceIte] at hrun
    cases hm : mlookup mp origNote.noteId with
    | none => rw [hm] at hrun; exact absurd hrun (by simp)
    | some newId =>
      rw [hm] at hrun
      simp only [] at hrun
      have hgen : looksGenerated newId = true := by
        obtain ⟨p, hpm, -, hp2⟩ := mlookup_mem hm
        rw [← hp2]
        exact hgenvals p hpm
      have hnone : getNote (saveBranch (newEntityId s1).2
          { branchId := (newEntityId s1).1, noteId := newId, parentNoteId := np,
            notePosition :=
              match obid.bind (getBranch s1) with
              | some b => some (b.notePosition.getD 0 + 1)
              | none => none,
            prefix_ := "", isExpanded := false, isDeleted := false,
            deleteId := none }) newId = none := by
        exact getNote_none_of_generated hfreshN (by rw [saveBranch_notes, newEntityId_notes]) hgen
      rw [hnone] at hrun
      simp only [] at hrun
      cases hc : (if ["text", "relation-map", "search"].contains origNote.type then
          ((saveNote (saveBranch (newEntityId s1).2
            { branchId := (newEntityId s1).1, noteId := newId, parentNoteId := np,
              notePosition :=
                match obid.bind (getBranch s1) with
                | some b => some (b.notePosition.getD 0 + 1)
                | none => none,
              prefix_ := "", isExpanded := false, isDeleted := false,
              deleteId := none })
            { origNote with noteId := newId, utcDateCreated := now }).noteContents.find?
              (fun c => c.noteId == origNote.noteId)).bind (fun c => c.content) |>.map
            (fun c => replaceByMap c mp)
        else
          ((saveNote (saveBranch (newEntityId s1).2
            { branchId := (newEntityId s1).1, noteId := newId, parentNoteId := np,
              notePosition :=
                match obid.bind (getBranch s1) with
                | some b => some (b.notePosition.getD 0 + 1)
                | none => none,
              prefix_ := "", isExpanded := false, isDeleted := false,
              deleteId := none })
            { origNote with noteId := newId, utcDateCreated := now }).noteContents.find?
              (fun c => c.noteId == origNote.noteId)).bind (fun c => c.content)) with
      | none => rw [hc] at hrun; exact absurd hrun (by simp)
      | some content =>
        rw [hc] at hrun
        simp only [] at hrun
        cases hch : duplicateChildrenGo fuel sess mp now _ newId _ with
        | error e => rw [hch] at hrun; exact absurd hrun (by simp)
        | ok s5 =>
          rw [hch] at hrun
          simp only [Except.ok.injEq, Prod.mk.injEq] at hrun
          obtain ⟨ht, hrid, -⟩ := hrun
          subst ht
          have hrid2 : newId = rid := by simpa using hrid
          subst hrid2
          refine ⟨?_, hgen⟩
          obtain ⟨Δ, hΔ⟩ := (dup_notes_append fuel).2 _ _ _ _ _ _ _ hch
          have hfindnone : s1.notes.find? (fun n => n.noteId == newId) = none := by
            unfold getNote at hnone
            rw [saveBranch_notes, newEntityId_notes] at hnone
            exact hnone
          have hany : s1.notes.any (fun m => m.noteId == newId) = false := by
            rw [List.any_eq_false]
            intro x hx
            have := List.find?_eq_none.mp hfindnone x hx
            simpa using this
          have happ : (saveNote (saveBranch (newEntityId s1).2
              { branchId := (newEntityId s1).1, noteId := newId, parentNoteId := np,
                notePosition :=
                  match obid.bind (getBranch s1) with
                  | some b => some (b.notePosition.getD 0 + 1)
                  | none => none,
                prefix_ := "", isExpanded := false, isDeleted := false, deleteId := none })
              { origNote with noteId := newId, utcDateCreated := now }).notes =
              s1.notes ++ [{ origNote with noteId := newId, utcDateCreated := now }] := by
            rw [saveNote_notes_append (by
              rw [saveBranch_notes, newEntityId_notes]
              exact hany)]
            rw [saveBranch_notes, newEntityId_notes]
          unfold getNote
          rw [hΔ, dupAttrFold_notes, setContent_notes, happ]
          rw [List.append_assoc, List.singleton_append]
          rw [find?_append_left_none _ _ _ hfindnone]
          rw [List.find?_cons]
          have hpred : (({ origNote with noteId := newId, utcDateCreated := now } : Note).noteId ==
              newId) = true := by simp
          rw [hpred]

theorem find?_map_replace (old new : Note) (hid : new.noteId = old.noteId) :
    ∀ l : List Note, l.find? (fun n => n.noteId == old.noteId) = some old →
    (l.map (fun m => if m.noteId == new.noteId then new else m)).find?
      (fun n => n.noteId == new.noteId) = some new := by
  intro l
  induction l with
  | nil => intro h; cases h
  | cons x xs ih =>
    intro h
    rw [List.find?_cons] at h
    rw [List.map_cons, List.find?_cons]
    cases hx : (x.noteId == old.noteId) with
    | true =>
      rw [hx] at h
      have hxo : x = old := by simpa using h
      have hfx : (x.noteId == new.noteId) = true := by rw [hid]; exact hx
      rw [hfx]
      simp
    | false =>
      rw [hx] at h
      have hfx : (x.noteId == new.noteId) = false := by rw [hid]; exact hx
      rw [hfx]
      simp only [Bool.false_eq_true, if_false, reduceIte]
      rw [hfx]
      exact ih h

/-- Saving a row whose id is already present replaces it in place and a lookup
then returns the new row. -/
theorem getNote_saveNote_found {s : Store} {old new : Note}
    (h : getNote s old.noteId = some old) (hid : new.noteId = old.noteId) :
    getNote (saveNote s new) new.noteId = some new := by
  unfold getNote at h
  have hany : s.notes.any (fun m => m.noteId == new.noteId) = true := by
    rw [List.any_eq_true]
    exact ⟨old, List.mem_of_find?_eq_some h, by rw [hid]; simp⟩
  unfold saveNote
  rw [hany]
  simp only [if_true, reduceIte]
  unfold getNote
  exact find?_map_replace old new hid s.notes h

/-- The title adjustment of `duplicateSubtree`: its result ends with "(dup)"
and equals the input title, suffixed exactly when the suffix was absent. -/
theorem dupTitle_spec (n : Note) :
    ((if endsWithStr n.title "(dup)" = true then n
        else { n with title := n.title ++ " (dup)" }).title
      = (if endsWithStr n.title "(dup)" = true then n.title else n.title ++ " (dup)")) ∧
    endsWithStr (if endsWithStr n.title "(dup)" = true then n
      else { n with title := n.title ++ " (dup)" }).title "(dup)" = true := by
  cases hcnd : endsWithStr n.title "(dup)" with
  | true => simp [hcnd]
  | false => simp [hcnd, endsWithStr_append_dup]

/-- C6.  `duplicateSubtree` appends the " (dup)" title suffix to the
duplicated root exactly once: the clone's title is the source title with the
suffix appended when the source title does not already end in "(dup)", is the
unchanged source title otherwise, and in both cases ends in "(dup)" — so
duplicating a clone never stacks a second suffix. -/
theorem duplicateSubtree_title (fuel : Nat) (sess : Bool) (now : Int) (s : Store)
    (origNoteId newParentNoteId : String) (t : Store) (resId : String) (br : Branch)
    (origNote : Note)
    (horig : getNote s origNoteId = some origNote)
    (hfresh : ∀ n ∈ s.notes, looksGenerated n.noteId = false)
    (hrun : duplicateSubtree fuel sess now s origNoteId newParentNoteId =
      Except.ok (t, resId, br)) :
    ∃ resNote, getNote t resId = some resNote ∧
      resNote.title = (if endsWithStr origNote.title "(dup)" = true then origNote.title
                       else origNote.title ++ " (dup)") ∧
      endsWithStr resNote.title "(dup)" = true := by
  unfold duplicateSubtree at hrun
  cases hroot : (origNoteId == "root") with
  | true => rw [hroot] at hrun; exact absurd hrun (by simp)
  | false =>
    rw [hroot] at hrun
    simp only [Bool.false_eq_true, if_false, reduceIte] at hrun
    rw [horig] at hrun
    simp only [] at hrun
    rcases hmap : getNoteIdMapping fuel s origNoteId with ⟨mp, s1⟩
    rw [hmap] at hrun
    simp only [] at hrun
    cases fuel with
    | zero => exact absurd hrun (by simp [duplicateSubtreeInnerGo])
    | succ f =>
      cases hinner : duplicateSubtreeInnerGo (f + 1) sess mp now s1 origNoteId
          (Option.map (fun (b : Branch) => b.branchId)
            (List.find? (fun (b : Branch) => b.parentNoteId == newParentNoteId)
              (getBranchesOfNote s origNoteId)))
          newParentNoteId with
      | error e => rw [hinner] at hrun; exact absurd hrun (by simp)
      | ok r =>
        obtain ⟨s2, rid, br2⟩ := r
        rw [hinner] at hrun
        simp only [] at hrun
        have hs1notes : s1.notes = s.notes := by
          have := getNoteIdMapping_notes (f + 1) s origNoteId
          rw [hmap] at this
          exact this
        have horigs1 : getNote s1 origNoteId = some origNote := by
          rw [getNote_congr hs1notes origNoteId]
          exact horig
        have hfreshs1 : ∀ n ∈ s1.notes, looksGenerated n.noteId = false := by
          rw [hs1notes]
          exact hfresh
        have hgenvals : ∀ p ∈ mp, looksGenerated p.2 = true := by
          have := getNoteIdMapping_values_generated (f + 1) s origNoteId
          rw [hmap] at this
          exact this
        obtain ⟨hclone, hgenrid⟩ := dup_inner_clone f sess mp now s1 origNoteId _
          newParentNoteId s2 rid br2 origNote horigs1 hfreshs1 hgenvals hinner
        rw [hclone] at hrun
        simp only [Except.ok.injEq, Prod.mk.injEq] at hrun
        obtain ⟨ht, hres, -⟩ := hrun
        subst ht
        subst hres
        exact ⟨_, getNote_saveNote_found hclone (by split <;> rfl),
          (dupTitle_spec { origNote with noteId := rid, utcDateCreated := now }).1,
          (dupTitle_spec { origNote with noteId := rid, utcDateCreated := now }).2⟩

theorem saveNote_attributes (s : Store) (n : Note) : (saveNote s n).attributes = s.attributes := by
  unfold saveNote
  split <;> rfl

theorem saveBranch_attributes (s : Store) (b : Branch) :
    (saveBranch s b).attributes = s.attributes := by
  unfold saveBranch
  split <;> rfl

theorem setContent_attributes (s : Store) (noteId : String) (c : Option String) :
    (setContent s noteId c).attributes = s.attributes := by
  unfold setContent
  split <;> rfl

theorem saveNote_nextId (s : Store) (n : Note) : (saveNote s n).nextId = s.nextId := by
  unfold saveNote
  split <;> rfl

theorem saveBranch_nextId (s : Store) (b : Branch) : (saveBranch s b).nextId = s.nextId := by
  unfold saveBranch
  split <;> rfl

theorem setContent_nextId (s : Store) (noteId : String) (c : Option String) :
    (setContent s noteId c).nextId = s.nextId := by
  unfold setContent
  split <;> rfl

theorem saveAttribute_nextId (s : Store) (a : Attribute) :
    (saveAttribute s a).nextId = s.nextId := by
  unfold saveAttribute
  split <;> rfl

theorem genId_injective {m n : Nat} (h : genId m = genId n) : m = n := by
  unfold genId at h
  have hl : (List.replicate (m + 1) 'g').length = (List.replicate (n + 1) 'g').length := by
    rw [show List.replicate (m + 1) 'g' = List.replicate (n + 1) 'g' from by
      have := congrArg String.data h
      simpa using this]
  simpa using hl

theorem looksGenerated_false_ne_genId {x : String} (h : looksGenerated x = false) (k : Nat) :
    x ≠ genId k := by
  intro hc
  rw [hc, genId_looksGenerated] at h
  cases h

/-- A store whose attribute ids do not look generated has every counter value
fresh. -/
theorem nextIdFresh_of_nonGen {s : Store}
    (h : ∀ a ∈ s.attributes, looksGenerated a.attributeId = false) : nextIdFresh s := by
  intro a ha k _
  exact looksGenerated_false_ne_genId (h a ha) k

/-- `nextIdFresh` survives any step that keeps the attribute rows and does
not decrease the counter. -/
theorem nextIdFresh_step {s t : Store} (hs : nextIdFresh s)
    (hattrs : t.attributes = s.attributes) (hnext : s.nextId ≤ t.nextId) : nextIdFresh t := by
  intro a ha k hk
  rw [hattrs] at ha
  exact hs a ha k (le_trans hnext hk)

/-- When no row carries the attribute id yet, `saveAttribute` appends. -/
theorem saveAttribute_append {s : Store} {a : Attribute}
    (h : s.attributes.any (fun b => b.attributeId == a.attributeId) = false) :
    (saveAttribute s a).attributes = s.attributes ++ [a] := by
  unfold saveAttribute
  rw [h]
  simp

/-- Clones may cite sources from a larger list. -/
theorem cloneOf_src_subset {m : List (String × String)} {src src' : List Attribute}
    {a' : Attribute} (h : cloneOf m src a') (hsub : ∀ x ∈ src, x ∈ src') :
    cloneOf m src' a' := by
  obtain ⟨a, ha, hrest⟩ := h
  exact ⟨a, hsub a ha, hrest⟩

/-- A clone whose source owner is original cannot cite a generated-owner row:
the source lies in the original part of a split list. -/
theorem cloneOf_src_restrict {m : List (String × String)} {l1 l2 : List Attribute}
    {a' : Attribute} (h : cloneOf m (l1 ++ l2) a')
    (hl2 : ∀ x ∈ l2, looksGenerated x.noteId = true) : cloneOf m l1 a' := by
  obtain ⟨a, ha, hng, hrest⟩ := h
  rcases List.mem_append.mp ha with ha | ha
  · exact ⟨a, ha, hng, hrest⟩
  · rw [hl2 a ha] at hng
    cases hng

/-- The attribute-clone loop of `duplicateSubtreeInner`: it appends, for each
listed source attribute in order, one fresh-id clone owned by the new note
with the value rewritten through the mapping exactly for in-mapping relation
targets. -/
theorem dupAttrFold_spec (mp : List (String × String)) (newOwner : String)
    (hown : looksGenerated newOwner = true) :
    ∀ (l : List Attribute) (st : Store), (∀ x ∈ l, looksGenerated x.noteId = false) →
    nextIdFresh st →
    nextIdFresh (l.foldl (cloneAttr mp newOwner) st) ∧
    st.nextId ≤ (l.foldl (cloneAttr mp newOwner) st).nextId ∧
    ∃ Δ, (l.foldl (cloneAttr mp newOwner) st).attributes = st.attributes ++ Δ ∧
      ∀ a' ∈ Δ, looksGenerated a'.noteId = true ∧ cloneOf mp l a' := by
  intro l
  induction l with
  | nil =>
    intro st _ hst
    exact ⟨hst, le_refl _, [], by simp, by intro a' ha'; cases ha'⟩
  | cons a rest ih =>
    intro st hsrc hst
    simp only [List.foldl_cons]
    rw [cloneAttr_eq]
    have hanyfalse : ({ st with nextId := st.nextId + 1 } : Store).attributes.any
        (fun b => b.attributeId == ({ a with attributeId := genId st.nextId, noteId := newOwner, value := rewriteRelationTarget mp a } : Attribute).attributeId) = false := by
      rw [List.any_eq_false]
      intro b hb hc
      exact hst b hb st.nextId (le_refl _) (by simpa using hc)
    have happ := saveAttribute_append hanyfalse
    have hfresh2 : nextIdFresh (saveAttribute { st with nextId := st.nextId + 1 }
        { a with attributeId := genId st.nextId, noteId := newOwner, value := rewriteRelationTarget mp a }) := by
      intro b hb k hk
      rw [happ] at hb
      rw [saveAttribute_nextId] at hk
      rcases List.mem_append.mp hb with hb | hb
      · exact hst b hb k (by simp only [] at hk; omega)
      · rcases List.mem_singleton.mp hb with rfl
        simp only []
        intro hc
        have := genId_injective hc
        simp only [] at hk
        omega
    obtain ⟨hfr, hle, Δ, hΔ, hΔspec⟩ := ih _ (fun x hx => hsrc x (List.mem_cons_of_mem a hx)) hfresh2
    refine ⟨hfr, ?_, ({ a with attributeId := genId st.nextId, noteId := newOwner, value := rewriteRelationTarget mp a } : Attribute) :: Δ, ?_, ?_⟩
    · rw [saveAttribute_nextId] at hle
      simp only [] at hle
      omega
    · rw [hΔ, happ]
      simp
    · intro x hx
      rcases List.mem_cons.mp hx with rfl | hx
      · refine ⟨hown, a, List.mem_cons_self a rest, hsrc a (List.mem_cons_self a rest),
          rfl, rfl, rfl, rfl, rfl, ?_⟩
        unfold rewriteRelationTarget
        cases ht : (a.type == "relation") with
        | true =>
          have htP : a.type = "relation" := by simpa using ht
          cases hm : mlookup mp a.value with
          | some v => exact Or.inl ⟨htP, v, rfl, by simp [ht]⟩
          | none => exact Or.inr ⟨Or.inr rfl, by simp [ht]⟩
        | false =>
          exact Or.inr ⟨Or.inl (by simpa using ht), by simp [ht]⟩
      · obtain ⟨hg, hcl⟩ := hΔspec x hx
        exact ⟨hg, cloneOf_src_subset hcl (fun y hy => List.mem_cons_of_mem a hy)⟩

theorem getOwnedAttributesOf_congr {s t : Store} (h : s.attributes = t.attributes)
    (i : String) : getOwnedAttributesOf s i = getOwnedAttributesOf t i := by
  unfold getOwnedAttributesOf
  rw [h]

theorem mem_owned_attrs {s : Store} {i : String} {x : Attribute}
    (h : x ∈ getOwnedAttributesOf s i) : x ∈ s.attributes ∧ x.noteId = i := by
  unfold getOwnedAttributesOf at h
  obtain ⟨hm, hp⟩ := List.mem_filter.mp h
  simp only [Bool.and_eq_true, beq_iff_eq] at hp
  exact ⟨hm, hp.1⟩

/-- Every attribute row appended by a `duplicateSubtreeInner` run is a clone of
an original attribute with the C7 value-rewrite rule; original rows survive in
place, and the id counter only grows. -/
theorem dup_attrs_spec (fuel : Nat) (mp : List (String × String))
    (hkeys : ∀ p ∈ mp, looksGenerated p.1 = false)
    (hvals : ∀ p ∈ mp, looksGenerated p.2 = true) :
    (∀ sess now s oid obid np t nid br,
      nextIdFresh s →
      duplicateSubtreeInnerGo fuel sess mp now s oid obid np = Except.ok (t, nid, br) →
      nextIdFresh t ∧ s.nextId ≤ t.nextId ∧
      ∃ Δ, t.attributes = s.attributes ++ Δ ∧
        ∀ a' ∈ Δ, looksGenerated a'.noteId = true ∧ cloneOf mp s.attributes a') ∧
    (∀ sess now s np l t,
      nextIdFresh s →
      duplicateChildrenGo fuel sess mp now s np l = Except.ok t →
      nextIdFresh t ∧ s.nextId ≤ t.nextId ∧
      ∃ Δ, t.attributes = s.attributes ++ Δ ∧
        ∀ a' ∈ Δ, looksGenerated a'.noteId = true ∧ cloneOf mp s.attributes a') := by
  induction fuel with
  | zero =>
    constructor
    · intro sess now s oid obid np t nid br _ h
      exact absurd h (by simp [duplicateSubtreeInnerGo])
    · intro sess now s np l t _ h
      exact absurd h (by simp [duplicateChildrenGo])
  | succ fuel ih =>
    constructor
    · intro sess now s oid obid np t nid br hSNF h
      unfold duplicateSubtreeInnerGo at h
      cases ho : getNote s oid with
      | none => rw [ho] at h; exact absurd h (by simp)
      | some origNote =>
        rw [ho] at h
        simp only [] at h
        cases hp : (origNote.isProtected && !sess) with
        | true => rw [hp] at h; exact absurd h (by simp)
        | false =>
          rw [hp] at h
          simp only [Bool.false_eq_true, if_false, reduceIte] at h
          cases hm : mlookup mp origNote.noteId with
          | none => rw [hm] at h; exact absurd h (by simp)
          | some newNoteId =>
            rw [hm] at h
            simp only [] at h
            have hgenNew : looksGenerated newNoteId = true := by
              obtain ⟨p, hpm, -, hp2⟩ := mlookup_mem hm
              rw [← hp2]
              exact hvals p hpm
            have hoidNonGen : looksGenerated origNote.noteId = false := by
              obtain ⟨p, hpm, hp1, -⟩ := mlookup_mem hm
              rw [← hp1]
              exact hkeys p hpm
            cases hex : getNote (saveBranch (newEntityId s).2
                { branchId := (newEntityId s).1, noteId := newNoteId, parentNoteId := np,
                  notePosition :=
                    match obid.bind (getBranch s) with
                    | some b => some (b.notePosition.getD 0 + 1)
                    | none => none,
                  prefix_ := "", isExpanded := false, isDeleted := false,
                  deleteId := none }) newNoteId with
            | some existingNote =>
              rw [hex] at h
              simp only [Except.ok.injEq, Prod.mk.injEq] at h
              obtain ⟨ht, -, -⟩ := h
              subst ht
              refine ⟨nextIdFresh_step hSNF (by rw [saveBranch_attributes]; rfl)
                  (by rw [saveBranch_nextId]; exact Nat.le_succ _), ?_, [], ?_, ?_⟩
              · rw [saveBranch_nextId]
                exact Nat.le_succ _
              · rw [saveBranch_attributes, List.append_nil]
                rfl
              · intro a' ha'
                cases ha'
            | none =>
              rw [hex] at h
              simp only [] at h
              cases hc : (if ["text", "relation-map", "search"].contains origNote.type then
                  ((saveNote (saveBranch (newEntityId s).2
                    { branchId := (newEntityId s).1, noteId := newNoteId, parentNoteId := np,
                      notePosition :=
                        match obid.bind (getBranch s) with
                        | some b => some (b.notePosition.getD 0 + 1)
                        | none => none,
                      prefix_ := "", isExpanded := false, isDeleted := false,
                      deleteId := none })
                    { origNote with noteId := newNoteId, utcDateCreated := now }).noteContents.find?
                      (fun c => c.noteId == origNote.noteId)).bind (fun c => c.content) |>.map
                    (fun c => replaceByMap c mp)
                else
                  ((saveNote (saveBranch (newEntityId s).2
                    { branchId := (newEntityId s).1, noteId := newNoteId, parentNoteId := np,
                      notePosition :=
                        match obid.bind (getBranch s) with
                        | some b => some (b.notePosition.getD 0 + 1)
                        | none => none,
                      prefix_ := "", isExpanded := false, isDeleted := false,
                      deleteId := none })
                    { origNote with noteId := newNoteId, utcDateCreated := now }).noteContents.find?
                      (fun c => c.noteId == origNote.noteId)).bind (fun c => c.content)) with
              | none => rw [hc] at h; exact absurd h (by simp)
              | some content =>
                rw [hc] at h
                simp only [] at h
                cases hch : duplicateChildrenGo fuel sess mp now _ newNoteId _ with
                | error e => rw [hch] at h; exact absurd h (by simp)
                | ok s5 =>
                  rw [hch] at h
                  simp only [Except.ok.injEq, Prod.mk.injEq] at h
                  obtain ⟨ht, -, -⟩ := h
                  subst ht
                  have hattrs3 : (setContent (saveNote (saveBranch (newEntityId s).2
                      { branchId := (newEntityId s).1, noteId := newNoteId, parentNoteId := np,
                        notePosition :=
                          match obid.bind (getBranch s) with
                          | some b => some (b.notePosition.getD 0 + 1)
                          | none => none,
                        prefix_ := "", isExpanded := false, isDeleted := false,
                        deleteId := none })
                      { origNote with noteId := newNoteId, utcDateCreated := now }) newNoteId
                      (some content)).attributes = s.attributes := by
                    rw [setContent_attributes, saveNote_attributes, saveBranch_attributes]
                    rfl
                  have hnext3 : (setContent (saveNote (saveBranch (newEntityId s).2
                      { branchId := (newEntityId s).1, noteId := newNoteId, parentNoteId := np,
                        notePosition :=
                          match obid.bind (getBranch s) with
                          | some b => some (b.notePosition.getD 0 + 1)
                          | none => none,
                        prefix_ := "", isExpanded := false, isDeleted := false,
                        deleteId := none })
                      { origNote with noteId := newNoteId, utcDateCreated := now }) newNoteId
                      (some content)).nextId = s.nextId + 1 := by
                    rw [setContent_nextId, saveNote_nextId, saveBranch_nextId]
                    rfl
                  have hSNF3 : nextIdFresh (setContent (saveNote (saveBranch (newEntityId s).2
                      { branchId := (newEntityId s).1, noteId := newNoteId, parentNoteId := np,
                        notePosition :=
                          match obid.bind (getBranch s) with
                          | some b => some (b.notePosition.getD 0 + 1)
                          | none => none,
                        prefix_ := "", isExpanded := false, isDeleted := false,
                        deleteId := none })
                      { origNote with noteId := newNoteId, utcDateCreated := now }) newNoteId
                      (some content)) :=
                    nextIdFresh_step hSNF hattrs3 (by rw [hnext3]; omega)
                  have hsrc : ∀ x ∈ getOwnedAttributesOf (setContent (saveNote (saveBranch
                      (newEntityId s).2
                      { branchId := (newEntityId s).1, noteId := newNoteId, parentNoteId := np,
                        notePosition :=
                          match obid.bind (getBranch s) with
                          | some b => some (b.notePosition.getD 0 + 1)
                          | none => none,
                        prefix_ := "", isExpanded := false, isDeleted := false,
                        deleteId := none })
                      { origNote with noteId := newNoteId, utcDateCreated := now }) newNoteId
                      (some content)) origNote.noteId, looksGenerated x.noteId = false := by
                    intro x hx
                    rw [(mem_owned_attrs hx).2]
                    exact hoidNonGen
                  obtain ⟨hfoldSNF, hfoldLe, Δ1, hΔ1, hΔ1spec⟩ :=
                    dupAttrFold_spec mp newNoteId hgenNew _ _ hsrc hSNF3
                  obtain ⟨hSNF5, hle5, Δ2, hΔ2, hΔ2spec⟩ := ih.2 _ _ _ _ _ _ hfoldSNF hch
                  refine ⟨hSNF5, ?_, Δ1 ++ Δ2, ?_, ?_⟩
                  · have := le_trans hfoldLe hle5
                    rw [hnext3] at this
                    omega
                  · rw [hΔ2, hΔ1, hattrs3, List.append_assoc]
                  · intro a' ha'
                    rcases List.mem_append.mp ha' with ha' | ha'
                    · obtain ⟨hg, hcl⟩ := hΔ1spec a' ha'
                      refine ⟨hg, cloneOf_src_subset hcl ?_⟩
                      intro x hx
                      have := (mem_owned_attrs hx).1
                      rw [hattrs3] at this
                      exact this
                    · obtain ⟨hg, hcl⟩ := hΔ2spec a' ha'
                      rw [hΔ1, hattrs3] at hcl
                      exact ⟨hg, cloneOf_src_restrict hcl (fun x hx => (hΔ1spec x hx).1)⟩
    · intro sess now s np l t hSNF h
      unfold duplicateChildrenGo at h
      cases l with
      | nil =>
        simp only [Except.ok.injEq] at h
        subst h
        exact ⟨hSNF, le_refl _, [], by simp, by intro a' ha'; cases ha'⟩
      | cons c rest =>
        obtain ⟨cn, cb⟩ := c
        simp only [] at h
        cases hc : duplicateSubtreeInnerGo fuel sess mp now s cn (some cb) np with
        | error e => rw [hc] at h; exact absurd h (by simp)
        | ok r =>
          rw [hc] at h
          obtain ⟨r1, r2, r3⟩ := r
          obtain ⟨hSNF1, hle1, Δ1, hΔ1, hΔ1spec⟩ := ih.1 _ _ _ _ _ _ _ _ _ hSNF hc
          obtain ⟨hSNF2, hle2, Δ2, hΔ2, hΔ2spec⟩ := ih.2 _ _ _ _ _ _ hSNF1 h
          refine ⟨hSNF2, le_trans hle1 hle2, Δ1 ++ Δ2, ?_, ?_⟩
          · rw [hΔ2, hΔ1, List.append_assoc]
          · intro a' ha'
            rcases List.mem_append.mp ha' with ha' | ha'
            · exact hΔ1spec a' ha'
            · obtain ⟨hg, hcl⟩ := hΔ2spec a' ha'
              rw [hΔ1] at hcl
              exact ⟨hg, cloneOf_src_restrict hcl (fun x hx => (hΔ1spec x hx).1)⟩

/-- The domain of the pregenerated mapping is exactly the descendant walk,
source included. -/
theorem getNoteIdMapping_keys (fuel : Nat) (s : Store) (o : String) :
    (getNoteIdMapping fuel s o).1.map Prod.fst = descendantNoteIdsGo s fuel [] [o] := by
  unfold getNoteIdMapping
  generalize descendantNoteIdsGo s fuel [] [o] = ids
  have hinv : ∀ (acc : List (String × String) × Store),
      (ids.foldl
        (fun acc id =>
          let (nid, st) := newEntityId acc.2
          (acc.1 ++ [(id, nid)], st)) acc).1.map Prod.fst = acc.1.map Prod.fst ++ ids := by
    induction ids with
    | nil => intro acc; simp
    | cons i rest ih =>
      intro acc
      rw [List.foldl_cons, ih]
      simp
  have := hinv ([], s)
  simpa using this

/-- Pregenerating the id mapping leaves attribute rows untouched. -/
theorem getNoteIdMapping_attributes (fuel : Nat) (s : Store) (o : String) :
    (getNoteIdMapping fuel s o).2.attributes = s.attributes := by
  unfold getNoteIdMapping
  generalize descendantNoteIdsGo s fuel [] [o] = ids
  have hinv : ∀ (acc : List (String × String) × Store), acc.2.attributes = s.attributes →
      (ids.foldl
        (fun acc id =>
          let (nid, st) := newEntityId acc.2
          (acc.1 ++ [(id, nid)], st)) acc).2.attributes = s.attributes := by
    induction ids with
    | nil => intro acc hacc; exact hacc
    | cons i rest ih =>
      intro acc hacc
      exact ih _ hacc
  exact hinv ([], s) rfl

/-- The descendant walk only ever visits original note ids when the store's
branch rows reference only original ids. -/
theorem descendantNoteIds_nonGen (s : Store)
    (hB : ∀ b ∈ s.branches, looksGenerated b.noteId = false) :
    ∀ (fuel : Nat) (visited work : List String),
    (∀ id ∈ visited, looksGenerated id = false) →
    (∀ id ∈ work, looksGenerated id = false) →
    ∀ id ∈ descendantNoteIdsGo s fuel visited work, looksGenerated id = false := by
  intro fuel
  induction fuel with
  | zero =>
    intro visited work hv _ id hid
    cases work with
    | nil => exact hv id hid
    | cons w rest =>
      unfold descendantNoteIdsGo at hid
      exact hv id hid
  | succ n ih =>
    intro visited work hv hw id hid
    cases work with
    | nil => exact hv id hid
    | cons w rest =>
      unfold descendantNoteIdsGo at hid
      by_cases hc : visited.contains w
      · rw [if_pos hc] at hid
        exact ih visited rest hv (fun x hx => hw x (List.mem_cons_of_mem w hx)) id hid
      · rw [if_neg hc] at hid
        refine ih (visited ++ [w]) (rest ++ (getChildBranchesOf s w).map (fun b => b.noteId))
          ?_ ?_ id hid
        · intro x hx
          rcases List.mem_append.mp hx with hx | hx
          · exact hv x hx
          · rcases List.mem_singleton.mp hx with rfl
            exact hw x (List.mem_cons_self x rest)
        · intro x hx
          rcases List.mem_append.mp hx with hx | hx
          · exact hw x (List.mem_cons_of_mem w hx)
          · obtain ⟨b, hb, rfl⟩ := List.mem_map.mp hx
            unfold getChildBranchesOf at hb
            exact hB b (List.mem_filter.mp hb).1

/-- C7.  Every attribute cloned by `duplicateSubtree` is appended to the
attribute table and is a faithful clone of an original attribute: a relation
whose value lies in the pregenerated mapping (whose domain is exactly the
source and its descendants) is repointed to the mapped fresh id, and any other
value is copied byte-identically. -/
theorem duplicateSubtree_relation_rewrite (fuel : Nat) (sess : Bool) (now : Int) (s : Store)
    (origNoteId newParentNoteId : String) (t : Store) (resId : String) (br : Branch)
    (hfreshB : ∀ b ∈ s.branches, looksGenerated b.noteId = false)
    (hfreshA : ∀ a ∈ s.attributes, looksGenerated a.attributeId = false)
    (horigNonGen : looksGenerated origNoteId = false)
    (hrun : duplicateSubtree fuel sess now s origNoteId newParentNoteId =
      Except.ok (t, resId, br)) :
    ((getNoteIdMapping fuel s origNoteId).1.map Prod.fst =
      descendantNoteIdsGo s fuel [] [origNoteId]) ∧
    ∃ Δ, t.attributes = s.attributes ++ Δ ∧
      ∀ a' ∈ Δ, cloneOf (getNoteIdMapping fuel s origNoteId).1 s.attributes a' := by
  refine ⟨getNoteIdMapping_keys fuel s origNoteId, ?_⟩
  unfold duplicateSubtree at hrun
  cases hroot : (origNoteId == "root") with
  | true => rw [hroot] at hrun; exact absurd hrun (by simp)
  | false =>
    rw [hroot] at hrun
    simp only [Bool.false_eq_true, if_false, reduceIte] at hrun
    cases horig : getNote s origNoteId with
    | none => rw [horig] at hrun; exact absurd hrun (by simp)
    | some origNote =>
      rw [horig] at hrun
      simp only [] at hrun
      rcases hmap : getNoteIdMapping fuel s origNoteId with ⟨mp, s1⟩
      rw [hmap] at hrun
      simp only [] at hrun
      have hkeys : ∀ p ∈ mp, looksGenerated p.1 = false := by
        intro p hp
        have hmem : p.1 ∈ mp.map Prod.fst := List.mem_map_of_mem Prod.fst hp
        have hk := getNoteIdMapping_keys fuel s origNoteId
        rw [hmap] at hk
        rw [hk] at hmem
        exact descendantNoteIds_nonGen s hfreshB fuel [] [origNoteId]
          (by intro x hx; cases hx)
          (by intro x hx; rcases List.mem_singleton.mp hx with rfl; exact horigNonGen)
          p.1 hmem
      have hvals : ∀ p ∈ mp, looksGenerated p.2 = true := by
        have := getNoteIdMapping_values_generated fuel s origNoteId
        rw [hmap] at this
        exact this
      have hs1attrs : s1.attributes = s.attributes := by
        have := getNoteIdMapping_attributes fuel s origNoteId
        rw [hmap] at this
        exact this
      have hSNF1 : nextIdFresh s1 := by
        intro a ha k _
        rw [hs1attrs] at ha
        exact looksGenerated_false_ne_genId (hfreshA a ha) k
      cases hinner : duplicateSubtreeInnerGo fuel sess mp now s1 origNoteId
          (Option.map (fun (b : Branch) => b.branchId)
            (List.find? (fun (b : Branch) => b.parentNoteId == newParentNoteId)
              (getBranchesOfNote s origNoteId)))
          newParentNoteId with
      | error e => rw [hinner] at hrun; exact absurd hrun (by simp)
      | ok r =>
        obtain ⟨s2, rid, br2⟩ := r
        rw [hinner] at hrun
        simp only [] at hrun
        obtain ⟨-, -, Δ, hΔ, hΔspec⟩ :=
          (dup_attrs_spec fuel mp hkeys hvals).1 _ _ _ _ _ _ _ _ _ hSNF1 hinner
        cases hres : getNote s2 rid with
        | none => rw [hres] at hrun; exact absurd hrun (by simp)
        | some resNote =>
          rw [hres] at hrun
          simp only [Except.ok.injEq, Prod.mk.injEq] at hrun
          obtain ⟨ht, -, -⟩ := hrun
          refine ⟨Δ, ?_, ?_⟩
          · rw [← ht, saveNote_attributes, hΔ, hs1attrs]
          · intro a' ha'
            have := hΔspec a' ha'
            rw [hs1attrs] at this
            exact this.2

/-- Witness for C6: duplicating note "A" (titled "A") under "Z" yields a clone
titled "A (dup)". -/
theorem duplicateSubtree_title_witness :
    (∃ resNote, getNote wDupRes.1 wDupRes.2.1 = some resNote ∧
      resNote.title = (if endsWithStr (exNote "A").title "(dup)" = true then (exNote "A").title
                       else (exNote "A").title ++ " (dup)") ∧
      endsWithStr resNote.title "(dup)" = true) ∧
    (getNote wDupRes.1 wDupRes.2.1).map (fun (n : Note) => n.title) = some "A (dup)" := by
  refine ⟨duplicateSubtree_title 20 true 5 wDupStore "A" "Z" wDupRes.1 wDupRes.2.1 wDupRes.2.2
    (exNote "A") (by decide) (by decide) (by decide), by decide⟩

/-- Witness for C7: in the concrete duplication run, the mapping covers "A"
and its descendant "C", the two cloned attributes are appended after the
originals, each is a faithful clone, and concretely the "inner" relation is
repointed to the fresh clone of "C" while the "outer" relation keeps its
original target "Z". -/
theorem duplicateSubtree_relation_rewrite_witness :
    (((getNoteIdMapping 20 wDupStore "A").1.map Prod.fst =
        descendantNoteIdsGo wDupStore 20 [] ["A"]) ∧
      ∃ Δ, wDupRes.1.attributes = wDupStore.attributes ++ Δ ∧
        ∀ a' ∈ Δ, cloneOf (getNoteIdMapping 20 wDupStore "A").1 wDupStore.attributes a') ∧
    (getNoteIdMapping 20 wDupStore "A").1.map Prod.fst = ["A", "C"] ∧
    (wDupRes.1.attributes.map (fun a => (a.name, a.value))).drop 2 =
      [("inner", genId 1), ("outer", "Z")] := by
  refine ⟨duplicateSubtree_relation_rewrite 20 true 5 wDupStore "A" "Z"
    wDupRes.1 wDupRes.2.1 wDupRes.2.2 (by decide) (by decide) (by decide) (by decide),
    by decide, by decide⟩

theorem contains_append_false {x : String} {l₁ l₂ : List String}
    (h : (l₁ ++ l₂).contains x = false) :
    l₁.contains x = false ∧ l₂.contains x = false := by
  rw [List.contains_eq_any_beq, List.any_append, Bool.or_eq_false_iff] at h
  rw [List.contains_eq_any_beq, List.contains_eq_any_beq]
  exact h

theorem beq_false_of_contains_singleton {x y : String}
    (h : ([y] : List String).contains x = false) : (x == y) = false := by
  cases hxy : (x == y) with
  | false => rfl
  | true =>
    have hc : ([y] : List String).contains x = true := by
      rw [List.contains_eq_any_beq]
      simp [hxy]
    rw [h] at hc
    cases hc

/-- The frontend resolver only ever appends memo entries, and never appends an
entry for a note id lying on the current traversal path. -/
theorem attrCache_delta_spec (fuel : Nat) :
    (∀ tc path cache note res c',
      getCachedAttributesGo fuel tc path cache note = some (res, c') →
      ∃ Δ, c' = cache ++ Δ ∧ ∀ p ∈ Δ, path.contains p.1 = false) ∧
    (∀ tc path cache ps arrs c',
      inheritableFromParentsGo fuel tc path cache ps = some (arrs, c') →
      ∃ Δ, c' = cache ++ Δ ∧ ∀ p ∈ Δ, path.contains p.1 = false) ∧
    (∀ tc path cache selfId tas arrs c',
      templatesGo fuel tc path cache selfId tas = some (arrs, c') →
      ∃ Δ, c' = cache ++ Δ ∧ ∀ p ∈ Δ, path.contains p.1 = false) := by
  induction fuel with
  | zero =>
    refine ⟨?_, ?_, ?_⟩
    · intro tc path cache note res c' h
      exact absurd h (by simp [getCachedAttributesGo])
    · intro tc path cache ps arrs c' h
      exact absurd h (by simp [inheritableFromParentsGo])
    · intro tc path cache selfId tas arrs c' h
      exact absurd h (by simp [templatesGo])
  | succ fuel ih =>
    obtain ⟨ihA, ihP, ihT⟩ := ih
    refine ⟨?_, ?_, ?_⟩
    · intro tc path cache note res c' h
      unfold getCachedAttributesGo at h
      cases hguard : path.contains note.noteId with
      | true =>
        rw [hguard] at h
        simp only [if_true, Option.some.injEq, Prod.mk.injEq, reduceIte] at h
        obtain ⟨-, rfl⟩ := h
        exact ⟨[], by simp, by intro p hp; cases hp⟩
      | false =>
        rw [hguard] at h
        simp only [Bool.false_eq_true, if_false, reduceIte] at h
        cases hl : cacheLookup cache note.noteId with
        | some attrs =>
          rw [hl] at h
          simp only [Option.some.injEq, Prod.mk.injEq] at h
          obtain ⟨-, rfl⟩ := h
          exact ⟨[], by simp, by intro p hp; cases hp⟩
        | none =>
          rw [hl] at h
          simp only [] at h
          cases hroot : (note.noteId == "root") with
          | true =>
            rw [hroot] at h
            simp only [reduceIte] at h
            cases htm : templatesGo fuel tc (path ++ [note.noteId]) cache note.noteId
                (((getOwnedAttributesF tc note :: ([] : List (List FAttribute))).flatten).filter
                  (fun a => a.type == "relation" && a.name == "template")) with
            | none => rw [htm] at h; exact absurd h (by simp)
            | some r =>
              obtain ⟨tmplArrs, cache2⟩ := r
              rw [htm] at h
              simp only [Option.some.injEq, Prod.mk.injEq] at h
              obtain ⟨hres, hc'⟩ := h
              obtain ⟨Δt, hΔt, hΔtm⟩ := ihT tc _ cache note.noteId _ tmplArrs cache2 htm
              refine ⟨Δt ++ [(note.noteId, res)], ?_, ?_⟩
              · rw [← hc', hΔt, hres, List.append_assoc]
              · intro p hp
                rcases List.mem_append.mp hp with hp | hp
                · exact (contains_append_false (hΔtm p hp)).1
                · rcases List.mem_singleton.mp hp with rfl
                  exact hguard
          | false =>
            rw [hroot] at h
            simp only [Bool.false_eq_true, if_false, reduceIte] at h
            cases hpar : inheritableFromParentsGo fuel tc (path ++ [note.noteId]) cache
                (note.parents.filterMap tc.noteFromCache) with
            | none => rw [hpar] at h; exact absurd h (by simp)
            | some rp =>
              obtain ⟨parentArrs, cache1⟩ := rp
              rw [hpar] at h
              simp only [] at h
              cases htm : templatesGo fuel tc (path ++ [note.noteId]) cache1 note.noteId
                  (((getOwnedAttributesF tc note :: parentArrs).flatten).filter
                    (fun a => a.type == "relation" && a.name == "template")) with
              | none => rw [htm] at h; exact absurd h (by simp)
              | some r =>
                obtain ⟨tmplArrs, cache2⟩ := r
                rw [htm] at h
                simp only [Option.some.injEq, Prod.mk.injEq] at h
                obtain ⟨hres, hc'⟩ := h
                obtain ⟨Δp, hΔp, hΔpm⟩ := ihP tc _ cache _ parentArrs cache1 hpar
                obtain ⟨Δt, hΔt, hΔtm⟩ := ihT tc _ cache1 note.noteId _ tmplArrs cache2 htm
                refine ⟨Δp ++ Δt ++ [(note.noteId, res)], ?_, ?_⟩
                · rw [← hc', hΔt, hΔp, hres, List.append_assoc, List.append_assoc,
                    List.append_assoc]
                · intro p hp
                  rcases List.mem_append.mp hp with hp | hp
                  · rcases List.mem_append.mp hp with hp | hp
                    · exact (contains_append_false (hΔpm p hp)).1
                    · exact (contains_append_false (hΔtm p hp)).1
                  · rcases List.mem_singleton.mp hp with rfl
                    exact hguard
    · intro tc path cache ps arrs c' h
      cases ps with
      | nil =>
        unfold inheritableFromParentsGo at h
        simp only [Option.some.injEq, Prod.mk.injEq] at h
        obtain ⟨-, rfl⟩ := h
        exact ⟨[], by simp, by intro p hp; cases hp⟩
      | cons p rest =>
        unfold inheritableFromParentsGo at h
        cases hty : (p.type == "search") with
        | true =>
          rw [hty] at h
          simp only [reduceIte] at h
          exact ihP tc path cache rest arrs c' h
        | false =>
          rw [hty] at h
          simp only [Bool.false_eq_true, if_false, reduceIte] at h
          cases hg : getCachedAttributesGo fuel tc path cache p with
          | none => rw [hg] at h; exact absurd h (by simp)
          | some r =>
            obtain ⟨attrs, cache1⟩ := r
            rw [hg] at h
            simp only [] at h
            cases hr : inheritableFromParentsGo fuel tc path cache1 rest with
            | none => rw [hr] at h; exact absurd h (by simp)
            | some r2 =>
              obtain ⟨arrs2, cache2⟩ := r2
              rw [hr] at h
              simp only [Option.some.injEq, Prod.mk.injEq] at h
              obtain ⟨-, rfl⟩ := h
              obtain ⟨Δ₁, hΔ₁, hΔ₁m⟩ := ihA tc path cache p attrs cache1 hg
              obtain ⟨Δ₂, hΔ₂, hΔ₂m⟩ := ihP tc path cache1 rest arrs2 cache2 hr
              refine ⟨Δ₁ ++ Δ₂, by rw [hΔ₂, hΔ₁, List.append_assoc], ?_⟩
              intro q hq
              rcases List.mem_append.mp hq with hq | hq
              · exact hΔ₁m q hq
              · exact hΔ₂m q hq
    · intro tc path cache selfId tas arrs c' h
      cases tas with
      | nil =>
        unfold templatesGo at h
        simp only [Option.some.injEq, Prod.mk.injEq] at h
        obtain ⟨-, rfl⟩ := h
        exact ⟨[], by simp, by intro p hp; cases hp⟩
      | cons ta rest =>
        unfold templatesGo at h
        cases hn : tc.noteFromCache ta.value with
        | none =>
          rw [hn] at h
          simp only [] at h
          exact ihT tc path cache selfId rest arrs c' h
        | some tnote =>
          rw [hn] at h
          simp only [] at h
          cases hself : (tnote.noteId == selfId) with
          | true =>
            rw [hself] at h
            simp only [reduceIte] at h
            exact ihT tc path cache selfId rest arrs c' h
          | false =>
            rw [hself] at h
            simp only [Bool.false_eq_true, if_false, reduceIte] at h
            cases hg : getCachedAttributesGo fuel tc path cache tnote with
            | none => rw [hg] at h; exact absurd h (by simp)
            | some r =>
              obtain ⟨attrs, cache1⟩ := r
              rw [hg] at h
              simp only [] at h
              cases hr : templatesGo fuel tc path cache1 selfId rest with
              | none => rw [hr] at h; exact absurd h (by simp)
              | some r2 =>
                obtain ⟨arrs2, cache2⟩ := r2
                rw [hr] at h
                simp only [Option.some.injEq, Prod.mk.injEq] at h
                obtain ⟨-, rfl⟩ := h
                obtain ⟨Δ₁, hΔ₁, hΔ₁m⟩ := ihA tc path cache tnote attrs cache1 hg
                obtain ⟨Δ₂, hΔ₂, hΔ₂m⟩ := ihT tc path cache1 selfId rest arrs2 cache2 hr
                refine ⟨Δ₁ ++ Δ₂, by rw [hΔ₂, hΔ₁, List.append_assoc], ?_⟩
                intro q hq
                rcases List.mem_append.mp hq with hq | hq
                · exact hΔ₁m q hq
                · exact hΔ₂m q hq

/-- A successful top-level resolution leaves a memo entry for the resolved
note holding exactly the returned attribute list. -/
theorem getCachedAttributesGo_memoizes (fuel : Nat) (tc : TreeCache) (cache : AttrCache)
    (note : FNote) (res : List FAttribute) (c' : AttrCache)
    (h : getCachedAttributesGo fuel tc [] cache note = some (res, c')) :
    cacheLookup c' note.noteId = some res := by
  cases fuel with
  | zero => exact absurd h (by simp [getCachedAttributesGo])
  | succ fuel =>
    unfold getCachedAttributesGo at h
    have hguard : (([] : List String).contains note.noteId) = false := rfl
    rw [hguard] at h
    simp only [Bool.false_eq_true, if_false, reduceIte] at h
    cases hl : cacheLookup cache note.noteId with
    | some attrs =>
      rw [hl] at h
      simp only [Option.some.injEq, Prod.mk.injEq] at h
      obtain ⟨hres, rfl⟩ := h
      rw [hl, hres]
    | none =>
      rw [hl] at h
      simp only [] at h
      have hfindc : cache.find? (fun p => p.1 == note.noteId) = none := by
        unfold cacheLookup at hl
        cases hf : cache.find? (fun p => p.1 == note.noteId) with
        | none => rfl
        | some q => rw [hf] at hl; cases hl
      have hfin : ∀ (cache2 : AttrCache), cache2 = cache ++ (cache2.drop cache.length) →
          (∀ p ∈ cache2.drop cache.length,
            (([] : List String) ++ [note.noteId]).contains p.1 = false) →
          cacheLookup (cache2 ++ [(note.noteId, res)]) note.noteId = some res := by
        intro cache2 hsplit hmem
        unfold cacheLookup
        rw [hsplit, List.append_assoc]
        rw [find?_append_left_none _ cache _ hfindc]
        rw [find?_append_left_none]
        · simp [List.find?_cons]
        · rw [List.find?_eq_none]
          intro p hp
          have := beq_false_of_contains_singleton ((contains_append_false (hmem p hp)).2)
          simp [this]
      cases hroot : (note.noteId == "root") with
      | true =>
        rw [hroot] at h
        simp only [reduceIte] at h
        cases htm : templatesGo fuel tc ([] ++ [note.noteId]) cache note.noteId
            (((getOwnedAttributesF tc note :: ([] : List (List FAttribute))).flatten).filter
              (fun a => a.type == "relation" && a.name == "template")) with
        | none => rw [htm] at h; exact absurd h (by simp)
        | some r =>
          obtain ⟨tmplArrs, cache2⟩ := r
          rw [htm] at h
          simp only [Option.some.injEq, Prod.mk.injEq] at h
          obtain ⟨hres, hc'⟩ := h
          obtain ⟨Δt, hΔt, hΔtm⟩ := (attrCache_delta_spec fuel).2.2 tc _ cache note.noteId _
            tmplArrs cache2 htm
          rw [← hc', hres]
          have hdrop : cache2.drop cache.length = Δt := by
            rw [hΔt, List.drop_left]
          exact hfin cache2 (by rw [hdrop, ← hΔt]) (by rw [hdrop]; exact hΔtm)
      | false =>
        rw [hroot] at h
        simp only [Bool.false_eq_true, if_false, reduceIte] at h
        cases hpar : inheritableFromParentsGo fuel tc ([] ++ [note.noteId]) cache
            (note.parents.filterMap tc.noteFromCache) with
        | none => rw [hpar] at h; exact absurd h (by simp)
        | some rp =>
          obtain ⟨parentArrs, cache1⟩ := rp
          rw [hpar] at h
          simp only [] at h
          cases htm : templatesGo fuel tc ([] ++ [note.noteId]) cache1 note.noteId
              (((getOwnedAttributesF tc note :: parentArrs).flatten).filter
                (fun a => a.type == "relation" && a.name == "template")) with
          | none => rw [htm] at h; exact absurd h (by simp)
          | some r =>
            obtain ⟨tmplArrs, cache2⟩ := r
            rw [htm] at h
            simp only [Option.some.injEq, Prod.mk.injEq] at h
            obtain ⟨hres, hc'⟩ := h
            obtain ⟨Δp, hΔp, hΔpm⟩ := (attrCache_delta_spec fuel).2.1 tc _ cache _
              parentArrs cache1 hpar
            obtain ⟨Δt, hΔt, hΔtm⟩ := (attrCache_delta_spec fuel).2.2 tc _ cache1 note.noteId _
              tmplArrs cache2 htm
            rw [← hc', hres]
            have hc2 : cache2 = cache ++ (Δp ++ Δt) := by
              rw [hΔt, hΔp, List.append_assoc]
            have hdrop : cache2.drop cache.length = Δp ++ Δt := by
              rw [hc2, List.drop_left]
            refine hfin cache2 (by rw [hdrop, ← hc2]) ?_
            rw [hdrop]
            intro p hp
            rcases List.mem_append.mp hp with hp | hp
            · exact hΔpm p hp
            · exact hΔtm p hp

/-- C10: counterexample — the effective attribute set returned by
`getAttributes()` is NOT independent of prior resolution history.  On `tcC10`,
resolving "T" on a fresh memo cache yields the label inherited from its parent
"A"; but resolving "A" first traverses "T" mid-path (through the template
edge), where the parent walk back into "A" is cycle-truncated to the empty
contribution, and the resulting empty set is memoized for "T".  A subsequent
resolution of "T" then returns the polluted empty set. -/
theorem getAttributesF_history_counterexample :
    getAttributesF 10 tcC10 [] "A" = some (c10ResA.1, c10ResA.2) ∧
    (getAttributesF 10 tcC10 [] "T").map Prod.fst = some [aLblC10] ∧
    (getAttributesF 10 tcC10 c10ResA.2 "T").map Prod.fst = some [] ∧
    (some ([] : List FAttribute) ≠ some [aLblC10]) := by
  refine ⟨by decide, by decide, by decide, by decide⟩

/-- C10 (amended): repeat-resolution stability — re-resolving the same note
with the memo cache produced by a successful resolution returns the identical
attribute list and leaves the cache unchanged, because the first resolution
memoizes its own result and no sub-resolution writes an entry for a note on
the current path.  (Resolutions of other notes may still change the result,
as the counterexample shows.) -/
theorem getAttributesF_repeat_stable (fuel fuel2 : Nat) (tc : TreeCache)
    (cache : AttrCache) (n : String) (res : List FAttribute) (c' : AttrCache)
    (h : getAttributesF fuel tc cache n = some (res, c')) :
    getAttributesF (Nat.succ fuel2) tc c' n = some (res, c') := by
  unfold getAttributesF at h ⊢
  cases hn : tc.noteFromCache n with
  | none => rw [hn] at h; exact absurd h (by simp)
  | some note =>
    rw [hn] at h
    simp only [] at h ⊢
    have hmemo := getCachedAttributesGo_memoizes fuel tc cache note res c' h
    unfold getCachedAttributesGo
    have hguard : (([] : List String).contains note.noteId) = false := rfl
    rw [hguard]
    simp only [Bool.false_eq_true, if_false, reduceIte]
    rw [hmemo]

/-- Witness for C10: on the example cache, resolving "A" succeeds, and
re-resolving "A" with the returned memo cache reproduces the same result and
cache verbatim. -/
theorem getAttributesF_repeat_stable_witness :
    getAttributesF 10 tcC10 [] "A" = some (c10ResA.1, c10ResA.2) ∧
    getAttributesF (Nat.succ 4) tcC10 c10ResA.2 "A" = some (c10ResA.1, c10ResA.2) :=
  ⟨by decide, getAttributesF_repeat_stable 10 4 tcC10 [] "A" c10ResA.1 c10ResA.2 (by decide)⟩

theorem mem_of_contains_true {x : String} {l : List String} (h : l.contains x = true) :
    x ∈ l := by
  induction l with
  | nil => cases h
  | cons a rest ih =>
    rw [List.contains_eq_any_beq, List.any_cons] at h
    cases hx : (x == a) with
    | true =>
      have hxa : x = a := by simpa using hx
      rw [hxa]
      exact List.mem_cons_self a rest
    | false =>
      rw [hx] at h
      simp only [Bool.false_or] at h
      rw [← List.contains_eq_any_beq] at h
      exact List.mem_cons_of_mem a (ih h)

theorem contains_true_of_mem {x : String} {l : List String} (h : x ∈ l) :
    l.contains x = true := by
  rw [List.contains_eq_any_beq]
  exact List.any_eq_true.mpr ⟨x, h, by simp⟩

theorem find?_append_left_some {α : Type} (p : α → Bool) (l₁ l₂ : List α) (a : α) :
    l₁.find? p = some a → (l₁ ++ l₂).find? p = some a := by
  induction l₁ with
  | nil => intro h; cases h
  | cons x l ih =>
    intro h
    rw [List.find?_cons] at h
    rw [List.cons_append, List.find?_cons]
    cases hp : p x with
    | true => rw [hp] at h; simp only [] at h ⊢; exact h
    | false => rw [hp] at h; simp only [] at h ⊢; exact ih h

theorem cacheLookup_append_left_some {c1 : AttrCache} (c2 : AttrCache) {id : String}
    {v : List FAttribute} (h : cacheLookup c1 id = some v) :
    cacheLookup (c1 ++ c2) id = some v := by
  unfold cacheLookup at h ⊢
  cases hf : c1.find? (fun p => p.1 == id) with
  | none => rw [hf] at h; cases h
  | some q =>
    rw [hf] at h
    rw [find?_append_left_some _ c1 c2 q hf]
    exact h

theorem cacheLookup_append_left_none {c1 : AttrCache} (c2 : AttrCache) {id : String}
    (h : cacheLookup c1 id = none) :
    cacheLookup (c1 ++ c2) id = cacheLookup c2 id := by
  unfold cacheLookup at h ⊢
  cases hf : c1.find? (fun p => p.1 == id) with
  | none => rw [find?_append_left_none _ c1 c2 hf]
  | some q => rw [hf] at h; cases h

theorem noteFromCache_key {tc : TreeCache} {id : String} {v : FNote}
    (hWF : WFTreeCache tc) (h : tc.noteFromCache id = some v) : v.noteId = id := by
  unfold TreeCache.noteFromCache at h
  cases hf : tc.notes.find? (fun p => p.1 == id) with
  | none => rw [hf] at h; cases h
  | some q =>
    rw [hf] at h
    simp only [Option.map_some'] at h
    have hq := List.find?_some hf
    have hmem : q ∈ tc.notes := List.mem_of_find?_eq_some hf
    have hkey : q.1 = id := by simpa using hq
    injection h with h2
    rw [← h2, hWF q hmem, hkey]

theorem noteFromCache_self {tc : TreeCache} {id : String} {v : FNote}
    (hWF : WFTreeCache tc) (h : tc.noteFromCache id = some v) :
    tc.noteFromCache v.noteId = some v := by
  rw [noteFromCache_key hWF h]
  exact h

theorem dedupGo_mono (l : List FAttribute) :
    ∀ acc : List FAttribute × List String, ∃ Δ,
      (l.foldl (fun (acc : List FAttribute × List String) a =>
        if acc.2.contains a.attributeId then acc
        else (acc.1 ++ [a], acc.2 ++ [a.attributeId])) acc).1 = acc.1 ++ Δ := by
  induction l with
  | nil => intro acc; exact ⟨[], by simp⟩
  | cons a rest ih =>
    intro acc
    rw [List.foldl_cons]
    cases hc : acc.2.contains a.attributeId with
    | true =>
      simp only [hc, reduceIte]
      exact ih acc
    | false =>
      simp only [hc, Bool.false_eq_true, if_false, reduceIte]
      obtain ⟨Δ, hΔ⟩ := ih (acc.1 ++ [a], acc.2 ++ [a.attributeId])
      exact ⟨[a] ++ Δ, by rw [hΔ]; simp⟩

theorem dedupGo_rep (l : List FAttribute) :
    ∀ acc : List FAttribute × List String,
      (∀ id ∈ acc.2, ∃ a' ∈ acc.1, a'.attributeId = id) →
      ∀ a ∈ l,
        ∃ a' ∈ (l.foldl (fun (acc : List FAttribute × List String) a =>
          if acc.2.contains a.attributeId then acc
          else (acc.1 ++ [a], acc.2 ++ [a.attributeId])) acc).1,
          a'.attributeId = a.attributeId := by
  induction l with
  | nil => intro acc _ a ha; cases ha
  | cons a0 rest ih =>
    intro acc hinv a ha
    rw [List.foldl_cons]
    cases hc : acc.2.contains a0.attributeId with
    | true =>
      simp only [hc, reduceIte]
      rcases List.mem_cons.mp ha with rfl | ha
      · obtain ⟨a', ha', hid⟩ := hinv a.attributeId (mem_of_contains_true hc)
        obtain ⟨Δ, hΔ⟩ := dedupGo_mono rest acc
        exact ⟨a', by rw [hΔ]; exact List.mem_append_left Δ ha', hid⟩
      · exact ih acc hinv a ha
    | false =>
      simp only [hc, Bool.false_eq_true, if_false, reduceIte]
      have hinv' : ∀ id ∈ acc.2 ++ [a0.attributeId],
          ∃ a' ∈ acc.1 ++ [a0], a'.attributeId = id := by
        intro id hid
        rcases List.mem_append.mp hid with hid | hid
        · obtain ⟨a', ha', h'⟩ := hinv id hid
          exact ⟨a', List.mem_append_left _ ha', h'⟩
        · rcases List.mem_singleton.mp hid with rfl
          exact ⟨a0, List.mem_append_right _ (List.mem_singleton.mpr rfl), rfl⟩
      rcases List.mem_cons.mp ha with rfl | ha
      · obtain ⟨Δ, hΔ⟩ := dedupGo_mono rest (acc.1 ++ [a], acc.2 ++ [a.attributeId])
        refine ⟨a, ?_, rfl⟩
        rw [hΔ]
        exact List.mem_append_left Δ (List.mem_append_right _ (List.mem_singleton.mpr rfl))
      · exact ih (acc.1 ++ [a0], acc.2 ++ [a0.attributeId]) hinv' a ha

/-- Every attribute of the pre-dedup list has a representative with the same
attribute id in the deduplicated output. -/
theorem dedup_rep (l : List FAttribute) :
    ∀ a ∈ l, ∃ a' ∈ dedupById l, a'.attributeId = a.attributeId := by
  unfold dedupById
  exact dedupGo_rep l ([], []) (by intro id h; cases h)

/-- Revisiting a note on the current traversal path contributes the empty
attribute set in one step, leaving the memo cache unchanged. -/
theorem attrGo_truncates (f : Nat) (tc : TreeCache) (path : List String) (c : AttrCache)
    (n : FNote) (h : path.contains n.noteId = true) :
    getCachedAttributesGo (Nat.succ f) tc path c n = some ([], c) := by
  unfold getCachedAttributesGo
  rw [h]
  simp only [reduceIte]

/-- Appending a memo entry that holds representatives of its note's owned
attributes preserves the memo-cache invariant. -/
theorem goodCache_extend {tc : TreeCache} {c : AttrCache} {n : FNote} {d : List FAttribute}
    (hGood : GoodCache tc c)
    (hn : tc.noteFromCache n.noteId = some n)
    (hreps : ∀ b ∈ getOwnedAttributesF tc n, ∃ a' ∈ d, a'.attributeId = b.attributeId) :
    GoodCache tc (c ++ [(n.noteId, d)]) := by
  intro id attrs hl noteI hnoteI b hb
  cases hx : cacheLookup c id with
  | some v =>
    rw [cacheLookup_append_left_some _ hx] at hl
    injection hl with hl
    rw [← hl]
    exact hGood id v hx noteI hnoteI b hb
  | none =>
    rw [cacheLookup_append_left_none _ hx] at hl
    unfold cacheLookup at hl
    rw [List.find?_cons] at hl
    simp only [] at hl
    cases hbeq : (n.noteId == id) with
    | false =>
      rw [hbeq] at hl
      simp only [List.find?_nil, Option.map_none'] at hl
      cases hl
    | true =>
      rw [hbeq] at hl
      simp only [Option.map_some'] at hl
      injection hl with hl
      have hid : n.noteId = id := by simpa using hbeq
      rw [← hid, hn] at hnoteI
      injection hnoteI with hEq
      rw [← hEq] at hb
      obtain ⟨a', ha', h'⟩ := hreps b hb
      exact ⟨a', hl ▸ ha', h'⟩

/-- The frontend resolver establishes and preserves the memo-cache invariant,
and a fresh off-path resolution returns a representative of every owned
attribute of the note; the template loop additionally returns, for every
template relation with an existing off-path target other than the note itself,
a contribution holding representatives of all of the target's owned
attributes, inheritable or not. -/
theorem goodCache_spec (fuel : Nat) :
    (∀ tc path cache note res c2,
      WFTreeCache tc → GoodCache tc cache →
      tc.noteFromCache note.noteId = some note →
      getCachedAttributesGo fuel tc path cache note = some (res, c2) →
      GoodCache tc c2 ∧
      (path.contains note.noteId = false →
        ∀ b ∈ getOwnedAttributesF tc note, ∃ a' ∈ res, a'.attributeId = b.attributeId)) ∧
    (∀ tc path cache ps arrs c2,
      WFTreeCache tc → GoodCache tc cache →
      (∀ p ∈ ps, tc.noteFromCache p.noteId = some p) →
      inheritableFromParentsGo fuel tc path cache ps = some (arrs, c2) →
      GoodCache tc c2) ∧
    (∀ tc path cache selfId tas arrs c2,
      WFTreeCache tc → GoodCache tc cache →
      templatesGo fuel tc path cache selfId tas = some (arrs, c2) →
      GoodCache tc c2 ∧
      (∀ ta ∈ tas, ∀ tnote, tc.noteFromCache ta.value = some tnote →
        (tnote.noteId == selfId) = false →
        path.contains tnote.noteId = false →
        ∃ arrsT ∈ arrs, ∀ b ∈ getOwnedAttributesF tc tnote,
          ∃ a' ∈ arrsT, a'.attributeId = b.attributeId)) := by
  induction fuel with
  | zero =>
    refine ⟨?_, ?_, ?_⟩
    · intro tc path cache note res c2 _ _ _ h
      exact absurd h (by simp [getCachedAttributesGo])
    · intro tc path cache ps arrs c2 _ _ _ h
      exact absurd h (by simp [inheritableFromParentsGo])
    · intro tc path cache selfId tas arrs c2 _ _ h
      exact absurd h (by simp [templatesGo])
  | succ fuel ih =>
    obtain ⟨ihA, ihP, ihT⟩ := ih
    refine ⟨?_, ?_, ?_⟩
    · intro tc path cache note res c2 hWF hGood hnote h
      unfold getCachedAttributesGo at h
      cases hguard : path.contains note.noteId with
      | true =>
        rw [hguard] at h
        simp only [if_true, Option.some.injEq, Prod.mk.injEq, reduceIte] at h
        obtain ⟨-, rfl⟩ := h
        refine ⟨hGood, ?_⟩
        intro hfalse
        cases hfalse
      | false =>
        rw [hguard] at h
        simp only [Bool.false_eq_true, if_false, reduceIte] at h
        cases hl : cacheLookup cache note.noteId with
        | some attrs =>
          rw [hl] at h
          simp only [Option.some.injEq, Prod.mk.injEq] at h
          obtain ⟨hres, rfl⟩ := h
          refine ⟨hGood, fun _ => ?_⟩
          rw [← hres]
          exact hGood note.noteId attrs hl note hnote
        | none =>
          rw [hl] at h
          simp only [] at h
          cases hroot : (note.noteId == "root") with
          | true =>
            rw [hroot] at h
            simp only [reduceIte] at h
            cases htm : templatesGo fuel tc (path ++ [note.noteId]) cache note.noteId
                (((getOwnedAttributesF tc note :: ([] : List (List FAttribute))).flatten).filter
                  (fun a => a.type == "relation" && a.name == "template")) with
            | none => rw [htm] at h; exact absurd h (by simp)
            | some r =>
              obtain ⟨tmplArrs, cache2⟩ := r
              rw [htm] at h
              simp only [Option.some.injEq, Prod.mk.injEq] at h
              obtain ⟨hres, hc2⟩ := h
              rw [hres] at hc2
              obtain ⟨hgood2, -⟩ := ihT tc _ cache note.noteId _ tmplArrs cache2 hWF hGood htm
              have hreps : ∀ b ∈ getOwnedAttributesF tc note,
                  ∃ a' ∈ res, a'.attributeId = b.attributeId := by
                intro b hb
                rw [← hres]
                refine dedup_rep _ b ?_
                refine List.mem_append_left _ ?_
                rw [List.flatten_cons]
                exact List.mem_append_left _ hb
              refine ⟨?_, fun _ => hreps⟩
              rw [← hc2]
              exact goodCache_extend hgood2 hnote hreps
          | false =>
            rw [hroot] at h
            simp only [Bool.false_eq_true, if_false, reduceIte] at h
            cases hpar : inheritableFromParentsGo fuel tc (path ++ [note.noteId]) cache
                (note.parents.filterMap tc.noteFromCache) with
            | none => rw [hpar] at h; exact absurd h (by simp)
            | some rp =>
              obtain ⟨parentArrs, cache1⟩ := rp
              rw [hpar] at h
              simp only [] at h
              cases htm : templatesGo fuel tc (path ++ [note.noteId]) cache1 note.noteId
                  (((getOwnedAttributesF tc note :: parentArrs).flatten).filter
                    (fun a => a.type == "relation" && a.name == "template")) with
              | none => rw [htm] at h; exact absurd h (by simp)
              | some r =>
                obtain ⟨tmplArrs, cache2⟩ := r
                rw [htm] at h
                simp only [Option.some.injEq, Prod.mk.injEq] at h
                obtain ⟨hres, hc2⟩ := h
                rw [hres] at hc2
                have hps : ∀ p ∈ note.parents.filterMap tc.noteFromCache,
                    tc.noteFromCache p.noteId = some p := by
                  intro p hp
                  obtain ⟨pid, -, hpid⟩ := List.mem_filterMap.mp hp
                  exact noteFromCache_self hWF hpid
                have hgood1 : GoodCache tc cache1 :=
                  ihP tc _ cache _ parentArrs cache1 hWF hGood hps hpar
                obtain ⟨hgood2, -⟩ :=
                  ihT tc _ cache1 note.noteId _ tmplArrs cache2 hWF hgood1 htm
                have hreps : ∀ b ∈ getOwnedAttributesF tc note,
                    ∃ a' ∈ res, a'.attributeId = b.attributeId := by
                  intro b hb
                  rw [← hres]
                  refine dedup_rep _ b ?_
                  refine List.mem_append_left _ ?_
                  rw [List.flatten_cons]
                  exact List.mem_append_left _ hb
                refine ⟨?_, fun _ => hreps⟩
                rw [← hc2]
                exact goodCache_extend hgood2 hnote hreps
    · intro tc path cache ps arrs c2 hWF hGood hps h
      cases ps with
      | nil =>
        unfold inheritableFromParentsGo at h
        simp only [Option.some.injEq, Prod.mk.injEq] at h
        obtain ⟨-, rfl⟩ := h
        exact hGood
      | cons p rest =>
        unfold inheritableFromParentsGo at h
        have hps' : ∀ q ∈ rest, tc.noteFromCache q.noteId = some q :=
          fun q hq => hps q (List.mem_cons_of_mem p hq)
        cases hty : (p.type == "search") with
        | true =>
          rw [hty] at h
          simp only [reduceIte] at h
          exact ihP tc path cache rest arrs c2 hWF hGood hps' h
        | false =>
          rw [hty] at h
          simp only [Bool.false_eq_true, if_false, reduceIte] at h
          cases hg : getCachedAttributesGo fuel tc path cache p with
          | none => rw [hg] at h; exact absurd h (by simp)
          | some r =>
            obtain ⟨attrs, cache1⟩ := r
            rw [hg] at h
            simp only [] at h
            cases hr : inheritableFromParentsGo fuel tc path cache1 rest with
            | none => rw [hr] at h; exact absurd h (by simp)
            | some r2 =>
              obtain ⟨arrs2, cache2⟩ := r2
              rw [hr] at h
              simp only [Option.some.injEq, Prod.mk.injEq] at h
              obtain ⟨-, rfl⟩ := h
              have hgood1 := (ihA tc path cache p attrs cache1 hWF hGood
                (hps p (List.mem_cons_self p rest)) hg).1
              exact ihP tc path cache1 rest arrs2 cache2 hWF hgood1 hps' hr
    · intro tc path cache selfId tas arrs c2 hWF hGood h
      cases tas with
      | nil =>
        unfold templatesGo at h
        simp only [Option.some.injEq, Prod.mk.injEq] at h
        obtain ⟨hres, rfl⟩ := h
        refine ⟨hGood, ?_⟩
        intro ta hta
        cases hta
      | cons ta0 rest =>
        unfold templatesGo at h
        cases hn0 : tc.noteFromCache ta0.value with
        | none =>
          rw [hn0] at h
          simp only [] at h
          obtain ⟨hgood, htmpl⟩ := ihT tc path cache selfId rest arrs c2 hWF hGood h
          refine ⟨hgood, ?_⟩
          intro ta hta tnote hT hself hpath
          rcases List.mem_cons.mp hta with rfl | hta
          · rw [hn0] at hT; cases hT
          · exact htmpl ta hta tnote hT hself hpath
        | some tnote0 =>
          rw [hn0] at h
          simp only [] at h
          cases hself0 : (tnote0.noteId == selfId) with
          | true =>
            rw [hself0] at h
            simp only [reduceIte] at h
            obtain ⟨hgood, htmpl⟩ := ihT tc path cache selfId rest arrs c2 hWF hGood h
            refine ⟨hgood, ?_⟩
            intro ta hta tnote hT hself hpath
            rcases List.mem_cons.mp hta with rfl | hta
            · rw [hn0] at hT
              injection hT with hT
              rw [← hT] at hself
              rw [hself0] at hself
              cases hself
            · exact htmpl ta hta tnote hT hself hpath
          | false =>
            rw [hself0] at h
            simp only [Bool.false_eq_true, if_false, reduceIte] at h
            cases hg : getCachedAttributesGo fuel tc path cache tnote0 with
            | none => rw [hg] at h; exact absurd h (by simp)
            | some r =>
              obtain ⟨attrs0, cache1⟩ := r
              rw [hg] at h
              simp only [] at h
              cases hr : templatesGo fuel tc path cache1 selfId rest with
              | none => rw [hr] at h; exact absurd h (by simp)
              | some r2 =>
                obtain ⟨arrs2, cache2⟩ := r2
                rw [hr] at h
                simp only [Option.some.injEq, Prod.mk.injEq] at h
                obtain ⟨harrs, rfl⟩ := h
                have htnote0 : tc.noteFromCache tnote0.noteId = some tnote0 :=
                  noteFromCache_self hWF hn0
                obtain ⟨hgood1, hreps0⟩ := ihA tc path cache tnote0 attrs0 cache1 hWF hGood
                  htnote0 hg
                obtain ⟨hgood2, htmpl⟩ := ihT tc path cache1 selfId rest arrs2 cache2 hWF
                  hgood1 hr
                refine ⟨hgood2, ?_⟩
                intro ta hta tnote hT hself hpath
                rcases List.mem_cons.mp hta with rfl | hta
                · rw [hn0] at hT
                  injection hT with hT
                  rw [← harrs]
                  refine ⟨attrs0, List.mem_cons_self attrs0 arrs2, ?_⟩
                  rw [← hT]
                  refine hreps0 ?_
                  rw [hT]
                  exact hpath
                · obtain ⟨arrsT, hmem, hrep⟩ := htmpl ta hta tnote hT hself hpath
                  rw [← harrs]
                  exact ⟨arrsT, List.mem_cons_of_mem attrs0 hmem, hrep⟩

/-- Fuel is a depth bound for the frontend resolver: a successful run stays
successful, with the identical result, under any larger fuel. -/
theorem attrGo_mono (fuel : Nat) :
    (∀ fuel', fuel ≤ fuel' → ∀ tc path cache note r,
      getCachedAttributesGo fuel tc path cache note = some r →
      getCachedAttributesGo fuel' tc path cache note = some r) ∧
    (∀ fuel', fuel ≤ fuel' → ∀ tc path cache ps r,
      inheritableFromParentsGo fuel tc path cache ps = some r →
      inheritableFromParentsGo fuel' tc path cache ps = some r) ∧
    (∀ fuel', fuel ≤ fuel' → ∀ tc path cache selfId tas r,
      templatesGo fuel tc path cache selfId tas = some r →
      templatesGo fuel' tc path cache selfId tas = some r) := by
  induction fuel with
  | zero =>
    refine ⟨?_, ?_, ?_⟩
    · intro fuel' _ tc path cache note r h
      exact absurd h (by simp [getCachedAttributesGo])
    · intro fuel' _ tc path cache ps r h
      exact absurd h (by simp [inheritableFromParentsGo])
    · intro fuel' _ tc path cache selfId tas r h
      exact absurd h (by simp [templatesGo])
  | succ fuel ih =>
    obtain ⟨ihA, ihP, ihT⟩ := ih
    refine ⟨?_, ?_, ?_⟩
    · intro fuel' hle tc path cache note r h
      cases fuel' with
      | zero => exact absurd hle (by omega)
      | succ f' =>
        have hle' : fuel ≤ f' := Nat.succ_le_succ_iff.mp hle
        unfold getCachedAttributesGo at h ⊢
        cases hguard : path.contains note.noteId with
        | true =>
          rw [hguard] at h
          simp only [reduceIte] at h ⊢
          exact h
        | false =>
          rw [hguard] at h
          simp only [Bool.false_eq_true, if_false, reduceIte] at h ⊢
          cases hl : cacheLookup cache note.noteId with
          | some attrs =>
            rw [hl] at h
            exact h
          | none =>
            rw [hl] at h
            simp only [] at h ⊢
            cases hroot : (note.noteId == "root") with
            | true =>
              rw [hroot] at h
              simp only [reduceIte] at h ⊢
              cases htm : templatesGo fuel tc (path ++ [note.noteId]) cache note.noteId
                  (((getOwnedAttributesF tc note :: ([] : List (List FAttribute))).flatten).filter
                    (fun a => a.type == "relation" && a.name == "template")) with
              | none => rw [htm] at h; exact absurd h (by simp)
              | some r2 =>
                obtain ⟨tmplArrs, cache2⟩ := r2
                rw [htm] at h
                rw [ihT f' hle' tc _ cache note.noteId _ (tmplArrs, cache2) htm]
                simp only [] at h ⊢
                exact h
            | false =>
              rw [hroot] at h
              simp only [Bool.false_eq_true, if_false, reduceIte] at h ⊢
              cases hpar : inheritableFromParentsGo fuel tc (path ++ [note.noteId]) cache
                  (note.parents.filterMap tc.noteFromCache) with
              | none => rw [hpar] at h; exact absurd h (by simp)
              | some rp =>
                obtain ⟨parentArrs, cache1⟩ := rp
                rw [hpar] at h
                rw [ihP f' hle' tc _ cache _ (parentArrs, cache1) hpar]
                simp only [] at h ⊢
                cases htm : templatesGo fuel tc (path ++ [note.noteId]) cache1 note.noteId
                    (((getOwnedAttributesF tc note :: parentArrs).flatten).filter
                      (fun a => a.type == "relation" && a.name == "template")) with
                | none => rw [htm] at h; exact absurd h (by simp)
                | some r2 =>
                  obtain ⟨tmplArrs, cache2⟩ := r2
                  rw [htm] at h
                  rw [ihT f' hle' tc _ cache1 note.noteId _ (tmplArrs, cache2) htm]
                  simp only [] at h ⊢
                  exact h
    · intro fuel' hle tc path cache ps r h
      cases fuel' with
      | zero => exact absurd hle (by omega)
      | succ f' =>
        have hle' : fuel ≤ f' := Nat.succ_le_succ_iff.mp hle
        cases ps with
        | nil =>
          unfold inheritableFromParentsGo at h ⊢
          exact h
        | cons p rest =>
          unfold inheritableFromParentsGo at h ⊢
          cases hty : (p.type == "search") with
          | true =>
            rw [hty] at h
            simp only [reduceIte] at h ⊢
            exact ihP f' hle' tc path cache rest r h
          | false =>
            rw [hty] at h
            simp only [Bool.false_eq_true, if_false, reduceIte] at h ⊢
            cases hg : getCachedAttributesGo fuel tc path cache p with
            | none => rw [hg] at h; exact absurd h (by simp)
            | some r1 =>
              obtain ⟨attrs, cache1⟩ := r1
              rw [hg] at h
              rw [ihA f' hle' tc path cache p (attrs, cache1) hg]
              simp only [] at h ⊢
              cases hr : inheritableFromParentsGo fuel tc path cache1 rest with
              | none => rw [hr] at h; exact absurd h (by simp)
              | some r2 =>
                obtain ⟨arrs2, cache2⟩ := r2
                rw [hr] at h
                rw [ihP f' hle' tc path cache1 rest (arrs2, cache2) hr]
                simp only [] at h ⊢
                exact h
    · intro fuel' hle tc path cache selfId tas r h
      cases fuel' with
      | zero => exact absurd hle (by omega)
      | succ f' =>
        have hle' : fuel ≤ f' := Nat.succ_le_succ_iff.mp hle
        cases tas with
        | nil =>
          unfold templatesGo at h ⊢
          exact h
        | cons ta rest =>
          unfold templatesGo at h ⊢
          cases hn0 : tc.noteFromCache ta.value with
          | none =>
            rw [hn0] at h
            simp only [] at h ⊢
            exact ihT f' hle' tc path cache selfId rest r h
          | some tnote0 =>
            rw [hn0] at h
            simp only [] at h ⊢
            cases hself : (tnote0.noteId == selfId) with
            | true =>
              rw [hself] at h
              simp only [reduceIte] at h ⊢
              exact ihT f' hle' tc path cache selfId rest r h
            | false =>
              rw [hself] at h
              simp only [Bool.false_eq_true, if_false, reduceIte] at h ⊢
              cases hg : getCachedAttributesGo fuel tc path cache tnote0 with
              | none => rw [hg] at h; exact absurd h (by simp)
              | some r1 =>
                obtain ⟨attrs, cache1⟩ := r1
                rw [hg] at h
                rw [ihA f' hle' tc path cache tnote0 (attrs, cache1) hg]
                simp only [] at h ⊢
                cases hr : templatesGo fuel tc path cache1 selfId rest with
                | none => rw [hr] at h; exact absurd h (by simp)
                | some r2 =>
                  obtain ⟨arrs2, cache2⟩ := r2
                  rw [hr] at h
                  rw [ihT f' hle' tc path cache1 selfId rest (arrs2, cache2) hr]
                  simp only [] at h ⊢
                  exact h

theorem noteFromCache_key_mem {tc : TreeCache} {id : String} {v : FNote}
    (h : tc.noteFromCache id = some v) : id ∈ tc.notes.map Prod.fst := by
  unfold TreeCache.noteFromCache at h
  cases hf : tc.notes.find? (fun p => p.1 == id) with
  | none => rw [hf] at h; cases h
  | some q =>
    have hq := List.find?_some hf
    have hmem : q ∈ tc.notes := List.mem_of_find?_eq_some hf
    have hkey : q.1 = id := by simpa using hq
    rw [← hkey]
    exact List.mem_map_of_mem Prod.fst hmem

theorem filter_path_extend_le (path : List String) (x : String) (keys : List String) :
    (keys.filter (fun k => !(path ++ [x]).contains k)).length ≤
      (keys.filter (fun k => !path.contains k)).length := by
  induction keys with
  | nil => exact Nat.le_refl 0
  | cons k rest ih =>
    simp only [List.filter_cons]
    cases hnew : (!(path ++ [x]).contains k) with
    | false =>
      simp only [Bool.false_eq_true, if_false, reduceIte]
      cases hold : (!path.contains k) with
      | false =>
        simp only [Bool.false_eq_true, if_false, reduceIte]
        exact ih
      | true =>
        simp only [reduceIte, List.length_cons]
        exact Nat.le_succ_of_le ih
    | true =>
      have hold : (!path.contains k) = true := by
        have h1 : ((path ++ [x]).contains k) = false := by simpa using hnew
        have h2 := (contains_append_false h1).1
        rw [h2]
        rfl
      rw [hold]
      simp only [reduceIte, List.length_cons]
      exact Nat.succ_le_succ ih

theorem filter_path_extend_lt (path : List String) (x : String)
    (hnp : path.contains x = false) (keys : List String) (hmem : x ∈ keys) :
    (keys.filter (fun k => !(path ++ [x]).contains k)).length <
      (keys.filter (fun k => !path.contains k)).length := by
  induction keys with
  | nil => cases hmem
  | cons k rest ih =>
    simp only [List.filter_cons]
    rcases List.mem_cons.mp hmem with rfl | hmem
    · have hnew : (!(path ++ [x]).contains x) = false := by
        have h1 : ((path ++ [x]).contains x) = true :=
          contains_true_of_mem (List.mem_append_right path (List.mem_singleton.mpr rfl))
        rw [h1]
        rfl
      have hold : (!path.contains x) = true := by
        rw [hnp]
        rfl
      rw [hnew, hold]
      simp only [Bool.false_eq_true, if_false, reduceIte, List.length_cons]
      exact Nat.lt_succ_of_le (filter_path_extend_le path x rest)
    · cases hnew : (!(path ++ [x]).contains k) with
      | false =>
        simp only [Bool.false_eq_true, if_false, reduceIte]
        cases hold : (!path.contains k) with
        | false =>
          simp only [Bool.false_eq_true, if_false, reduceIte]
          exact ih hmem
        | true =>
          simp only [reduceIte, List.length_cons]
          exact Nat.lt_succ_of_lt (ih hmem)
      | true =>
        have hold : (!path.contains k) = true := by
          have h1 : ((path ++ [x]).contains k) = false := by simpa using hnew
          have h2 := (contains_append_false h1).1
          rw [h2]
          rfl
        rw [hold]
        simp only [reduceIte, List.length_cons]
        exact Nat.succ_lt_succ (ih hmem)

/-- The frontend resolver terminates: for every store, path, memo cache and
note present in the tree cache there is enough fuel for the resolution to
return a result (the visited-path grows through the finitely many notes, and
revisits are cut off in one step). -/
theorem attrGo_total (tc : TreeCache) (hWF : WFTreeCache tc) :
    ∀ (m : Nat) (path : List String),
      ((tc.notes.map Prod.fst).filter (fun k => !path.contains k)).length ≤ m →
      ∀ (cache : AttrCache) (note : FNote), tc.noteFromCache note.noteId = some note →
      ∃ fuel r, getCachedAttributesGo fuel tc path cache note = some r := by
  intro m
  induction m with
  | zero =>
    intro path hD cache note hnote
    have hcont : path.contains note.noteId = true := by
      cases hc : path.contains note.noteId with
      | true => rfl
      | false =>
        have hin : note.noteId ∈ (tc.notes.map Prod.fst).filter
            (fun k => !path.contains k) :=
          List.mem_filter.mpr ⟨noteFromCache_key_mem hnote,
            by show (!path.contains note.noteId) = true; rw [hc]; rfl⟩
        have h0 := Nat.le_zero.mp hD
        rw [List.length_eq_zero] at h0
        rw [h0] at hin
        cases hin
    exact ⟨1, ([], cache), attrGo_truncates 0 tc path cache note hcont⟩
  | succ m ihm =>
    intro path hD cache note hnote
    cases hguard : path.contains note.noteId with
    | true => exact ⟨1, ([], cache), attrGo_truncates 0 tc path cache note hguard⟩
    | false =>
      cases hl : cacheLookup cache note.noteId with
      | some attrs =>
        refine ⟨1, (attrs, cache), ?_⟩
        unfold getCachedAttributesGo
        rw [hguard]
        simp only [Bool.false_eq_true, if_false, reduceIte]
        rw [hl]
      | none =>
        have hDnew : ((tc.notes.map Prod.fst).filter
            (fun k => !(path ++ [note.noteId]).contains k)).length ≤ m := by
          have := filter_path_extend_lt path note.noteId hguard (tc.notes.map Prod.fst)
            (noteFromCache_key_mem hnote)
          omega
        have hA : ∀ (c : AttrCache) (n : FNote), tc.noteFromCache n.noteId = some n →
            ∃ fuel r, getCachedAttributesGo fuel tc (path ++ [note.noteId]) c n = some r :=
          fun c n hn => ihm (path ++ [note.noteId]) hDnew c n hn
        have hP : ∀ (ps : List FNote), (∀ p ∈ ps, tc.noteFromCache p.noteId = some p) →
            ∀ (c : AttrCache), ∃ fuel r,
              inheritableFromParentsGo fuel tc (path ++ [note.noteId]) c ps = some r := by
          intro ps
          induction ps with
          | nil => exact fun _ c => ⟨1, ([], c), rfl⟩
          | cons p rest ihp =>
            intro hps c
            cases hty : (p.type == "search") with
            | true =>
              obtain ⟨f, r, hf⟩ := ihp (fun q hq => hps q (List.mem_cons_of_mem p hq)) c
              refine ⟨f + 1, r, ?_⟩
              unfold inheritableFromParentsGo
              rw [hty]
              simp only [reduceIte]
              exact hf
            | false =>
              obtain ⟨f1, r1, h1⟩ := hA c p (hps p (List.mem_cons_self p rest))
              obtain ⟨attrs1, c1⟩ := r1
              obtain ⟨f2, r2, h2⟩ := ihp (fun q hq => hps q (List.mem_cons_of_mem p hq)) c1
              obtain ⟨arrs2, c2⟩ := r2
              refine ⟨max f1 f2 + 1, ((attrs1.filter (fun a => a.isInheritable)) :: arrs2, c2),
                ?_⟩
              unfold inheritableFromParentsGo
              rw [hty]
              simp only [Bool.false_eq_true, if_false, reduceIte]
              rw [(attrGo_mono f1).1 (max f1 f2) (Nat.le_max_left f1 f2) tc _ c p
                (attrs1, c1) h1]
              simp only []
              rw [(attrGo_mono f2).2.1 (max f1 f2) (Nat.le_max_right f1 f2) tc _ c1 rest
                (arrs2, c2) h2]
        have hT : ∀ (tas : List FAttribute) (selfId : String) (c : AttrCache),
            ∃ fuel r, templatesGo fuel tc (path ++ [note.noteId]) c selfId tas = some r := by
          intro tas selfId
          induction tas with
          | nil => exact fun c => ⟨1, ([], c), rfl⟩
          | cons ta rest ihta =>
            intro c
            cases hn0 : tc.noteFromCache ta.value with
            | none =>
              obtain ⟨f, r, hf⟩ := ihta c
              refine ⟨f + 1, r, ?_⟩
              unfold templatesGo
              rw [hn0]
              simp only []
              exact hf
            | some tnote0 =>
              cases hself : (tnote0.noteId == selfId) with
              | true =>
                obtain ⟨f, r, hf⟩ := ihta c
                refine ⟨f + 1, r, ?_⟩
                unfold templatesGo
                rw [hn0]
                simp only []
                rw [hself]
                simp only [reduceIte]
                exact hf
              | false =>
                obtain ⟨f1, r1, h1⟩ := hA c tnote0 (noteFromCache_self hWF hn0)
                obtain ⟨attrs1, c1⟩ := r1
                obtain ⟨f2, r2, h2⟩ := ihta c1
                obtain ⟨arrs2, c2⟩ := r2
                refine ⟨max f1 f2 + 1, (attrs1 :: arrs2, c2), ?_⟩
                unfold templatesGo
                rw [hn0]
                simp only []
                rw [hself]
                simp only [Bool.false_eq_true, if_false, reduceIte]
                rw [(attrGo_mono f1).1 (max f1 f2) (Nat.le_max_left f1 f2) tc _ c tnote0
                  (attrs1, c1) h1]
                simp only []
                rw [(attrGo_mono f2).2.2 (max f1 f2) (Nat.le_max_right f1 f2) tc _ c1 selfId
                  rest (arrs2, c2) h2]
        cases hroot : (note.noteId == "root") with
        | true =>
          obtain ⟨ft, rt, hft⟩ := hT
            (((getOwnedAttributesF tc note :: ([] : List (List FAttribute))).flatten).filter
              (fun a => a.type == "relation" && a.name == "template")) note.noteId cache
          obtain ⟨tmplArrs, cache2⟩ := rt
          refine ⟨ft + 1,
            (dedupById (((getOwnedAttributesF tc note :: ([] : List (List FAttribute))).flatten)
                ++ tmplArrs.flatten),
              cache2 ++ [(note.noteId,
                dedupById (((getOwnedAttributesF tc note
                  :: ([] : List (List FAttribute))).flatten) ++ tmplArrs.flatten))]), ?_⟩
          unfold getCachedAttributesGo
          rw [hguard]
          simp only [Bool.false_eq_true, if_false, reduceIte]
          rw [hl]
          simp only []
          rw [hroot]
          simp only [reduceIte]
          rw [hft]
        | false =>
          have hps : ∀ p ∈ note.parents.filterMap tc.noteFromCache,
              tc.noteFromCache p.noteId = some p := by
            intro p hp
            obtain ⟨pid, -, hpid⟩ := List.mem_filterMap.mp hp
            exact noteFromCache_self hWF hpid
          obtain ⟨fp, rp, hfp⟩ := hP (note.parents.filterMap tc.noteFromCache) hps cache
          obtain ⟨parentArrs, cache1⟩ := rp
          obtain ⟨ft, rt, hft⟩ := hT
            (((getOwnedAttributesF tc note :: parentArrs).flatten).filter
              (fun a => a.type == "relation" && a.name == "template")) note.noteId cache1
          obtain ⟨tmplArrs, cache2⟩ := rt
          refine ⟨max fp ft + 1,
            (dedupById (((getOwnedAttributesF tc note :: parentArrs).flatten)
                ++ tmplArrs.flatten),
              cache2 ++ [(note.noteId,
                dedupById (((getOwnedAttributesF tc note :: parentArrs).flatten)
                  ++ tmplArrs.flatten))]), ?_⟩
          unfold getCachedAttributesGo
          rw [hguard]
          simp only [Bool.false_eq_true, if_false, reduceIte]
          rw [hl]
          simp only []
          rw [hroot]
          simp only [Bool.false_eq_true, if_false, reduceIte]
          rw [(attrGo_mono fp).2.1 (max fp ft) (Nat.le_max_left fp ft) tc _ cache _
            (parentArrs, cache1) hfp]
          simp only []
          rw [(attrGo_mono ft).2.2 (max fp ft) (Nat.le_max_right fp ft) tc _ cache1
            note.noteId _ (tmplArrs, cache2) hft]

/-- C3.  On a well-formed tree cache with the memo-cache invariant, resolving
a note A that owns a "template" relation to an existing note T ≠ A (A not yet
memoized) returns an effective attribute set holding a representative of every
owned attribute of T — whether or not T is a tree ancestor of A and whether or
not those attributes are inheritable; moreover revisiting a note on the
current traversal path contributes the empty set in one step instead of
recursing, and every note of the tree cache resolves under sufficient fuel. -/
theorem getAttributesF_template_inclusion (fuel : Nat) (tc : TreeCache) (cache : AttrCache)
    (aId : String) (noteA : FNote) (ta : FAttribute) (tnote : FNote)
    (res : List FAttribute) (c2 : AttrCache)
    (hWF : WFTreeCache tc) (hGood : GoodCache tc cache)
    (hA : tc.noteFromCache aId = some noteA)
    (hfresh : cacheLookup cache aId = none)
    (hta : ta ∈ getOwnedAttributesF tc noteA)
    (htype : ta.type = "relation") (hname : ta.name = "template")
    (hT : tc.noteFromCache ta.value = some tnote)
    (hne : (tnote.noteId == aId) = false)
    (hrun : getAttributesF fuel tc cache aId = some (res, c2)) :
    (∀ b ∈ getOwnedAttributesF tc tnote, ∃ a' ∈ res, a'.attributeId = b.attributeId) ∧
    (∀ (f : Nat) (path : List String) (c : AttrCache) (n : FNote),
      path.contains n.noteId = true →
      getCachedAttributesGo (Nat.succ f) tc path c n = some ([], c)) ∧
    (∀ (path : List String) (c : AttrCache) (n : FNote),
      tc.noteFromCache n.noteId = some n →
      ∃ f r, getCachedAttributesGo f tc path c n = some r) := by
  refine ⟨?_, fun f path c n h => attrGo_truncates f tc path c n h,
    fun path c n hn => attrGo_total tc hWF _ path (Nat.le_refl _) c n hn⟩
  unfold getAttributesF at hrun
  rw [hA] at hrun
  simp only [] at hrun
  cases fuel with
  | zero => exact absurd hrun (by simp [getCachedAttributesGo])
  | succ f =>
    have hAid : noteA.noteId = aId := noteFromCache_key hWF hA
    unfold getCachedAttributesGo at hrun
    have hguard : (([] : List String).contains noteA.noteId) = false := rfl
    rw [hguard] at hrun
    simp only [Bool.false_eq_true, if_false, reduceIte] at hrun
    cases hl : cacheLookup cache noteA.noteId with
    | some attrs =>
      rw [hAid, hfresh] at hl
      cases hl
    | none =>
      rw [hl] at hrun
      simp only [] at hrun
      have hpathT : (([] : List String) ++ [noteA.noteId]).contains tnote.noteId = false := by
        show ([noteA.noteId] : List String).contains tnote.noteId = false
        rw [List.contains_eq_any_beq]
        simp only [List.any_cons, List.any_nil, Bool.or_false]
        rw [hAid]
        exact hne
      have hselfT : (tnote.noteId == noteA.noteId) = false := by
        rw [hAid]
        exact hne
      cases hroot : (noteA.noteId == "root") with
      | true =>
        rw [hroot] at hrun
        simp only [reduceIte] at hrun
        cases htm : templatesGo f tc ([] ++ [noteA.noteId]) cache noteA.noteId
            (((getOwnedAttributesF tc noteA :: ([] : List (List FAttribute))).flatten).filter
              (fun a => a.type == "relation" && a.name == "template")) with
        | none => rw [htm] at hrun; exact absurd hrun (by simp)
        | some r =>
          obtain ⟨tmplArrs, cache2x⟩ := r
          rw [htm] at hrun
          simp only [Option.some.injEq, Prod.mk.injEq] at hrun
          obtain ⟨hres, -⟩ := hrun
          obtain ⟨-, htmpl⟩ := (goodCache_spec f).2.2 tc _ cache noteA.noteId _ tmplArrs
            cache2x hWF hGood htm
          have htaTmpl : ta ∈
              ((getOwnedAttributesF tc noteA :: ([] : List (List FAttribute))).flatten).filter
                (fun a => a.type == "relation" && a.name == "template") := by
            refine List.mem_filter.mpr ⟨?_, by rw [htype, hname]; rfl⟩
            rw [List.flatten_cons]
            exact List.mem_append_left _ hta
          obtain ⟨arrsT, hmemT, hrepT⟩ := htmpl ta htaTmpl tnote hT hselfT hpathT
          intro b hb
          obtain ⟨a', ha', hid⟩ := hrepT b hb
          rw [← hres]
          obtain ⟨a'', ha'', hid2⟩ := dedup_rep _ a'
            (List.mem_append_right _ (List.mem_flatten.mpr ⟨arrsT, hmemT, ha'⟩))
          exact ⟨a'', ha'', hid2.trans hid⟩
      | false =>
        rw [hroot] at hrun
        simp only [Bool.false_eq_true, if_false, reduceIte] at hrun
        cases hpar : inheritableFromParentsGo f tc ([] ++ [noteA.noteId]) cache
            (noteA.parents.filterMap tc.noteFromCache) with
        | none => rw [hpar] at hrun; exact absurd hrun (by simp)
        | some rp =>
          obtain ⟨parentArrs, cache1⟩ := rp
          rw [hpar] at hrun
          simp only [] at hrun
          cases htm : templatesGo f tc ([] ++ [noteA.noteId]) cache1 noteA.noteId
              (((getOwnedAttributesF tc noteA :: parentArrs).flatten).filter
                (fun a => a.type == "relation" && a.name == "template")) with
          | none => rw [htm] at hrun; exact absurd hrun (by simp)
          | some r =>
            obtain ⟨tmplArrs, cache2x⟩ := r
            rw [htm] at hrun
            simp only [Option.some.injEq, Prod.mk.injEq] at hrun
            obtain ⟨hres, -⟩ := hrun
            have hps : ∀ p ∈ noteA.parents.filterMap tc.noteFromCache,
                tc.noteFromCache p.noteId = some p := by
              intro p hp
              obtain ⟨pid, -, hpid⟩ := List.mem_filterMap.mp hp
              exact noteFromCache_self hWF hpid
            have hgood1 : GoodCache tc cache1 :=
              (goodCache_spec f).2.1 tc _ cache _ parentArrs cache1 hWF hGood hps hpar
            obtain ⟨-, htmpl⟩ := (goodCache_spec f).2.2 tc _ cache1 noteA.noteId _ tmplArrs
              cache2x hWF hgood1 htm
            have htaTmpl : ta ∈
                ((getOwnedAttributesF tc noteA :: parentArrs).flatten).filter
                  (fun a => a.type == "relation" && a.name == "template") := by
              refine List.mem_filter.mpr ⟨?_, by rw [htype, hname]; rfl⟩
              rw [List.flatten_cons]
              exact List.mem_append_left _ hta
            obtain ⟨arrsT, hmemT, hrepT⟩ := htmpl ta htaTmpl tnote hT hselfT hpathT
            intro b hb
            obtain ⟨a', ha', hid⟩ := hrepT b hb
            rw [← hres]
            obtain ⟨a'', ha'', hid2⟩ := dedup_rep _ a'
              (List.mem_append_right _ (List.mem_flatten.mpr ⟨arrsT, hmemT, ha'⟩))
            exact ⟨a'', ha'', hid2.trans hid⟩

/-- Witness for C3: on the cyclic-template example cache, resolving "A"
(template to its non-ancestor sibling "T", whose template chain points back to
"A") includes a representative of T's non-inheritable label, and concretely
returns exactly the template relation, T's label and T's cyclic template
relation, terminating despite the cycle. -/
theorem getAttributesF_template_inclusion_witness :
    ((∀ b ∈ getOwnedAttributesF tcC3
        { noteId := "T", type := "text", parents := ["root"], attributes := ["c2", "c3"] },
        ∃ a' ∈ c3Res.1, a'.attributeId = b.attributeId) ∧
      (∀ (f : Nat) (path : List String) (c : AttrCache) (n : FNote),
        path.contains n.noteId = true →
        getCachedAttributesGo (Nat.succ f) tcC3 path c n = some ([], c)) ∧
      (∀ (path : List String) (c : AttrCache) (n : FNote),
        tcC3.noteFromCache n.noteId = some n →
        ∃ f r, getCachedAttributesGo f tcC3 path c n = some r)) ∧
    c3Res.1.map (fun a => a.attributeId) = ["c1", "c2", "c3"] := by
  refine ⟨getAttributesF_template_inclusion 10 tcC3 [] "A"
    { noteId := "A", type := "text", parents := ["root"], attributes := ["c1"] }
    aTmplC3
    { noteId := "T", type := "text", parents := ["root"], attributes := ["c2", "c3"] }
    c3Res.1 c3Res.2
    (by unfold WFTreeCache; decide) (by intro id attrs h; cases h) (by decide) (by decide)
    (by decide)
    (by decide) (by decide) (by decide) (by decide) (by decide), by decide⟩

/-- C4: counterexample — autofix does NOT converge in one run, and a second
run is not always clean: on the search store the first run's search-children
fix creates a duplicate branch pair that the second run again finds and fixes
(fixedIssues stays true); on the cyclic store both runs end with
hasUnrecoveredErrors = true because no fixer repairs a parent cycle. -/
theorem runAllChecks_not_idempotent :
    runAllChecksAndFixers (fun x => x) 10 true s4C4 = Except.ok c4Run1 ∧
    runAllChecksAndFixers (fun x => x) 10 true c4Run1.store = Except.ok c4Run2 ∧
    c4Run1.fixedIssues = true ∧ c4Run1.unrecovered = false ∧
    c4Run2.fixedIssues = true ∧
    runAllChecksAndFixers (fun x => x) 10 true s5C4 = Except.ok c4bRun1 ∧
    runAllChecksAndFixers (fun x => x) 10 true c4bRun1.store = Except.ok c4bRun2 ∧
    c4bRun1.unrecovered = true ∧ c4bRun2.unrecovered = true := by
  exact ⟨by decide, by decide, by decide, by decide, by decide, by decide, by decide,
    by decide, by decide⟩

theorem fixLoop_flags {ρ : Type} (fixer : Store → ρ → Store) :
    ∀ (l : List ρ) (cs : CheckState), cs.autoFix = true →
      ((l.foldl
        (fun c r =>
          if c.autoFix then { c with store := fixer c.store r, fixedIssues := true }
          else { c with unrecovered := true }) cs).autoFix = true ∧
       (l.foldl
        (fun c r =>
          if c.autoFix then { c with store := fixer c.store r, fixedIssues := true }
          else { c with unrecovered := true }) cs).unrecovered = cs.unrecovered) := by
  intro l
  induction l with
  | nil => exact fun cs h => ⟨h, rfl⟩
  | cons r rest ih =>
    intro cs h
    simp only [List.foldl_cons, h, reduceIte]
    exact ih _ rfl

/-- In autofix mode a scan-and-fix pass keeps autofix set and never raises the
unrecovered flag. -/
theorem findAndFixIssues_flags {ρ : Type} (query : Store → List ρ) (fixer : Store → ρ → Store)
    (cs : CheckState) (h : cs.autoFix = true) :
    (findAndFixIssues query fixer cs).autoFix = true ∧
    (findAndFixIssues query fixer cs).unrecovered = cs.unrecovered := by
  unfold findAndFixIssues
  exact fixLoop_flags fixer (query cs.store) cs h

theorem findBrokenReferenceIssues_flags (cs : CheckState) (h : cs.autoFix = true) :
    (findBrokenReferenceIssues cs).autoFix = true ∧
    (findBrokenReferenceIssues cs).unrecovered = cs.unrecovered := by
  unfold findBrokenReferenceIssues
  obtain ⟨a1, u1⟩ := findAndFixIssues_flags qBranchMissingNote fixBranchMissingNote cs h
  obtain ⟨a2, u2⟩ := findAndFixIssues_flags qBranchMissingParent fixBranchMissingParent _ a1
  obtain ⟨a3, u3⟩ := findAndFixIssues_flags qAttrMissingOwner fixDeleteAttribute _ a2
  obtain ⟨a4, u4⟩ := findAndFixIssues_flags qRelationMissingTarget fixDeleteAttribute _ a3
  exact ⟨a4, by rw [u4, u3, u2, u1]⟩

theorem findExistencyIssues_flags (cs : CheckState) (h : cs.autoFix = true) :
    (findExistencyIssues cs).autoFix = true ∧
    (findExistencyIssues cs).unrecovered = cs.unrecovered := by
  unfold findExistencyIssues
  obtain ⟨a1, u1⟩ := findAndFixIssues_flags qBranchOfDeletedNote fixDeleteBranch cs h
  obtain ⟨a2, u2⟩ := findAndFixIssues_flags qBranchParentDeleted fixDeleteBranch _ a1
  obtain ⟨a3, u3⟩ := findAndFixIssues_flags qNoteWithoutBranch fixNoteWithoutBranch _ a2
  obtain ⟨a4, u4⟩ := findAndFixIssues_flags qDuplicateBranches fixDuplicateBranches _ a3
  exact ⟨a4, by rw [u4, u3, u2, u1]⟩

theorem findLogicIssues_flags (cs : CheckState) (h : cs.autoFix = true) :
    (findLogicIssues cs).autoFix = true ∧
    (findLogicIssues cs).unrecovered = cs.unrecovered := by
  unfold findLogicIssues
  obtain ⟨a1, u1⟩ := findAndFixIssues_flags qInvalidNoteType fixInvalidNoteType cs h
  obtain ⟨a2, u2⟩ := findAndFixIssues_flags qMissingContentRow fixMissingContentRow _ a1
  obtain ⟨a3, u3⟩ := findAndFixIssues_flags qNullContent fixNullContent _ a2
  obtain ⟨a4, u4⟩ := findAndFixIssues_flags qMissingRevisionContent fixMissingRevisionContent _ a3
  obtain ⟨a5, u5⟩ := findAndFixIssues_flags qSearchChildren fixSearchChildren _ a4
  obtain ⟨a6, u6⟩ := findAndFixIssues_flags qEmptyRelation fixDeleteAttribute _ a5
  obtain ⟨a7, u7⟩ := findAndFixIssues_flags qInvalidAttributeType fixInvalidAttributeType _ a6
  obtain ⟨a8, u8⟩ := findAndFixIssues_flags qAttrOfDeletedNote fixDeleteAttribute _ a7
  obtain ⟨a9, u9⟩ := findAndFixIssues_flags qRelationToDeletedNote fixDeleteAttribute _ a8
  exact ⟨a9, by rw [u9, u8, u7, u6, u5, u4, u3, u2, u1]⟩

theorem runEntityChangeChecks_flags (name : String) (scanIds existsIds : Store → List String)
    (cs : CheckState) (h : cs.autoFix = true) :
    (runEntityChangeChecks name scanIds existsIds cs).autoFix = true ∧
    (runEntityChangeChecks name scanIds existsIds cs).unrecovered = cs.unrecovered := by
  unfold runEntityChangeChecks
  obtain ⟨a1, u1⟩ := findAndFixIssues_flags (qMissingEntityChange name scanIds)
    (fixMissingEntityChange name) cs h
  obtain ⟨a2, u2⟩ := findAndFixIssues_flags (qStrayEntityChange name existsIds)
    (fixStrayEntityChange name) _ a1
  exact ⟨a2, by rw [u2, u1]⟩

theorem findEntityChangeIssues_flags (cs : CheckState) (h : cs.autoFix = true) :
    (findEntityChangeIssues cs).autoFix = true ∧
    (findEntityChangeIssues cs).unrecovered = cs.unrecovered := by
  unfold findEntityChangeIssues
  obtain ⟨a1, u1⟩ := runEntityChangeChecks_flags "notes" idsNotes idsNotes cs h
  obtain ⟨a2, u2⟩ := runEntityChangeChecks_flags "note_contents" idsNoteContents idsNoteContents _ a1
  obtain ⟨a3, u3⟩ := runEntityChangeChecks_flags "note_revisions" idsNoteRevisions idsNoteRevisions _ a2
  obtain ⟨a4, u4⟩ := runEntityChangeChecks_flags "branches" idsBranches idsBranches _ a3
  obtain ⟨a5, u5⟩ := runEntityChangeChecks_flags "attributes" idsAttributes idsAttributes _ a4
  obtain ⟨a6, u6⟩ := runEntityChangeChecks_flags "api_tokens" idsApiTokens idsApiTokens _ a5
  obtain ⟨a7, u7⟩ := runEntityChangeChecks_flags "options" idsOptionsSynced idsOptionsAll _ a6
  exact ⟨a7, by rw [u7, u6, u5, u4, u3, u2, u1]⟩

theorem findWronglyNamedAttributes_flags (sanitize : String → String) (cs : CheckState)
    (h : cs.autoFix = true) :
    (findWronglyNamedAttributes sanitize cs).autoFix = true ∧
    (findWronglyNamedAttributes sanitize cs).unrecovered = cs.unrecovered := by
  unfold findWronglyNamedAttributes
  generalize ((cs.store.attributes.map (fun a => a.name)).dedup) = l
  induction l generalizing cs with
  | nil => exact ⟨h, rfl⟩
  | cons n rest ih =>
    simp only [List.foldl_cons]
    cases hfix : (sanitize n != n) with
    | false =>
      simp only [hfix, Bool.false_eq_true, if_false, reduceIte]
      exact ih cs h
    | true =>
      simp only [hfix, h, reduceIte]
      exact ih _ rfl

/-- A scan-and-fix pass with an empty scan result is the identity. -/
theorem findAndFixIssues_noop {ρ : Type} (query : Store → List ρ) (fixer : Store → ρ → Store)
    (cs : CheckState) (h : query cs.store = []) :
    findAndFixIssues query fixer cs = cs := by
  unfold findAndFixIssues
  rw [h]
  rfl

/-- The wrongly-named-attributes pass with a sanitizer that fixes none of the
present names is the identity. -/
theorem findWronglyNamedAttributes_noop (sanitize : String → String) (cs : CheckState)
    (h : ∀ n ∈ (cs.store.attributes.map (fun a => a.name)).dedup, sanitize n = n) :
    findWronglyNamedAttributes sanitize cs = cs := by
  unfold findWronglyNamedAttributes
  have haux : ∀ (l : List String), (∀ n ∈ l, sanitize n = n) → ∀ (c : CheckState),
      l.foldl
        (fun c origName =>
          let fixedName := sanitize origName
          if fixedName != origName then
            if c.autoFix then
              let ren := fun (a : Attribute) =>
                if a.name == origName then { a with name := fixedName } else a
              { c with store := { c.store with attributes := c.store.attributes.map ren },
                       fixedIssues := true }
            else { c with unrecovered := true }
          else c) c = c := by
    intro l
    induction l with
    | nil => intro _ c; rfl
    | cons n rest ih =>
      intro hl c
      simp only [List.foldl_cons]
      have hn : (sanitize n != n) = false := by
        rw [hl n (List.mem_cons_self n rest)]
        exact bne_self_eq_false n
      simp only [hn, Bool.false_eq_true, if_false, reduceIte]
      exact ih (fun q hq => hl q (List.mem_cons_of_mem n hq)) c
  exact haux _ h cs
theorem findBrokenReferenceIssues_noop (cs : CheckState)
    (h1 : qBranchMissingNote cs.store = []) (h2 : qBranchMissingParent cs.store = [])
    (h3 : qAttrMissingOwner cs.store = []) (h4 : qRelationMissingTarget cs.store = []) :
    findBrokenReferenceIssues cs = cs := by
  unfold findBrokenReferenceIssues
  rw [findAndFixIssues_noop _ _ _ h1, findAndFixIssues_noop _ _ _ h2,
    findAndFixIssues_noop _ _ _ h3, findAndFixIssues_noop _ _ _ h4]

theorem findExistencyIssues_noop (cs : CheckState)
    (h1 : qBranchOfDeletedNote cs.store = []) (h2 : qBranchParentDeleted cs.store = [])
    (h3 : qNoteWithoutBranch cs.store = []) (h4 : qDuplicateBranches cs.store = []) :
    findExistencyIssues cs = cs := by
  unfold findExistencyIssues
  rw [findAndFixIssues_noop _ _ _ h1, findAndFixIssues_noop _ _ _ h2,
    findAndFixIssues_noop _ _ _ h3, findAndFixIssues_noop _ _ _ h4]

theorem findLogicIssues_noop (cs : CheckState)
    (h1 : qInvalidNoteType cs.store = []) (h2 : qMissingContentRow cs.store = [])
    (h3 : qNullContent cs.store = []) (h4 : qMissingRevisionContent cs.store = [])
    (h5 : qSearchChildren cs.store = []) (h6 : qEmptyRelation cs.store = [])
    (h7 : qInvalidAttributeType cs.store = []) (h8 : qAttrOfDeletedNote cs.store = [])
    (h9 : qRelationToDeletedNote cs.store = []) :
    findLogicIssues cs = cs := by
  unfold findLogicIssues
  rw [findAndFixIssues_noop _ _ _ h1, findAndFixIssues_noop _ _ _ h2,
    findAndFixIssues_noop _ _ _ h3, findAndFixIssues_noop _ _ _ h4,
    findAndFixIssues_noop _ _ _ h5, findAndFixIssues_noop _ _ _ h6,
    findAndFixIssues_noop _ _ _ h7, findAndFixIssues_noop _ _ _ h8,
    findAndFixIssues_noop _ _ _ h9]

theorem runEntityChangeChecks_noop (name : String) (scanIds existsIds : Store → List String)
    (cs : CheckState) (h1 : qMissingEntityChange name scanIds cs.store = [])
    (h2 : qStrayEntityChange name existsIds cs.store = []) :
    runEntityChangeChecks name scanIds existsIds cs = cs := by
  unfold runEntityChangeChecks
  rw [findAndFixIssues_noop _ _ _ h1, findAndFixIssues_noop _ _ _ h2]

theorem findEntityChangeIssues_noop (cs : CheckState)
    (h1 : qMissingEntityChange "notes" idsNotes cs.store = [])
    (h2 : qStrayEntityChange "notes" idsNotes cs.store = [])
    (h3 : qMissingEntityChange "note_contents" idsNoteContents cs.store = [])
    (h4 : qStrayEntityChange "note_contents" idsNoteContents cs.store = [])
    (h5 : qMissingEntityChange "note_revisions" idsNoteRevisions cs.store = [])
    (h6 : qStrayEntityChange "note_revisions" idsNoteRevisions cs.store = [])
    (h7 : qMissingEntityChange "branches" idsBranches cs.store = [])
    (h8 : qStrayEntityChange "branches" idsBranches cs.store = [])
    (h9 : qMissingEntityChange "attributes" idsAttributes cs.store = [])
    (h10 : qStrayEntityChange "attributes" idsAttributes cs.store = [])
    (h11 : qMissingEntityChange "api_tokens" idsApiTokens cs.store = [])
    (h12 : qStrayEntityChange "api_tokens" idsApiTokens cs.store = [])
    (h13 : qMissingEntityChange "options" idsOptionsSynced cs.store = [])
    (h14 : qStrayEntityChange "options" idsOptionsAll cs.store = []) :
    findEntityChangeIssues cs = cs := by
  unfold findEntityChangeIssues
  rw [runEntityChangeChecks_noop _ _ _ _ h1 h2, runEntityChangeChecks_noop _ _ _ _ h3 h4,
    runEntityChangeChecks_noop _ _ _ _ h5 h6, runEntityChangeChecks_noop _ _ _ _ h7 h8,
    runEntityChangeChecks_noop _ _ _ _ h9 h10, runEntityChangeChecks_noop _ _ _ _ h11 h12,
    runEntityChangeChecks_noop _ _ _ _ h13 h14]


/-- The scan-and-fix phases keep autofix set and never raise the unrecovered
flag when autofix is on. -/
theorem checkerPhases_flags (sanitize : String → String) (cs : CheckState)
    (h : cs.autoFix = true) :
    (checkerPhases sanitize cs).autoFix = true ∧
    (checkerPhases sanitize cs).unrecovered = cs.unrecovered := by
  unfold checkerPhases
  obtain ⟨aB, uB⟩ := findBrokenReferenceIssues_flags cs h
  obtain ⟨aE, uE⟩ := findExistencyIssues_flags _ aB
  obtain ⟨aL, uL⟩ := findLogicIssues_flags _ aE
  obtain ⟨aC, uC⟩ := findEntityChangeIssues_flags _ aL
  obtain ⟨aWf, uWf⟩ := findWronglyNamedAttributes_flags sanitize _ aC
  exact ⟨aWf, by rw [uWf, uC, uL, uE, uB]⟩

/-- C4 (amended).  With autoFix enabled the scan-and-fix phase itself never
raises the unrecovered flag: a successful run's hasUnrecoveredErrors equals
exactly the tree-cycle check's verdict on the final store.  And when the
starting store satisfies every scan (and the sanitizer fixes none of the
present attribute names), the run reports fixedIssues = false and leaves the
store untouched except for forcing the root branch expanded.  (A second run
after a fixing first run is NOT always clean — see the counterexample.) -/
theorem runAllChecksAndFixers_autofix (sanitize : String → String) (fuel : Nat) (s : Store)
    (cs' : CheckState)
    (hrun : runAllChecksAndFixers sanitize fuel true s = Except.ok cs') :
    (∃ flag, checkTreeCycles fuel cs'.store = Except.ok flag ∧ cs'.unrecovered = flag) ∧
    (qBranchMissingNote s = [] → qBranchMissingParent s = [] → qAttrMissingOwner s = [] →
     qRelationMissingTarget s = [] → qBranchOfDeletedNote s = [] →
     qBranchParentDeleted s = [] → qNoteWithoutBranch s = [] → qDuplicateBranches s = [] →
     qInvalidNoteType s = [] → qMissingContentRow s = [] → qNullContent s = [] →
     qMissingRevisionContent s = [] → qSearchChildren s = [] → qEmptyRelation s = [] →
     qInvalidAttributeType s = [] → qAttrOfDeletedNote s = [] →
     qRelationToDeletedNote s = [] →
     qMissingEntityChange "notes" idsNotes s = [] →
     qStrayEntityChange "notes" idsNotes s = [] →
     qMissingEntityChange "note_contents" idsNoteContents s = [] →
     qStrayEntityChange "note_contents" idsNoteContents s = [] →
     qMissingEntityChange "note_revisions" idsNoteRevisions s = [] →
     qStrayEntityChange "note_revisions" idsNoteRevisions s = [] →
     qMissingEntityChange "branches" idsBranches s = [] →
     qStrayEntityChange "branches" idsBranches s = [] →
     qMissingEntityChange "attributes" idsAttributes s = [] →
     qStrayEntityChange "attributes" idsAttributes s = [] →
     qMissingEntityChange "api_tokens" idsApiTokens s = [] →
     qStrayEntityChange "api_tokens" idsApiTokens s = [] →
     qMissingEntityChange "options" idsOptionsSynced s = [] →
     qStrayEntityChange "options" idsOptionsAll s = [] →
     (∀ n ∈ (s.attributes.map (fun a => a.name)).dedup, sanitize n = n) →
     cs'.fixedIssues = false ∧ cs'.store = expandRoot s) := by
  unfold runAllChecksAndFixers at hrun
  generalize hW : checkerPhases sanitize
    { store := s, autoFix := true, unrecovered := false, fixedIssues := false } = csW at hrun
  have hcsWu : csW.unrecovered = false := by
    rw [← hW]
    exact (checkerPhases_flags sanitize _ rfl).2
  have hrun2 : (if !csW.unrecovered then
      match checkTreeCycles fuel (expandRoot csW.store) with
      | Except.error e => Except.error e
      | Except.ok flag => Except.ok { store := expandRoot csW.store, autoFix := csW.autoFix, unrecovered := csW.unrecovered || flag, fixedIssues := csW.fixedIssues }
    else Except.ok { store := expandRoot csW.store, autoFix := csW.autoFix, unrecovered := csW.unrecovered, fixedIssues := csW.fixedIssues }) = Except.ok cs' := hrun
  rw [hcsWu] at hrun2
  simp only [Bool.not_false, reduceIte] at hrun2
  cases hcyc : checkTreeCycles fuel (expandRoot csW.store) with
  | error e =>
    rw [hcyc] at hrun2
    exact absurd hrun2 (by simp)
  | ok flag =>
    rw [hcyc] at hrun2
    simp only [Except.ok.injEq] at hrun2
    subst hrun2
    refine ⟨⟨flag, ?_, ?_⟩, ?_⟩
    · exact hcyc
    · exact Bool.false_or flag
    · intro h1 h2 h3 h4 h5 h6 h7 h8 h9 h10 h11 h12 h13 h14 h15 h16 h17 h18 h19 h20 h21 h22
        h23 h24 h25 h26 h27 h28 h29 h30 h31 hsan
      have hclean : csW = { store := s, autoFix := true, unrecovered := false, fixedIssues := false } := by
        rw [← hW]
        unfold checkerPhases
        rw [findBrokenReferenceIssues_noop _ h1 h2 h3 h4]
        rw [findExistencyIssues_noop _ h5 h6 h7 h8]
        rw [findLogicIssues_noop _ h9 h10 h11 h12 h13 h14 h15 h16 h17]
        rw [findEntityChangeIssues_noop _ h18 h19 h20 h21 h22 h23 h24 h25 h26 h27 h28 h29
          h30 h31]
        exact findWronglyNamedAttributes_noop sanitize _ hsan
      constructor
      · rw [hclean]
      · rw [hclean]

/-- Witness for C4: the autofix run on the clean store reports no fixed
issues, leaves the store byte-identical (its root branch was already
expanded), and its hasUnrecoveredErrors equals the (passing) cycle check. -/
theorem runAllChecksAndFixers_autofix_witness :
    ((∃ flag, checkTreeCycles 10 c4CleanRes.store = Except.ok flag ∧
        c4CleanRes.unrecovered = flag) ∧
      (c4CleanRes.fixedIssues = false ∧ c4CleanRes.store = expandRoot sCleanC4)) ∧
    c4CleanRes.unrecovered = false ∧ c4CleanRes.store = sCleanC4 := by
  have h := runAllChecksAndFixers_autofix (fun x => x) 10 sCleanC4 c4CleanRes (by decide)
  refine ⟨⟨h.1, h.2 (by decide) (by decide) (by decide) (by decide) (by decide) (by decide)
    (by decide) (by decide) (by decide) (by decide) (by decide) (by decide) (by decide)
    (by decide) (by decide) (by decide) (by decide) (by decide) (by decide) (by decide)
    (by decide) (by decide) (by decide) (by decide) (by decide) (by decide) (by decide)
    (by decide) (by decide) (by decide) (by decide) (fun n hn => rfl)⟩, by decide, by decide⟩

theorem forall₂_mem_left {α : Type} {R : α → α → Prop} {l l' : List α}
    (h : List.Forall₂ R l l') {c : α} (hc : c ∈ l) : ∃ c' ∈ l', R c c' := by
  induction h with
  | nil => cases hc
  | cons hr hrest ih =>
    rcases List.mem_cons.mp hc with rfl | hc
    · exact ⟨_, List.mem_cons_self _ _, hr⟩
    · obtain ⟨c', hc', hrc⟩ := ih hc
      exact ⟨c', List.mem_cons_of_mem _ hc', hrc⟩

theorem forall₂_mem_right {α : Type} {R : α → α → Prop} {l l' : List α}
    (h : List.Forall₂ R l l') {c' : α} (hc : c' ∈ l') : ∃ c ∈ l, R c c' := by
  induction h with
  | nil => cases hc
  | cons hr hrest ih =>
    rcases List.mem_cons.mp hc with rfl | hc
    · exact ⟨_, List.mem_cons_self _ _, hr⟩
    · obtain ⟨c, hcm, hrc⟩ := ih hc
      exact ⟨c, List.mem_cons_of_mem _ hcm, hrc⟩

theorem forall₂_compose {α : Type} {R : α → α → Prop}
    (htrans : ∀ x y z, R x y → R y z → R x z) {a b c : List α}
    (h1 : List.Forall₂ R a b) (h2 : List.Forall₂ R b c) : List.Forall₂ R a c := by
  induction h1 generalizing c with
  | nil => cases h2; exact List.Forall₂.nil
  | cons hr h ih =>
    cases h2 with
    | cons hr2 h2' => exact List.Forall₂.cons (htrans _ _ _ hr hr2) (ih h2')

theorem forall₂_map_eq {α β : Type} (f : α → β) {R : α → α → Prop}
    (hf : ∀ x y, R x y → f y = f x) {l l' : List α} (h : List.Forall₂ R l l') :
    l'.map f = l.map f := by
  induction h with
  | nil => rfl
  | cons hr hrest ih =>
    rw [List.map_cons, List.map_cons, ih, hf _ _ hr]

theorem delEvB_trans (d : String) : ∀ x y z, delEvB d x y → delEvB d y z → delEvB d x z := by
  intro x y z hxy hyz
  rcases hxy with rfl | ⟨hp, rfl⟩
  · exact hyz
  · rcases hyz with rfl | ⟨hp2, -⟩
    · exact Or.inr ⟨hp, rfl⟩
    · simp [markBranchDeleted] at hp2

theorem delEvN_trans (d : String) : ∀ x y z, delEvN d x y → delEvN d y z → delEvN d x z := by
  intro x y z hxy hyz
  rcases hxy with rfl | ⟨hp, rfl⟩
  · exact hyz
  · rcases hyz with rfl | ⟨hp2, -⟩
    · exact Or.inr ⟨hp, rfl⟩
    · simp [markNoteDeleted] at hp2

theorem delEvA_trans (d : String) : ∀ x y z, delEvA d x y → delEvA d y z → delEvA d x z := by
  intro x y z hxy hyz
  rcases hxy with rfl | ⟨hp, rfl⟩
  · exact hyz
  · rcases hyz with rfl | ⟨hp2, -⟩
    · exact Or.inr ⟨hp, rfl⟩
    · simp [markAttributeDeleted] at hp2

theorem undelEvB_trans (d : String) :
    ∀ x y z, undelEvB d x y → undelEvB d y z → undelEvB d x z := by
  intro x y z hxy hyz
  rcases hxy with rfl | ⟨hp, hpd, rfl⟩
  · exact hyz
  · rcases hyz with rfl | ⟨hp2, -, -⟩
    · exact Or.inr ⟨hp, hpd, rfl⟩
    · simp at hp2

theorem undelEvN_trans (d : String) :
    ∀ x y z, undelEvN d x y → undelEvN d y z → undelEvN d x z := by
  intro x y z hxy hyz
  rcases hxy with rfl | ⟨hp, hpd, rfl⟩
  · exact hyz
  · rcases hyz with rfl | ⟨hp2, -, -⟩
    · exact Or.inr ⟨hp, hpd, rfl⟩
    · simp at hp2

theorem undelEvA_trans (d : String) :
    ∀ x y z, undelEvA d x y → undelEvA d y z → undelEvA d x z := by
  intro x y z hxy hyz
  rcases hxy with rfl | ⟨hp, hpd, rfl⟩
  · exact hyz
  · rcases hyz with rfl | ⟨hp2, -, -⟩
    · exact Or.inr ⟨hp, hpd, rfl⟩
    · simp at hp2

theorem saveBranch_changeLog (s : Store) (b : Branch) :
    (saveBranch s b).changeLog = s.changeLog ++ [b.branchId] := by
  unfold saveBranch
  cases h : s.branches.any (fun c => c.branchId == b.branchId) with
  | true => simp only [reduceIte]
  | false => simp only [Bool.false_eq_true, if_false, reduceIte]

theorem saveNote_changeLog (s : Store) (n : Note) :
    (saveNote s n).changeLog = s.changeLog ++ [n.noteId] := by
  unfold saveNote
  cases h : s.notes.any (fun m => m.noteId == n.noteId) with
  | true => simp only [reduceIte]
  | false => simp only [Bool.false_eq_true, if_false, reduceIte]

theorem saveAttribute_changeLog (s : Store) (a : Attribute) :
    (saveAttribute s a).changeLog = s.changeLog ++ [a.attributeId] := by
  unfold saveAttribute
  cases h : s.attributes.any (fun b => b.attributeId == a.attributeId) with
  | true => simp only [reduceIte]
  | false => simp only [Bool.false_eq_true, if_false, reduceIte]

theorem saveAttribute_branches (s : Store) (a : Attribute) :
    (saveAttribute s a).branches = s.branches := by
  unfold saveAttribute
  cases h : s.attributes.any (fun b => b.attributeId == a.attributeId) with
  | true => simp only [reduceIte]
  | false => simp only [Bool.false_eq_true, if_false, reduceIte]

theorem saveBranch_evolves (R : Branch → Branch → Prop) (hrefl : ∀ c, R c c)
    {s : Store} {b b' : Branch} (hb : b ∈ s.branches) (hid : b'.branchId = b.branchId)
    (hnodup : (s.branches.map (fun c => c.branchId)).Nodup) (hR : R b b') :
    List.Forall₂ R s.branches (saveBranch s b').branches := by
  unfold saveBranch
  have hany : (s.branches.any (fun c => c.branchId == b'.branchId)) = true :=
    List.any_eq_true.mpr ⟨b, hb, by rw [hid]; exact beq_self_eq_true _⟩
  rw [hany]
  simp only [reduceIte]
  have haux : ∀ (l : List Branch), (∀ c ∈ l, c.branchId = b.branchId → c = b) →
      List.Forall₂ R l (l.map (fun c => if c.branchId == b'.branchId then b' else c)) := by
    intro l
    induction l with
    | nil => intro _; exact List.Forall₂.nil
    | cons c rest ih =>
      intro hu
      rw [List.map_cons]
      refine List.Forall₂.cons ?_ (ih (fun q hq => hu q (List.mem_cons_of_mem c hq)))
      cases hc : (c.branchId == b'.branchId) with
      | false =>
        simp only [hc, Bool.false_eq_true, if_false, reduceIte]
        exact hrefl c
      | true =>
        simp only [hc, reduceIte]
        have hcb : c = b := hu c (List.mem_cons_self c rest)
          (by rw [← hid]; exact eq_of_beq hc)
        rw [hcb]
        exact hR
  exact haux s.branches
    (fun c hcmem hceq => List.inj_on_of_nodup_map hnodup hcmem hb hceq)

theorem saveNote_evolves (R : Note → Note → Prop) (hrefl : ∀ c, R c c)
    {s : Store} {n n' : Note} (hn : n ∈ s.notes) (hid : n'.noteId = n.noteId)
    (hnodup : (s.notes.map (fun c => c.noteId)).Nodup) (hR : R n n') :
    List.Forall₂ R s.notes (saveNote s n').notes := by
  unfold saveNote
  have hany : (s.notes.any (fun m => m.noteId == n'.noteId)) = true :=
    List.any_eq_true.mpr ⟨n, hn, by rw [hid]; exact beq_self_eq_true _⟩
  rw [hany]
  simp only [reduceIte]
  have haux : ∀ (l : List Note), (∀ c ∈ l, c.noteId = n.noteId → c = n) →
      List.Forall₂ R l (l.map (fun m => if m.noteId == n'.noteId then n' else m)) := by
    intro l
    induction l with
    | nil => intro _; exact List.Forall₂.nil
    | cons c rest ih =>
      intro hu
      rw [List.map_cons]
      refine List.Forall₂.cons ?_ (ih (fun q hq => hu q (List.mem_cons_of_mem c hq)))
      cases hc : (c.noteId == n'.noteId) with
      | false =>
        simp only [hc, Bool.false_eq_true, if_false, reduceIte]
        exact hrefl c
      | true =>
        simp only [hc, reduceIte]
        have hcb : c = n := hu c (List.mem_cons_self c rest)
          (by rw [← hid]; exact eq_of_beq hc)
        rw [hcb]
        exact hR
  exact haux s.notes
    (fun c hcmem hceq => List.inj_on_of_nodup_map hnodup hcmem hn hceq)

theorem saveAttribute_evolves (R : Attribute → Attribute → Prop) (hrefl : ∀ c, R c c)
    {s : Store} {a a' : Attribute} (ha : a ∈ s.attributes) (hid : a'.attributeId = a.attributeId)
    (hnodup : (s.attributes.map (fun c => c.attributeId)).Nodup) (hR : R a a') :
    List.Forall₂ R s.attributes (saveAttribute s a').attributes := by
  unfold saveAttribute
  have hany : (s.attributes.any (fun b => b.attributeId == a'.attributeId)) = true :=
    List.any_eq_true.mpr ⟨a, ha, by rw [hid]; exact beq_self_eq_true _⟩
  rw [hany]
  simp only [reduceIte]
  have haux : ∀ (l : List Attribute), (∀ c ∈ l, c.attributeId = a.attributeId → c = a) →
      List.Forall₂ R l (l.map (fun b => if b.attributeId == a'.attributeId then a' else b)) := by
    intro l
    induction l with
    | nil => intro _; exact List.Forall₂.nil
    | cons c rest ih =>
      intro hu
      rw [List.map_cons]
      refine List.Forall₂.cons ?_ (ih (fun q hq => hu q (List.mem_cons_of_mem c hq)))
      cases hc : (c.attributeId == a'.attributeId) with
      | false =>
        simp only [hc, Bool.false_eq_true, if_false, reduceIte]
        exact hrefl c
      | true =>
        simp only [hc, reduceIte]
        have hcb : c = a := hu c (List.mem_cons_self c rest)
          (by rw [← hid]; exact eq_of_beq hc)
        rw [hcb]
        exact hR
  exact haux s.attributes
    (fun c hcmem hceq => List.inj_on_of_nodup_map hnodup hcmem ha hceq)

theorem getBranch_mem {s : Store} {bid : String} {b : Branch}
    (h : getBranch s bid = some b) : b ∈ s.branches ∧ b.branchId = bid := by
  unfold getBranch at h
  refine ⟨List.mem_of_find?_eq_some h, ?_⟩
  have := List.find?_some h
  simpa using this

theorem getNote_mem {s : Store} {nid : String} {n : Note}
    (h : getNote s nid = some n) : n ∈ s.notes ∧ n.noteId = nid := by
  unfold getNote at h
  refine ⟨List.mem_of_find?_eq_some h, ?_⟩
  have := List.find?_some h
  simpa using this

theorem delEvB_id (d : String) : ∀ x y, delEvB d x y → y.branchId = x.branchId := by
  intro x y h
  rcases h with rfl | ⟨-, rfl⟩ <;> rfl

theorem delEvN_id (d : String) : ∀ x y, delEvN d x y → y.noteId = x.noteId := by
  intro x y h
  rcases h with rfl | ⟨-, rfl⟩ <;> rfl

theorem delEvA_id (d : String) : ∀ x y, delEvA d x y → y.attributeId = x.attributeId := by
  intro x y h
  rcases h with rfl | ⟨-, rfl⟩ <;> rfl

theorem delEvB_deleted {d : String} {x y : Branch} (h : delEvB d x y)
    (hx : x.isDeleted = true) : y = x := by
  rcases h with rfl | ⟨hp, -⟩
  · rfl
  · rw [hx] at hp; cases hp

theorem delEvN_deleted {d : String} {x y : Note} (h : delEvN d x y)
    (hx : x.isDeleted = true) : y = x := by
  rcases h with rfl | ⟨hp, -⟩
  · rfl
  · rw [hx] at hp; cases hp

theorem delEvA_deleted {d : String} {x y : Attribute} (h : delEvA d x y)
    (hx : x.isDeleted = true) : y = x := by
  rcases h with rfl | ⟨hp, -⟩
  · rfl
  · rw [hx] at hp; cases hp

theorem idsNodup_evolve {d : String} {s t : Store}
    (hb : List.Forall₂ (delEvB d) s.branches t.branches)
    (hn : List.Forall₂ (delEvN d) s.notes t.notes)
    (ha : List.Forall₂ (delEvA d) s.attributes t.attributes)
    (h : idsNodup s) : idsNodup t := by
  obtain ⟨h1, h2, h3⟩ := h
  refine ⟨?_, ?_, ?_⟩
  · rw [forall₂_map_eq (fun c => c.branchId) (delEvB_id d) hb]; exact h1
  · rw [forall₂_map_eq (fun c => c.noteId) (delEvN_id d) hn]; exact h2
  · rw [forall₂_map_eq (fun c => c.attributeId) (delEvA_id d) ha]; exact h3

theorem saveAttribute_mem_other {s : Store} {a a' : Attribute} (ha : a ∈ s.attributes)
    (hne : (a.attributeId == a'.attributeId) = false) :
    a ∈ (saveAttribute s a').attributes := by
  unfold saveAttribute
  cases h : s.attributes.any (fun b => b.attributeId == a'.attributeId) with
  | true =>
    simp only [reduceIte]
    have hmm := List.mem_map_of_mem
      (fun b => if b.attributeId == a'.attributeId then a' else b) ha
    simp only [hne, Bool.false_eq_true, if_false, reduceIte] at hmm
    exact hmm
  | false =>
    simp only [Bool.false_eq_true, if_false, reduceIte]
    exact List.mem_append_left _ ha

theorem saveAttribute_mem_upsert {s : Store} {a a' : Attribute} (ha : a ∈ s.attributes)
    (hid : a'.attributeId = a.attributeId) :
    a' ∈ (saveAttribute s a').attributes := by
  unfold saveAttribute
  have hany : (s.attributes.any (fun b => b.attributeId == a'.attributeId)) = true :=
    List.any_eq_true.mpr ⟨a, ha, by rw [hid]; exact beq_self_eq_true _⟩
  rw [hany]
  simp only [reduceIte]
  have hbeq : (a.attributeId == a'.attributeId) = true := by
    rw [hid]
    exact beq_self_eq_true _
  have hmm := List.mem_map_of_mem
    (fun b => if b.attributeId == a'.attributeId then a' else b) ha
  simp only [hbeq, reduceIte] at hmm
  exact hmm

theorem markAttrsFold_evolves (d : String) :
    ∀ (l : List Attribute) (s : Store),
      (s.attributes.map (fun c => c.attributeId)).Nodup →
      (l.map (fun c => c.attributeId)).Nodup →
      (∀ a ∈ l, a ∈ s.attributes ∧ a.isDeleted = false) →
      List.Forall₂ (delEvA d) s.attributes
        ((l.foldl (fun st a => saveAttribute st (markAttributeDeleted d a)) s).attributes) ∧
      (l.foldl (fun st a => saveAttribute st (markAttributeDeleted d a)) s).branches =
        s.branches ∧
      (l.foldl (fun st a => saveAttribute st (markAttributeDeleted d a)) s).notes = s.notes ∧
      (l.foldl (fun st a => saveAttribute st (markAttributeDeleted d a)) s).changeLog =
        s.changeLog ++ l.map (fun a => a.attributeId) ∧
      (∀ a ∈ l, markAttributeDeleted d a ∈
        (l.foldl (fun st a => saveAttribute st (markAttributeDeleted d a)) s).attributes) := by
  intro l
  induction l with
  | nil =>
    intro s _ _ _
    refine ⟨List.forall₂_same.mpr (fun x _ => Or.inl rfl), rfl, rfl, by simp, ?_⟩
    intro a ha
    cases ha
  | cons a0 rest ih =>
    intro s hnodupS hnodupL hmem
    rw [List.map_cons] at hnodupL
    obtain ⟨hnotin, hnodupRest⟩ := List.nodup_cons.mp hnodupL
    simp only [List.foldl_cons]
    have ha0 := hmem a0 (List.mem_cons_self a0 rest)
    have hstep : List.Forall₂ (delEvA d) s.attributes
        (saveAttribute s (markAttributeDeleted d a0)).attributes :=
      saveAttribute_evolves (delEvA d) (fun c => Or.inl rfl) ha0.1 rfl hnodupS
        (Or.inr ⟨ha0.2, rfl⟩)
    have hids' : ((saveAttribute s (markAttributeDeleted d a0)).attributes.map
        (fun c => c.attributeId)).Nodup := by
      rw [forall₂_map_eq (fun c => c.attributeId) (delEvA_id d) hstep]
      exact hnodupS
    have hmemRest : ∀ a ∈ rest, a ∈ (saveAttribute s (markAttributeDeleted d a0)).attributes ∧
        a.isDeleted = false := by
      intro a ha
      have hm := hmem a (List.mem_cons_of_mem a0 ha)
      have hne : (a.attributeId == (markAttributeDeleted d a0).attributeId) = false := by
        have hda : a.attributeId ≠ a0.attributeId := by
          intro hEq
          exact hnotin (hEq ▸ List.mem_map_of_mem (fun c => c.attributeId) ha)
        simpa using hda
      exact ⟨saveAttribute_mem_other hm.1 hne, hm.2⟩
    obtain ⟨ihF, ihB, ihN, ihC, ihM⟩ := ih (saveAttribute s (markAttributeDeleted d a0))
      hids' hnodupRest hmemRest
    refine ⟨forall₂_compose (delEvA_trans d) hstep ihF, ?_, ?_, ?_, ?_⟩
    · rw [ihB, saveAttribute_branches]
    · rw [ihN, saveAttribute_notes]
    · rw [ihC, saveAttribute_changeLog]
      simp [markAttributeDeleted, List.append_assoc]
    · intro a ha
      rcases List.mem_cons.mp ha with rfl | ha
      · have hm0 : markAttributeDeleted d a ∈
            (saveAttribute s (markAttributeDeleted d a)).attributes :=
          saveAttribute_mem_upsert ha0.1 rfl
        obtain ⟨y, hy, hRy⟩ := forall₂_mem_left ihF hm0
        have hym : y = markAttributeDeleted d a := delEvA_deleted hRy (by rfl)
        exact hym ▸ hy
      · exact ihM a ha

theorem saveBranch_mem_other {s : Store} {b b' : Branch} (hb : b ∈ s.branches)
    (hne : (b.branchId == b'.branchId) = false) :
    b ∈ (saveBranch s b').branches := by
  unfold saveBranch
  cases h : s.branches.any (fun c => c.branchId == b'.branchId) with
  | true =>
    simp only [reduceIte]
    have hmm := List.mem_map_of_mem
      (fun c => if c.branchId == b'.branchId then b' else c) hb
    simp only [hne, Bool.false_eq_true, if_false, reduceIte] at hmm
    exact hmm
  | false =>
    simp only [Bool.false_eq_true, if_false, reduceIte]
    exact List.mem_append_left _ hb

theorem saveNote_notes_form {s : Store} {n' : Note} (y : Note) (hy : y ∈ s.notes)
    (hid : y.noteId = n'.noteId) :
    (saveNote s n').notes = s.notes.map (fun m => if m.noteId == n'.noteId then n' else m) := by
  unfold saveNote
  have hany : (s.notes.any (fun m => m.noteId == n'.noteId)) = true :=
    List.any_eq_true.mpr ⟨y, hy, by rw [hid]; exact beq_self_eq_true _⟩
  rw [hany]
  simp only [reduceIte]

theorem logProp_refl {s : Store} (hids : (s.branches.map (fun c => c.branchId)).Nodup) :
    ∀ c ∈ s.branches, c.isDeleted = false →
      (∃ c' ∈ s.branches, c'.branchId = c.branchId ∧ c'.isDeleted = true) →
      c.branchId ∈ ([] : List String) := by
  rintro c hc hlive ⟨c', hc', hcid, hcdel⟩
  have hcc : c' = c := List.inj_on_of_nodup_map hids hc' hc hcid
  rw [hcc, hlive] at hcdel
  cases hcdel

theorem logProp_compose {d : String} {s m t : Store} {Δ1 Δ2 : List String}
    (hE1 : List.Forall₂ (delEvB d) s.branches m.branches)
    (hl1 : ∀ c ∈ s.branches, c.isDeleted = false →
      (∃ c' ∈ m.branches, c'.branchId = c.branchId ∧ c'.isDeleted = true) → c.branchId ∈ Δ1)
    (hl2 : ∀ c ∈ m.branches, c.isDeleted = false →
      (∃ c' ∈ t.branches, c'.branchId = c.branchId ∧ c'.isDeleted = true) → c.branchId ∈ Δ2) :
    ∀ c ∈ s.branches, c.isDeleted = false →
      (∃ c' ∈ t.branches, c'.branchId = c.branchId ∧ c'.isDeleted = true) →
      c.branchId ∈ Δ1 ++ Δ2 := by
  rintro c hc hlive hwit
  obtain ⟨y, hy, hRy⟩ := forall₂_mem_left hE1 hc
  rcases hRy with h | ⟨-, h⟩
  · rw [h] at hy
    exact List.mem_append_right _ (hl2 c hy hlive hwit)
  · rw [h] at hy
    exact List.mem_append_left _ (hl1 c hc hlive ⟨markBranchDeleted d c, hy, rfl, rfl⟩)

theorem logProp_saveBranch {d : String} {s : Store} {branch : Branch}
    (hids : (s.branches.map (fun c => c.branchId)).Nodup) (hmem : branch ∈ s.branches)
    (hlv : branch.isDeleted = false) :
    ∀ c ∈ s.branches, c.isDeleted = false →
      (∃ c' ∈ (saveBranch s (markBranchDeleted d branch)).branches,
        c'.branchId = c.branchId ∧ c'.isDeleted = true) →
      c.branchId ∈ [branch.branchId] := by
  rintro c hc hlive ⟨c', hc', hcid, hcdel⟩
  by_cases hcb : c.branchId = branch.branchId
  · rw [hcb]
    exact List.mem_singleton.mpr rfl
  · exfalso
    have hcmem : c ∈ (saveBranch s (markBranchDeleted d branch)).branches :=
      saveBranch_mem_other hc (by simpa [markBranchDeleted] using hcb)
    have hids' : ((saveBranch s (markBranchDeleted d branch)).branches.map
        (fun x => x.branchId)).Nodup := by
      rw [forall₂_map_eq (fun x => x.branchId) (delEvB_id d)
        (saveBranch_evolves (delEvB d) (fun x => Or.inl rfl) hmem
          (rfl : (markBranchDeleted d branch).branchId = branch.branchId) hids
          (Or.inr ⟨hlv, rfl⟩))]
      exact hids
    have hcc : c' = c := List.inj_on_of_nodup_map hids' hc' hcmem hcid
    rw [hcc, hlive] at hcdel
    cases hcdel

theorem liveBranch_filter_empty {d : String} {s t : Store} {nid : String}
    (hE : List.Forall₂ (delEvB d) s.branches t.branches)
    (h : getBranchesOfNote s nid = []) : getBranchesOfNote t nid = [] := by
  unfold getBranchesOfNote at h ⊢
  rw [List.filter_eq_nil_iff] at h ⊢
  intro b' hb' hcond
  obtain ⟨b, hb, hRb⟩ := forall₂_mem_right hE hb'
  rcases hRb with rfl | ⟨-, rfl⟩
  · exact h b' hb hcond
  · simp [markBranchDeleted] at hcond

theorem LBNL_of_branchesEv {d : String} {s t : Store}
    (hE : List.Forall₂ (delEvB d) s.branches t.branches)
    (hn : t.notes = s.notes) (h : liveBranchNoteLive s) : liveBranchNoteLive t := by
  intro b' hb' hlive n hnm hid
  obtain ⟨b, hb, hRb⟩ := forall₂_mem_right hE hb'
  rcases hRb with rfl | ⟨-, rfl⟩
  · exact h b' hb hlive n (hn ▸ hnm) hid
  · simp [markBranchDeleted] at hlive

theorem LBNL_transport {s t : Store} (h1 : t.branches = s.branches) (h2 : t.notes = s.notes)
    (h : liveBranchNoteLive s) : liveBranchNoteLive t := by
  intro b hb hl n hn hid
  exact h b (h1 ▸ hb) hl n (h2 ▸ hn) hid

theorem logProp_nochange {s t : Store} {Δ : List String}
    (heq : t.branches = s.branches) (hids : (s.branches.map (fun c => c.branchId)).Nodup) :
    ∀ c ∈ s.branches, c.isDeleted = false →
      (∃ c' ∈ t.branches, c'.branchId = c.branchId ∧ c'.isDeleted = true) → c.branchId ∈ Δ := by
  rintro c hc hlive ⟨c', hc', hcid, hcdel⟩
  rw [heq] at hc'
  have hcc := List.inj_on_of_nodup_map hids hc' hc hcid
  rw [hcc, hlive] at hcdel
  cases hcdel

theorem delete_evolves_refl (d : String) (s : Store) (hids : idsNodup s)
    (hl : liveBranchNoteLive s) :
    List.Forall₂ (delEvB d) s.branches s.branches ∧
    List.Forall₂ (delEvN d) s.notes s.notes ∧
    List.Forall₂ (delEvA d) s.attributes s.attributes ∧
    liveBranchNoteLive s ∧
    (∃ Δ, s.changeLog = s.changeLog ++ Δ ∧
      ∀ c ∈ s.branches, c.isDeleted = false →
        (∃ c' ∈ s.branches, c'.branchId = c.branchId ∧ c'.isDeleted = true) →
        c.branchId ∈ Δ) :=
  ⟨List.forall₂_same.mpr (fun x _ => Or.inl rfl),
   List.forall₂_same.mpr (fun x _ => Or.inl rfl),
   List.forall₂_same.mpr (fun x _ => Or.inl rfl),
   hl,
   ⟨[], by simp, logProp_refl hids.1⟩⟩

/-- The delete cascade only soft-deletes: every row of the three entity
tables is either untouched or flipped from live to deleted carrying exactly
the cascade's deleteId; the journal grows by a suffix logging every branch
the cascade flipped; and live-branch/live-note consistency is preserved. -/
theorem delete_evolves (fuel : Nat) (hoisted d : String) :
    (∀ s bid t r, idsNodup s → liveBranchNoteLive s →
      deleteBranchGo fuel hoisted d s bid = Except.ok (t, r) →
      List.Forall₂ (delEvB d) s.branches t.branches ∧
      List.Forall₂ (delEvN d) s.notes t.notes ∧
      List.Forall₂ (delEvA d) s.attributes t.attributes ∧
      liveBranchNoteLive t ∧
      (∃ Δ, t.changeLog = s.changeLog ++ Δ ∧
        ∀ c ∈ s.branches, c.isDeleted = false →
          (∃ c' ∈ t.branches, c'.branchId = c.branchId ∧ c'.isDeleted = true) →
          c.branchId ∈ Δ)) ∧
    (∀ s ids t, idsNodup s → liveBranchNoteLive s →
      deleteChildBranchesGo fuel hoisted d s ids = Except.ok t →
      List.Forall₂ (delEvB d) s.branches t.branches ∧
      List.Forall₂ (delEvN d) s.notes t.notes ∧
      List.Forall₂ (delEvA d) s.attributes t.attributes ∧
      liveBranchNoteLive t ∧
      (∃ Δ, t.changeLog = s.changeLog ++ Δ ∧
        ∀ c ∈ s.branches, c.isDeleted = false →
          (∃ c' ∈ t.branches, c'.branchId = c.branchId ∧ c'.isDeleted = true) →
          c.branchId ∈ Δ)) := by
  induction fuel with
  | zero =>
    constructor
    · intro s bid t r _ _ h
      exact absurd h (by simp [deleteBranchGo])
    · intro s ids t _ _ h
      exact absurd h (by simp [deleteChildBranchesGo])
  | succ fuel ih =>
    obtain ⟨ihA, ihL⟩ := ih
    constructor
    · intro s bid t r hids hlbn h
      unfold deleteBranchGo at h
      cases hb : getBranch s bid with
      | none =>
        rw [hb] at h
        simp only [Except.ok.injEq, Prod.mk.injEq] at h
        obtain ⟨h1, -⟩ := h
        rw [← h1]
        exact delete_evolves_refl d s hids hlbn
      | some branch =>
        rw [hb] at h
        simp only [] at h
        cases hdel : branch.isDeleted with
        | true =>
          rw [hdel] at h
          simp only [reduceIte, Except.ok.injEq, Prod.mk.injEq] at h
          obtain ⟨h1, -⟩ := h
          rw [← h1]
          exact delete_evolves_refl d s hids hlbn
        | false =>
          rw [hdel] at h
          simp only [Bool.false_eq_true, if_false, reduceIte] at h
          cases hguard : (branch.branchId == "root" || branch.noteId == "root" ||
              branch.noteId == hoisted) with
          | true => rw [hguard] at h; exact absurd h (by simp)
          | false =>
            rw [hguard] at h
            simp only [Bool.false_eq_true, if_false, reduceIte] at h
            obtain ⟨hbm, hbid⟩ := getBranch_mem hb
            generalize hs1 : saveBranch s (markBranchDeleted d branch) = s1 at h
            have hE1 : List.Forall₂ (delEvB d) s.branches s1.branches := by
              rw [← hs1]
              exact saveBranch_evolves (delEvB d) (fun x => Or.inl rfl) hbm
                (rfl : (markBranchDeleted d branch).branchId = branch.branchId) hids.1
                (Or.inr ⟨hdel, rfl⟩)
            have hn1 : s1.notes = s.notes := by rw [← hs1]; exact saveBranch_notes s _
            have ha1 : s1.attributes = s.attributes := by
              rw [← hs1]; exact saveBranch_attributes s _
            have hc1 : s1.changeLog = s.changeLog ++ [branch.branchId] := by
              rw [← hs1]; exact saveBranch_changeLog s _
            have hids1 : idsNodup s1 := by
              refine ⟨?_, ?_, ?_⟩
              · rw [forall₂_map_eq (fun x => x.branchId) (delEvB_id d) hE1]; exact hids.1
              · rw [hn1]; exact hids.2.1
              · rw [ha1]; exact hids.2.2
            have hlbn1 : liveBranchNoteLive s1 := LBNL_of_branchesEv hE1 hn1 hlbn
            have hlog1 : ∀ c ∈ s.branches, c.isDeleted = false →
                (∃ c' ∈ s1.branches, c'.branchId = c.branchId ∧ c'.isDeleted = true) →
                c.branchId ∈ [branch.branchId] := by
              rw [← hs1]
              exact logProp_saveBranch hids.1 hbm hdel
            cases hnote : getNote s1 branch.noteId with
            | none => rw [hnote] at h; exact absurd h (by simp)
            | some note =>
              rw [hnote] at h
              simp only [] at h
              obtain ⟨hnm1, hnid1⟩ := getNote_mem hnote
              have hnms : note ∈ s.notes := hn1 ▸ hnm1
              have hnlive : note.isDeleted = false := hlbn branch hbm hdel note hnms hnid1
              cases hempty : (getBranchesOfNote s1 note.noteId).isEmpty with
              | false =>
                rw [hempty] at h
                simp only [Bool.false_eq_true, if_false, reduceIte, Except.ok.injEq,
                  Prod.mk.injEq] at h
                obtain ⟨h1, -⟩ := h
                rw [← h1]
                refine ⟨hE1, ?_, ?_, hlbn1, ⟨[branch.branchId], hc1, hlog1⟩⟩
                · rw [hn1]; exact List.forall₂_same.mpr (fun x _ => Or.inl rfl)
                · rw [ha1]; exact List.forall₂_same.mpr (fun x _ => Or.inl rfl)
              | true =>
                rw [hempty] at h
                simp only [reduceIte] at h
                cases hch : deleteChildBranchesGo fuel hoisted d s1
                    ((getChildBranchesOf s1 note.noteId).map (fun b => b.branchId)) with
                | error e => rw [hch] at h; exact absurd h (by simp)
                | ok s2 =>
                  rw [hch] at h
                  simp only [] at h
                  obtain ⟨hE2, hN2, hA2, hlbn2, Δ2, hc2, hlog2⟩ :=
                    ihL s1 _ s2 hids1 hlbn1 hch
                  have hids2 : idsNodup s2 := idsNodup_evolve hE2 hN2 hA2 hids1
                  obtain ⟨y, hy, hRy⟩ := forall₂_mem_left hN2 hnm1
                  have hidy : (markNoteDeleted d note).noteId = y.noteId := by
                    rw [delEvN_id d note y hRy]
                    rfl
                  have hRy3 : delEvN d y (markNoteDeleted d note) := by
                    rcases hRy with h' | ⟨-, h'⟩
                    · rw [h']
                      exact Or.inr ⟨hnlive, rfl⟩
                    · rw [h']
                      exact Or.inl rfl
                  generalize hs3 : saveNote s2 (markNoteDeleted d note) = s3 at h
                  have hE3 : List.Forall₂ (delEvN d) s2.notes s3.notes := by
                    rw [← hs3]
                    exact saveNote_evolves (delEvN d) (fun x => Or.inl rfl) hy hidy
                      hids2.2.1 hRy3
                  have hb3 : s3.branches = s2.branches := by
                    rw [← hs3]; exact saveNote_branches s2 _
                  have ha3 : s3.attributes = s2.attributes := by
                    rw [← hs3]; exact saveNote_attributes s2 _
                  have hc3 : s3.changeLog = s2.changeLog ++ [note.noteId] := by
                    rw [← hs3]; exact saveNote_changeLog s2 _
                  have hempty1 : getBranchesOfNote s1 note.noteId = [] :=
                    List.isEmpty_iff.mp hempty
                  have hempty2 : getBranchesOfNote s2 note.noteId = [] :=
                    liveBranch_filter_empty hE2 hempty1
                  have hlbn3 : liveBranchNoteLive s3 := by
                    intro b' hb' hlive n hnm hid
                    rw [hb3] at hb'
                    rw [← hs3, saveNote_notes_form y hy hidy.symm] at hnm
                    obtain ⟨m0, hm0, hfn⟩ := List.mem_map.mp hnm
                    cases hmid : (m0.noteId == (markNoteDeleted d note).noteId) with
                    | true =>
                      exfalso
                      rw [hmid] at hfn
                      simp only [reduceIte] at hfn
                      have hbn : b'.noteId = note.noteId := by
                        rw [← hid, ← hfn]
                        rfl
                      have hmem2 : b' ∈ getBranchesOfNote s2 note.noteId := by
                        unfold getBranchesOfNote
                        refine List.mem_filter.mpr ⟨hb', ?_⟩
                        simp [hbn, hlive]
                      rw [hempty2] at hmem2
                      cases hmem2
                    | false =>
                      rw [hmid] at hfn
                      simp only [Bool.false_eq_true, if_false, reduceIte] at hfn
                      rw [← hfn] at hid ⊢
                      exact hlbn2 b' hb' hlive m0 hm0 hid
                  have hids3 : idsNodup s3 := by
                    refine ⟨?_, ?_, ?_⟩
                    · rw [hb3]; exact hids2.1
                    · rw [forall₂_map_eq (fun x => x.noteId) (delEvN_id d) hE3]
                      exact hids2.2.1
                    · rw [ha3]; exact hids2.2.2
                  have hmemL1 : ∀ a ∈ getOwnedAttributesOf s3 note.noteId,
                      a ∈ s3.attributes ∧ a.isDeleted = false := by
                    intro a ha
                    unfold getOwnedAttributesOf at ha
                    have hma := List.mem_filter.mp ha
                    refine ⟨hma.1, ?_⟩
                    have hcond := hma.2
                    simp only [Bool.and_eq_true, Bool.not_eq_true'] at hcond
                    exact hcond.2
                  have hnodupL1 : ((getOwnedAttributesOf s3 note.noteId).map
                      (fun c => c.attributeId)).Nodup := by
                    refine List.Nodup.sublist ?_ hids3.2.2
                    exact List.Sublist.map _ (List.filter_sublist _)
                  obtain ⟨F1ev, F1b, F1n, F1c, F1m⟩ :=
                    markAttrsFold_evolves d (getOwnedAttributesOf s3 note.noteId) s3
                      hids3.2.2 hnodupL1 hmemL1
                  generalize hs4 : (getOwnedAttributesOf s3 note.noteId).foldl
                      (fun st a => saveAttribute st (markAttributeDeleted d a)) s3 = s4 at h
                  rw [hs4] at F1ev F1b F1n F1c F1m
                  have hids4 : idsNodup s4 := by
                    refine ⟨?_, ?_, ?_⟩
                    · rw [F1b]; exact hids3.1
                    · rw [F1n]; exact hids3.2.1
                    · rw [forall₂_map_eq (fun x => x.attributeId) (delEvA_id d) F1ev]
                      exact hids3.2.2
                  have hmemL2 : ∀ a ∈ getTargetRelationsOf s4 note.noteId,
                      a ∈ s4.attributes ∧ a.isDeleted = false := by
                    intro a ha
                    unfold getTargetRelationsOf at ha
                    have hma := List.mem_filter.mp ha
                    refine ⟨hma.1, ?_⟩
                    have hcond := hma.2
                    simp only [Bool.and_eq_true, Bool.not_eq_true'] at hcond
                    exact hcond.2
                  have hnodupL2 : ((getTargetRelationsOf s4 note.noteId).map
                      (fun c => c.attributeId)).Nodup := by
                    refine List.Nodup.sublist ?_ hids4.2.2
                    exact List.Sublist.map _ (List.filter_sublist _)
                  obtain ⟨F2ev, F2b, F2n, F2c, F2m⟩ :=
                    markAttrsFold_evolves d (getTargetRelationsOf s4 note.noteId) s4
                      hids4.2.2 hnodupL2 hmemL2
                  generalize hs5 : (getTargetRelationsOf s4 note.noteId).foldl
                      (fun st a => saveAttribute st (markAttributeDeleted d a)) s4 = s5 at h
                  rw [hs5] at F2ev F2b F2n F2c F2m
                  simp only [Except.ok.injEq, Prod.mk.injEq] at h
                  obtain ⟨h1, -⟩ := h
                  rw [← h1]
                  refine ⟨?_, ?_, ?_, ?_, ?_⟩
                  · rw [F2b, F1b, hb3]
                    exact forall₂_compose (delEvB_trans d) hE1 hE2
                  · rw [F2n, F1n]
                    have hsn : List.Forall₂ (delEvN d) s.notes s2.notes := by
                      rw [← hn1]; exact hN2
                    exact forall₂_compose (delEvN_trans d) hsn hE3
                  · have hsa : List.Forall₂ (delEvA d) s.attributes s3.attributes := by
                      rw [ha3, ← ha1]; exact hA2
                    exact forall₂_compose (delEvA_trans d)
                      (forall₂_compose (delEvA_trans d) hsa F1ev) F2ev
                  · exact LBNL_transport (by rw [F2b, F1b]) (by rw [F2n, F1n]) hlbn3
                  · refine ⟨[branch.branchId] ++ (Δ2 ++ ([note.noteId] ++
                      ((getOwnedAttributesOf s3 note.noteId).map (fun a => a.attributeId) ++
                       (getTargetRelationsOf s4 note.noteId).map (fun a => a.attributeId)))),
                      ?_, ?_⟩
                    · rw [F2c, F1c, hc3, hc2, hc1]
                      simp [List.append_assoc]
                    · refine logProp_compose hE1 hlog1 ?_
                      refine logProp_compose hE2 hlog2 ?_
                      exact logProp_nochange (by rw [F2b, F1b, hb3]) hids2.1
    · intro s ids t hids hlbn h
      cases ids with
      | nil =>
        unfold deleteChildBranchesGo at h
        simp only [Except.ok.injEq] at h
        rw [← h]
        exact delete_evolves_refl d s hids hlbn
      | cons c rest =>
        unfold deleteChildBranchesGo at h
        cases hhd : deleteBranchGo fuel hoisted d s c with
        | error e => rw [hhd] at h; exact absurd h (by simp)
        | ok p =>
          obtain ⟨s', r'⟩ := p
          rw [hhd] at h
          simp only [] at h
          obtain ⟨hE1, hN1, hA1, hlbn1, Δ1, hc1, hlog1⟩ := ihA s c s' r' hids hlbn hhd
          have hids1 : idsNodup s' := idsNodup_evolve hE1 hN1 hA1 hids
          obtain ⟨hE2, hN2, hA2, hlbn2, Δ2, hc2, hlog2⟩ := ihL s' rest t hids1 hlbn1 h
          refine ⟨forall₂_compose (delEvB_trans d) hE1 hE2,
            forall₂_compose (delEvN_trans d) hN1 hN2,
            forall₂_compose (delEvA_trans d) hA1 hA2, hlbn2,
            ⟨Δ1 ++ Δ2, ?_, logProp_compose hE1 hlog1 hlog2⟩⟩
          rw [hc2, hc1, List.append_assoc]

theorem saveBranch_mem_upsert {s : Store} {b b' : Branch} (hb : b ∈ s.branches)
    (hid : b'.branchId = b.branchId) :
    b' ∈ (saveBranch s b').branches := by
  unfold saveBranch
  have hany : (s.branches.any (fun c => c.branchId == b'.branchId)) = true :=
    List.any_eq_true.mpr ⟨b, hb, by rw [hid]; exact beq_self_eq_true _⟩
  rw [hany]
  simp only [reduceIte]
  have hbeq : (b.branchId == b'.branchId) = true := by
    rw [hid]
    exact beq_self_eq_true _
  have hmm := List.mem_map_of_mem
    (fun c => if c.branchId == b'.branchId then b' else c) hb
  simp only [hbeq, reduceIte] at hmm
  exact hmm

theorem attrsFold_branches (d : String) : ∀ (l : List Attribute) (s : Store),
    (l.foldl (fun st a => saveAttribute st (markAttributeDeleted d a)) s).branches =
      s.branches := by
  intro l
  induction l with
  | nil => intro s; rfl
  | cons a rest ih =>
    intro s
    rw [List.foldl_cons, ih, saveAttribute_branches]

/-- A completed `deleteBranch` leaves the targeted branch row soft-deleted
(whatever path the call took). -/
theorem deleteBranch_deletes (fuel : Nat) (hoisted d : String) (s : Store) (bid : String)
    (t : Store) (r : Bool) (hids : idsNodup s) (hlbn : liveBranchNoteLive s)
    (h : deleteBranchGo fuel hoisted d s bid = Except.ok (t, r)) :
    ∀ row ∈ s.branches, row.branchId = bid →
    ∃ row' ∈ t.branches, row'.branchId = bid ∧ row'.isDeleted = true := by
  intro row hrow hrowid
  cases fuel with
  | zero => exact absurd h (by simp [deleteBranchGo])
  | succ fuel =>
    unfold deleteBranchGo at h
    cases hb : getBranch s bid with
    | none =>
      exfalso
      unfold getBranch at hb
      have := List.find?_eq_none.mp hb row hrow
      apply this
      simp [hrowid]
    | some branch =>
      rw [hb] at h
      simp only [] at h
      obtain ⟨hbm, hbid⟩ := getBranch_mem hb
      cases hdel : branch.isDeleted with
      | true =>
        rw [hdel] at h
        simp only [reduceIte, Except.ok.injEq, Prod.mk.injEq] at h
        obtain ⟨h1, -⟩ := h
        rw [← h1]
        exact ⟨branch, hbm, hbid, hdel⟩
      | false =>
        rw [hdel] at h
        simp only [Bool.false_eq_true, if_false, reduceIte] at h
        cases hguard : (branch.branchId == "root" || branch.noteId == "root" ||
            branch.noteId == hoisted) with
        | true => rw [hguard] at h; exact absurd h (by simp)
        | false =>
          rw [hguard] at h
          simp only [Bool.false_eq_true, if_false, reduceIte] at h
          generalize hs1 : saveBranch s (markBranchDeleted d branch) = s1 at h
          have hM : markBranchDeleted d branch ∈ s1.branches := by
            rw [← hs1]
            exact saveBranch_mem_upsert hbm rfl
          have hE1 : List.Forall₂ (delEvB d) s.branches s1.branches := by
            rw [← hs1]
            exact saveBranch_evolves (delEvB d) (fun x => Or.inl rfl) hbm
              (rfl : (markBranchDeleted d branch).branchId = branch.branchId) hids.1
              (Or.inr ⟨hdel, rfl⟩)
          have hn1 : s1.notes = s.notes := by rw [← hs1]; exact saveBranch_notes s _
          have ha1 : s1.attributes = s.attributes := by
            rw [← hs1]; exact saveBranch_attributes s _
          have hids1 : idsNodup s1 := by
            refine ⟨?_, ?_, ?_⟩
            · rw [forall₂_map_eq (fun x => x.branchId) (delEvB_id d) hE1]; exact hids.1
            · rw [hn1]; exact hids.2.1
            · rw [ha1]; exact hids.2.2
          have hlbn1 : liveBranchNoteLive s1 := LBNL_of_branchesEv hE1 hn1 hlbn
          cases hnote : getNote s1 branch.noteId with
          | none => rw [hnote] at h; exact absurd h (by simp)
          | some note =>
            rw [hnote] at h
            simp only [] at h
            cases hempty : (getBranchesOfNote s1 note.noteId).isEmpty with
            | false =>
              rw [hempty] at h
              simp only [Bool.false_eq_true, if_false, reduceIte, Except.ok.injEq,
                Prod.mk.injEq] at h
              obtain ⟨h1, -⟩ := h
              rw [← h1]
              exact ⟨markBranchDeleted d branch, hM, hbid, rfl⟩
            | true =>
              rw [hempty] at h
              simp only [reduceIte] at h
              cases hch : deleteChildBranchesGo fuel hoisted d s1
                  ((getChildBranchesOf s1 note.noteId).map (fun b => b.branchId)) with
              | error e => rw [hch] at h; exact absurd h (by simp)
              | ok s2 =>
                rw [hch] at h
                simp only [] at h
                obtain ⟨hE2, -, -, -, -⟩ :=
                  (delete_evolves fuel hoisted d).2 s1 _ s2 hids1 hlbn1 hch
                obtain ⟨y, hy, hRy⟩ := forall₂_mem_left hE2 hM
                have hyM : y = markBranchDeleted d branch := delEvB_deleted hRy rfl
                generalize hs3 : saveNote s2 (markNoteDeleted d note) = s3 at h
                have hb3 : s3.branches = s2.branches := by
                  rw [← hs3]; exact saveNote_branches s2 _
                generalize hs4 : (getOwnedAttributesOf s3 note.noteId).foldl
                    (fun st a => saveAttribute st (markAttributeDeleted d a)) s3 = s4 at h
                have hb4 : s4.branches = s3.branches := by
                  rw [← hs4]
                  exact attrsFold_branches d _ s3
                generalize hs5 : (getTargetRelationsOf s4 note.noteId).foldl
                    (fun st a => saveAttribute st (markAttributeDeleted d a)) s4 = s5 at h
                have hb5 : s5.branches = s4.branches := by
                  rw [← hs5]
                  exact attrsFold_branches d _ s4
                simp only [Except.ok.injEq, Prod.mk.injEq] at h
                obtain ⟨h1, -⟩ := h
                rw [← h1]
                refine ⟨markBranchDeleted d branch, ?_, hbid, rfl⟩
                rw [hb5, hb4, hb3]
                exact hyM ▸ hy

theorem isEmpty_false_of_mem {α : Type} {l : List α} {x : α} (h : x ∈ l) :
    l.isEmpty = false := by
  cases l with
  | nil => cases h
  | cons a as => rfl

theorem mem_saveBranch_other {s : Store} {b' c : Branch} (hc : c ∈ s.branches)
    (hne : c.branchId ≠ b'.branchId) : c ∈ (saveBranch s b').branches := by
  unfold saveBranch
  cases hany : s.branches.any (fun x => x.branchId == b'.branchId) with
  | true =>
    simp only [hany, reduceIte]
    have hcbeq : (c.branchId == b'.branchId) = false := beq_eq_false_iff_ne.mpr hne
    have hmm := List.mem_map_of_mem (fun x => if x.branchId == b'.branchId then b' else x) hc
    simp only [hcbeq, Bool.false_eq_true, if_false, reduceIte] at hmm
    exact hmm
  | false =>
    simp only [hany, Bool.false_eq_true, if_false, reduceIte]
    exact List.mem_append_left _ hc

theorem saveNote_mem_upsert {s : Store} {n n' : Note} (hn : n ∈ s.notes)
    (hid : n'.noteId = n.noteId) :
    n' ∈ (saveNote s n').notes := by
  unfold saveNote
  have hany : (s.notes.any (fun m => m.noteId == n'.noteId)) = true :=
    List.any_eq_true.mpr ⟨n, hn, by rw [hid]; exact beq_self_eq_true _⟩
  rw [hany]
  simp only [reduceIte]
  have hbeq : (n.noteId == n'.noteId) = true := by
    rw [hid]
    exact beq_self_eq_true _
  have hmm := List.mem_map_of_mem (fun m => if m.noteId == n'.noteId then n' else m) hn
  simp only [hbeq, reduceIte] at hmm
  exact hmm

theorem delEvB_changed {d : String} {x y : Branch} (h : delEvB d x y)
    (hx : x.isDeleted = false) (hy : y.isDeleted = true) : y = markBranchDeleted d x := by
  rcases h with h' | ⟨-, h'⟩
  · exfalso
    rw [h'] at hy
    rw [hy] at hx
    exact Bool.noConfusion hx
  · exact h'

/-- Every child id handed to the deletion loop that names an existing branch
row ends up with a soft-deleted row of that id in the resulting store. -/
theorem deleteChildBranches_deletes (hoisted d : String) : ∀ (fuel : Nat) (ids : List String)
    (s t : Store), idsNodup s → liveBranchNoteLive s →
    deleteChildBranchesGo fuel hoisted d s ids = Except.ok t →
    ∀ id ∈ ids, (∃ row ∈ s.branches, row.branchId = id) →
    ∃ row' ∈ t.branches, row'.branchId = id ∧ row'.isDeleted = true := by
  intro fuel
  induction fuel with
  | zero =>
    intro ids s t _ _ h
    exact absurd h (by simp [deleteChildBranchesGo])
  | succ fuel ih =>
    intro ids s t hids hlbn h id hid hex
    cases ids with
    | nil => cases hid
    | cons c rest =>
      unfold deleteChildBranchesGo at h
      cases hhd : deleteBranchGo fuel hoisted d s c with
      | error e => rw [hhd] at h; exact absurd h (by simp)
      | ok p =>
        obtain ⟨s', r'⟩ := p
        rw [hhd] at h
        simp only [] at h
        obtain ⟨hE1, hN1, hA1, hlbn1, -⟩ :=
          (delete_evolves fuel hoisted d).1 s c s' r' hids hlbn hhd
        have hids1 : idsNodup s' := idsNodup_evolve hE1 hN1 hA1 hids
        rcases List.mem_cons.mp hid with heq | hidr
        · subst heq
          obtain ⟨row, hrow, hrowid⟩ := hex
          obtain ⟨row', hrow', hrid', hrdel'⟩ :=
            deleteBranch_deletes fuel hoisted d s id s' r' hids hlbn hhd row hrow hrowid
          obtain ⟨hE2, -, -, -, -⟩ :=
            (delete_evolves fuel hoisted d).2 s' rest t hids1 hlbn1 h
          obtain ⟨z, hz, hRz⟩ := forall₂_mem_left hE2 hrow'
          have hzM : z = row' := delEvB_deleted hRz hrdel'
          exact ⟨z, hz, by rw [hzM]; exact hrid', by rw [hzM]; exact hrdel'⟩
        · obtain ⟨row, hrow, hrowid⟩ := hex
          obtain ⟨y, hy, hRy⟩ := forall₂_mem_left hE1 hrow
          have hyid : y.branchId = id := by rw [delEvB_id d row y hRy]; exact hrowid
          exact ih rest s' t hids1 hlbn1 h id hidr ⟨y, hy, hyid⟩

theorem branchesOfNote_empty_after_mark (d : String) {s : Store} {b : Branch} {nid : String}
    (hbm : b ∈ s.branches)
    (hsolo : ∀ c ∈ s.branches, c.noteId = nid → c.isDeleted = false →
      c.branchId = b.branchId) :
    getBranchesOfNote (saveBranch s (markBranchDeleted d b)) nid = [] := by
  unfold getBranchesOfNote saveBranch
  have hany : (s.branches.any (fun c => c.branchId == (markBranchDeleted d b).branchId)) =
      true :=
    List.any_eq_true.mpr ⟨b, hbm, beq_self_eq_true _⟩
  rw [hany]
  simp only [reduceIte]
  rw [List.filter_eq_nil_iff]
  intro x hx hp
  obtain ⟨c, hc, hfc⟩ := List.mem_map.mp hx
  simp only [Bool.and_eq_true, beq_iff_eq, Bool.not_eq_true'] at hp
  cases hcb : (c.branchId == (markBranchDeleted d b).branchId) with
  | true =>
    rw [hcb] at hfc
    simp only [reduceIte] at hfc
    have hdel : x.isDeleted = true := by rw [← hfc]; rfl
    rw [hdel] at hp
    exact Bool.noConfusion hp.2
  | false =>
    rw [hcb] at hfc
    simp only [Bool.false_eq_true, if_false, reduceIte] at hfc
    rw [← hfc] at hp
    have hcid : c.branchId = b.branchId := hsolo c hc hp.1 hp.2
    have hsb : (c.branchId == (markBranchDeleted d b).branchId) = true := by
      rw [hcid]
      exact beq_self_eq_true _
    rw [hcb] at hsb
    exact Bool.noConfusion hsb

/-- C1.  `deleteBranch` on a live branch `b` (of note `note`) that is neither
the root branch nor a branch of the root or hoisted note: every branch, note
and attribute row evolves pointwise by at most a soft-delete carrying the one
operation id `d` (the three `Forall₂ delEv` clauses).  When `b` is the note's
only live branch, the call returns true and the store holds `b`, the note,
every live child branch, every live owned attribute and every live targeting
relation in their `d`-marked forms, with the child branches journalled after
`b` and strictly before the note (children before the note itself); the marked
forms all store `deleteId = some d`.  When the note still has another live
branch, the call returns false, notes and attributes are untouched, only `b`'s
row is replaced by its marked form, and every other branch row survives
unchanged. -/
theorem deleteBranch_cascade (fuel : Nat) (hoisted d : String) (s : Store) (bid : String)
    (b : Branch) (note : Note) (t : Store) (r : Bool)
    (hids : idsNodup s) (hlbn : liveBranchNoteLive s)
    (hb : getBranch s bid = some b) (hlive : b.isDeleted = false)
    (hguard : (b.branchId == "root" || b.noteId == "root" || b.noteId == hoisted) = false)
    (hnote : getNote s b.noteId = some note)
    (hrun : deleteBranchGo (Nat.succ fuel) hoisted d s bid = Except.ok (t, r)) :
    List.Forall₂ (delEvB d) s.branches t.branches ∧
    List.Forall₂ (delEvN d) s.notes t.notes ∧
    List.Forall₂ (delEvA d) s.attributes t.attributes ∧
    ((∀ c ∈ s.branches, c.noteId = b.noteId → c.isDeleted = false →
        c.branchId = b.branchId) →
      r = true ∧
      markBranchDeleted d b ∈ t.branches ∧
      markNoteDeleted d note ∈ t.notes ∧
      (∀ c ∈ s.branches, c.parentNoteId = note.noteId → c.isDeleted = false →
        markBranchDeleted d c ∈ t.branches) ∧
      (∀ a ∈ s.attributes, a.isDeleted = false →
        (a.noteId = note.noteId ∨ (a.type = "relation" ∧ a.value = note.noteId)) →
        markAttributeDeleted d a ∈ t.attributes) ∧
      (∃ preΔ postΔ,
        t.changeLog = s.changeLog ++ [b.branchId] ++ preΔ ++ [note.noteId] ++ postΔ ∧
        ∀ c ∈ s.branches, c.parentNoteId = note.noteId → c.isDeleted = false →
          c.branchId ≠ b.branchId → c.branchId ∈ preΔ)) ∧
    ((∃ c ∈ s.branches, c.noteId = b.noteId ∧ c.isDeleted = false ∧
        c.branchId ≠ b.branchId) →
      r = false ∧ t.notes = s.notes ∧ t.attributes = s.attributes ∧
      t.changeLog = s.changeLog ++ [b.branchId] ∧
      markBranchDeleted d b ∈ t.branches ∧
      ∀ c ∈ s.branches, c.branchId ≠ b.branchId → c ∈ t.branches) := by
  unfold deleteBranchGo at hrun
  rw [hb] at hrun
  simp only [] at hrun
  rw [hlive] at hrun
  simp only [Bool.false_eq_true, if_false, reduceIte] at hrun
  rw [hguard] at hrun
  simp only [Bool.false_eq_true, if_false, reduceIte] at hrun
  obtain ⟨hbm, hbid⟩ := getBranch_mem hb
  obtain ⟨hnm, hnid⟩ := getNote_mem hnote
  generalize hs1 : saveBranch s (markBranchDeleted d b) = s1 at hrun
  have hM : markBranchDeleted d b ∈ s1.branches := by
    rw [← hs1]
    exact saveBranch_mem_upsert hbm rfl
  have hE1 : List.Forall₂ (delEvB d) s.branches s1.branches := by
    rw [← hs1]
    exact saveBranch_evolves (delEvB d) (fun x => Or.inl rfl) hbm
      (rfl : (markBranchDeleted d b).branchId = b.branchId) hids.1 (Or.inr ⟨hlive, rfl⟩)
  have hn1 : s1.notes = s.notes := by rw [← hs1]; exact saveBranch_notes s _
  have ha1 : s1.attributes = s.attributes := by rw [← hs1]; exact saveBranch_attributes s _
  have hc1 : s1.changeLog = s.changeLog ++ [b.branchId] := by
    rw [← hs1]; exact saveBranch_changeLog s _
  have hids1 : idsNodup s1 := by
    refine ⟨?_, ?_, ?_⟩
    · rw [forall₂_map_eq (fun x => x.branchId) (delEvB_id d) hE1]; exact hids.1
    · rw [hn1]; exact hids.2.1
    · rw [ha1]; exact hids.2.2
  have hlbn1 : liveBranchNoteLive s1 := LBNL_of_branchesEv hE1 hn1 hlbn
  have hnote1 : getNote s1 b.noteId = some note := by
    unfold getNote
    rw [hn1]
    exact hnote
  rw [hnote1] at hrun
  simp only [] at hrun
  cases hempty : (getBranchesOfNote s1 note.noteId).isEmpty with
  | false =>
    rw [hempty] at hrun
    simp only [Bool.false_eq_true, if_false, reduceIte, Except.ok.injEq,
      Prod.mk.injEq] at hrun
    obtain ⟨h1, h2⟩ := hrun
    refine ⟨?_, ?_, ?_, ?_, ?_⟩
    · rw [← h1]; exact hE1
    · rw [← h1, hn1]; exact List.forall₂_same.mpr (fun x _ => Or.inl rfl)
    · rw [← h1, ha1]; exact List.forall₂_same.mpr (fun x _ => Or.inl rfl)
    · intro hsolo
      exfalso
      have hempty0 : getBranchesOfNote s1 note.noteId = [] := by
        rw [← hs1]
        refine branchesOfNote_empty_after_mark d hbm ?_
        intro c hc hcn hcl
        exact hsolo c hc (hcn.trans hnid) hcl
      rw [hempty0] at hempty
      exact Bool.noConfusion hempty
    · intro hother
      refine ⟨h2.symm, ?_, ?_, ?_, ?_, ?_⟩
      · rw [← h1]; exact hn1
      · rw [← h1]; exact ha1
      · rw [← h1]; exact hc1
      · rw [← h1]; exact hM
      · intro c hc hne
        rw [← h1, ← hs1]
        exact mem_saveBranch_other hc hne
  | true =>
    rw [hempty] at hrun
    simp only [reduceIte] at hrun
    have hempty1 : getBranchesOfNote s1 note.noteId = [] := List.isEmpty_iff.mp hempty
    cases hch : deleteChildBranchesGo fuel hoisted d s1
        ((getChildBranchesOf s1 note.noteId).map (fun x => x.branchId)) with
    | error e => rw [hch] at hrun; exact absurd hrun (by simp)
    | ok s2 =>
      rw [hch] at hrun
      simp only [] at hrun
      obtain ⟨hE2, hN2, hA2, hlbn2, Δ2, hc2, hlog2⟩ :=
        (delete_evolves fuel hoisted d).2 s1 _ s2 hids1 hlbn1 hch
      have hids2 : idsNodup s2 := idsNodup_evolve hE2 hN2 hA2 hids1
      obtain ⟨yb, hyb, hRyb⟩ := forall₂_mem_left hE2 hM
      have hybM : yb = markBranchDeleted d b := delEvB_deleted hRyb rfl
      have hnm1 : note ∈ s1.notes := by rw [hn1]; exact hnm
      obtain ⟨yn, hyn, hRyn⟩ := forall₂_mem_left hN2 hnm1
      have hnlive : note.isDeleted = false := hlbn b hbm hlive note hnm hnid
      have hidyn : (markNoteDeleted d note).noteId = yn.noteId := by
        rw [delEvN_id d note yn hRyn]
        rfl
      have hRyn3 : delEvN d yn (markNoteDeleted d note) := by
        rcases hRyn with h' | ⟨-, h'⟩
        · rw [h']
          exact Or.inr ⟨hnlive, rfl⟩
        · rw [h']
          exact Or.inl rfl
      generalize hs3 : saveNote s2 (markNoteDeleted d note) = s3 at hrun
      have hMn : markNoteDeleted d note ∈ s3.notes := by
        rw [← hs3]
        exact saveNote_mem_upsert hyn hidyn
      have hE3 : List.Forall₂ (delEvN d) s2.notes s3.notes := by
        rw [← hs3]
        exact saveNote_evolves (delEvN d) (fun x => Or.inl rfl) hyn hidyn hids2.2.1 hRyn3
      have hb3 : s3.branches = s2.branches := by
        rw [← hs3]; exact saveNote_branches s2 _
      have ha3 : s3.attributes = s2.attributes := by
        rw [← hs3]; exact saveNote_attributes s2 _
      have hc3 : s3.changeLog = s2.changeLog ++ [note.noteId] := by
        rw [← hs3]; exact saveNote_changeLog s2 _
      have hids3 : idsNodup s3 := by
        refine ⟨?_, ?_, ?_⟩
        · rw [hb3]; exact hids2.1
        · rw [forall₂_map_eq (fun x => x.noteId) (delEvN_id d) hE3]
          exact hids2.2.1
        · rw [ha3]; exact hids2.2.2
      have hmemL1 : ∀ a ∈ getOwnedAttributesOf s3 note.noteId,
          a ∈ s3.attributes ∧ a.isDeleted = false := by
        intro a ha
        unfold getOwnedAttributesOf at ha
        have hma := List.mem_filter.mp ha
        refine ⟨hma.1, ?_⟩
        have hcond := hma.2
        simp only [Bool.and_eq_true, Bool.not_eq_true'] at hcond
        exact hcond.2
      have hnodupL1 : ((getOwnedAttributesOf s3 note.noteId).map
          (fun c => c.attributeId)).Nodup := by
        refine List.Nodup.sublist ?_ hids3.2.2
        exact List.Sublist.map _ (List.filter_sublist _)
      obtain ⟨F1ev, F1b, F1n, F1c, F1m⟩ :=
        markAttrsFold_evolves d (getOwnedAttributesOf s3 note.noteId) s3
          hids3.2.2 hnodupL1 hmemL1
      generalize hs4 : (getOwnedAttributesOf s3 note.noteId).foldl
          (fun st a => saveAttribute st (markAttributeDeleted d a)) s3 = s4 at hrun
      rw [hs4] at F1ev F1b F1n F1c F1m
      have hids4 : idsNodup s4 := by
        refine ⟨?_, ?_, ?_⟩
        · rw [F1b]; exact hids3.1
        · rw [F1n]; exact hids3.2.1
        · rw [forall₂_map_eq (fun x => x.attributeId) (delEvA_id d) F1ev]
          exact hids3.2.2
      have hmemL2 : ∀ a ∈ getTargetRelationsOf s4 note.noteId,
          a ∈ s4.attributes ∧ a.isDeleted = false := by
        intro a ha
        unfold getTargetRelationsOf at ha
        have hma := List.mem_filter.mp ha
        refine ⟨hma.1, ?_⟩
        have hcond := hma.2
        simp only [Bool.and_eq_true, Bool.not_eq_true'] at hcond
        exact hcond.2
      have hnodupL2 : ((getTargetRelationsOf s4 note.noteId).map
          (fun c => c.attributeId)).Nodup := by
        refine List.Nodup.sublist ?_ hids4.2.2
        exact List.Sublist.map _ (List.filter_sublist _)
      obtain ⟨F2ev, F2b, F2n, F2c, F2m⟩ :=
        markAttrsFold_evolves d (getTargetRelationsOf s4 note.noteId) s4
          hids4.2.2 hnodupL2 hmemL2
      generalize hs5 : (getTargetRelationsOf s4 note.noteId).foldl
          (fun st a => saveAttribute st (markAttributeDeleted d a)) s4 = s5 at hrun
      rw [hs5] at F2ev F2b F2n F2c F2m
      simp only [Except.ok.injEq, Prod.mk.injEq] at hrun
      obtain ⟨h1, h2⟩ := hrun
      have hEfullB : List.Forall₂ (delEvB d) s.branches t.branches := by
        rw [← h1, F2b, F1b, hb3]
        exact forall₂_compose (delEvB_trans d) hE1 hE2
      have hEfullN : List.Forall₂ (delEvN d) s.notes t.notes := by
        rw [← h1, F2n, F1n]
        have hsn : List.Forall₂ (delEvN d) s.notes s2.notes := by
          rw [← hn1]; exact hN2
        exact forall₂_compose (delEvN_trans d) hsn hE3
      have hEfullA : List.Forall₂ (delEvA d) s.attributes t.attributes := by
        rw [← h1]
        have hsa : List.Forall₂ (delEvA d) s.attributes s3.attributes := by
          rw [ha3, ← ha1]; exact hA2
        exact forall₂_compose (delEvA_trans d)
          (forall₂_compose (delEvA_trans d) hsa F1ev) F2ev
      have hMbT : markBranchDeleted d b ∈ t.branches := by
        rw [← h1, F2b, F1b, hb3]
        exact hybM ▸ hyb
      have hchdel : ∀ c ∈ s.branches, c.parentNoteId = note.noteId → c.isDeleted = false →
          c.branchId ≠ b.branchId →
          ∃ row' ∈ s2.branches, row'.branchId = c.branchId ∧ row'.isDeleted = true := by
        intro c hc hcp hcl hcne
        have hcs1 : c ∈ s1.branches := by
          rw [← hs1]
          exact mem_saveBranch_other hc hcne
        have hcch : c ∈ getChildBranchesOf s1 note.noteId := by
          unfold getChildBranchesOf
          exact List.mem_filter.mpr ⟨hcs1, by simp [hcp, hcl]⟩
        have hcid : c.branchId ∈ (getChildBranchesOf s1 note.noteId).map
            (fun x => x.branchId) :=
          List.mem_map_of_mem (fun x => x.branchId) hcch
        exact deleteChildBranches_deletes hoisted d fuel _ s1 s2 hids1 hlbn1 hch
          c.branchId hcid ⟨c, hcs1, rfl⟩
      refine ⟨hEfullB, hEfullN, hEfullA, ?_, ?_⟩
      · intro hsolo
        refine ⟨h2.symm, hMbT, ?_, ?_, ?_, ?_⟩
        · rw [← h1, F2n, F1n]
          exact hMn
        · intro c hc hcp hcl
          cases hceq : decide (c.branchId = b.branchId) with
          | true =>
            have hcb : c = b :=
              List.inj_on_of_nodup_map hids.1 hc hbm (of_decide_eq_true hceq)
            rw [hcb]
            exact hMbT
          | false =>
            have hcne : c.branchId ≠ b.branchId := of_decide_eq_false hceq
            obtain ⟨row', hrow', hrid', hrdel'⟩ := hchdel c hc hcp hcl hcne
            have hrowT : row' ∈ t.branches := by
              rw [← h1, F2b, F1b, hb3]
              exact hrow'
            obtain ⟨x, hx, hRx⟩ := forall₂_mem_right hEfullB hrowT
            have hxid : x.branchId = c.branchId := by
              rw [← delEvB_id d x row' hRx]
              exact hrid'
            have hxc : x = c := List.inj_on_of_nodup_map hids.1 hx hc hxid
            rw [hxc] at hRx
            have hrmk : row' = markBranchDeleted d c := delEvB_changed hRx hcl hrdel'
            rw [← hrmk]
            exact hrowT
        · intro a ha halive hcond
          have has1 : a ∈ s1.attributes := by rw [ha1]; exact ha
          obtain ⟨a2, ha2, hRa2⟩ := forall₂_mem_left hA2 has1
          rcases hRa2 with h' | ⟨-, h'⟩
          · rw [h'] at ha2
            have has3 : a ∈ s3.attributes := by rw [ha3]; exact ha2
            rcases hcond with howned | ⟨hty, hval⟩
            · have hmem : a ∈ getOwnedAttributesOf s3 note.noteId := by
                unfold getOwnedAttributesOf
                exact List.mem_filter.mpr ⟨has3, by simp [howned, halive]⟩
              have hmk := F1m a hmem
              obtain ⟨z, hz, hRz⟩ := forall₂_mem_left F2ev hmk
              have hzM : z = markAttributeDeleted d a := delEvA_deleted hRz rfl
              rw [← h1]
              exact hzM ▸ hz
            · obtain ⟨a4, ha4, hRa4⟩ := forall₂_mem_left F1ev has3
              rcases hRa4 with h'' | ⟨-, h''⟩
              · rw [h''] at ha4
                have hmem : a ∈ getTargetRelationsOf s4 note.noteId := by
                  unfold getTargetRelationsOf
                  exact List.mem_filter.mpr ⟨ha4, by simp [hty, hval, halive]⟩
                rw [← h1]
                exact F2m a hmem
              · rw [h''] at ha4
                obtain ⟨z, hz, hRz⟩ := forall₂_mem_left F2ev ha4
                have hzM : z = markAttributeDeleted d a := delEvA_deleted hRz rfl
                rw [← h1]
                exact hzM ▸ hz
          · rw [h'] at ha2
            have has3 : markAttributeDeleted d a ∈ s3.attributes := by
              rw [ha3]; exact ha2
            obtain ⟨z4, hz4, hRz4⟩ := forall₂_mem_left F1ev has3
            have hz4M : z4 = markAttributeDeleted d a := delEvA_deleted hRz4 rfl
            rw [hz4M] at hz4
            obtain ⟨z5, hz5, hRz5⟩ := forall₂_mem_left F2ev hz4
            have hz5M : z5 = markAttributeDeleted d a := delEvA_deleted hRz5 rfl
            rw [← h1]
            exact hz5M ▸ hz5
        · refine ⟨Δ2, (getOwnedAttributesOf s3 note.noteId).map (fun a => a.attributeId) ++
            (getTargetRelationsOf s4 note.noteId).map (fun a => a.attributeId), ?_, ?_⟩
          · rw [← h1, F2c, F1c, hc3, hc2, hc1]
            simp [List.append_assoc]
          · intro c hc hcp hcl hcne
            have hcs1 : c ∈ s1.branches := by
              rw [← hs1]
              exact mem_saveBranch_other hc hcne
            obtain ⟨row', hrow', hrid', hrdel'⟩ := hchdel c hc hcp hcl hcne
            exact hlog2 c hcs1 hcl ⟨row', hrow', hrid', hrdel'⟩
      · intro hother
        exfalso
        obtain ⟨c, hc, hcn, hcl, hcne⟩ := hother
        have hcs1 : c ∈ s1.branches := by
          rw [← hs1]
          exact mem_saveBranch_other hc hcne
        have hcmem : c ∈ getBranchesOfNote s1 note.noteId := by
          unfold getBranchesOfNote
          refine List.mem_filter.mpr ⟨hcs1, ?_⟩
          simp [hcn.trans hnid.symm, hcl]
        rw [hempty1] at hcmem
        cases hcmem

/-- C2 counterexample.  In `wUndelS2`, branch "bC" is soft-deleted under
deleteId "D" and is reachable from the deleted parent branch "bN" (deleteId
"D", parent note "root" non-deleted), so the claim demands that
`undeleteNote("N","D")` clear it.  The run restores "bN" and note "N" but
leaves "bC" deleted: `undeleteBranch` returns early without clearing a branch
whose note ("C") was deleted under a different deleteId ("D2"). -/
theorem undeleteNote_partial_counterexample :
    ((getBranch wUndelS2 "bC").map (fun b => (b.isDeleted, b.deleteId)) =
      some (true, some "D")) ∧
    ((getBranch wUndelS2 "bN").map (fun b => (b.isDeleted, b.deleteId)) =
      some (true, some "D")) ∧
    ((getNote wUndelS2 "root").map (fun n => n.isDeleted) = some false) ∧
    ((getBranch wUndelS3 "bN").map (fun b => b.isDeleted) = some false) ∧
    ((getNote wUndelS3 "N").map (fun n => n.isDeleted) = some false) ∧
    ((getBranch wUndelS3 "bC").map (fun b => (b.isDeleted, b.deleteId)) =
      some (true, some "D")) := by
  decide

/-- Witness for C1: deleting branch "bA" of the cascade witness store returns
true and soft-deletes the branch, note "A", the child branch "bC", the owned
label "a1" and the targeting relation "a2", all under deleteId "D1". -/
theorem deleteBranch_cascade_witness :
    wDelRes.2 = true ∧
    markBranchDeleted "D1" (exBranch "bA" "A" "root" 10) ∈ wDelRes.1.branches ∧
    markNoteDeleted "D1" (exNote "A") ∈ wDelRes.1.notes ∧
    markBranchDeleted "D1" (exBranch "bC" "C" "A" 10) ∈ wDelRes.1.branches ∧
    markAttributeDeleted "D1" (exAttr "a1" "A" "label" "x" "v" false) ∈
      wDelRes.1.attributes ∧
    markAttributeDeleted "D1" (exAttr "a2" "root" "relation" "r" "A" false) ∈
      wDelRes.1.attributes := by
  obtain ⟨-, -, -, hA, -⟩ :=
    deleteBranch_cascade 9 "hoist" "D1" wDelStore "bA" (exBranch "bA" "A" "root" 10)
      (exNote "A") wDelRes.1 wDelRes.2
      (by unfold idsNodup; decide) (by unfold liveBranchNoteLive; decide)
      rfl rfl rfl rfl rfl
  obtain ⟨hr, hbm, hnm, hch, hattr, -⟩ := hA (by decide)
  refine ⟨hr, hbm, hnm, ?_, ?_, ?_⟩
  · exact hch (exBranch "bC" "C" "A" 10) (by decide) rfl rfl
  · exact hattr (exAttr "a1" "A" "label" "x" "v" false) (by decide) rfl (Or.inl rfl)
  · exact hattr (exAttr "a2" "root" "relation" "r" "A" false) (by decide) rfl
      (Or.inr ⟨rfl, rfl⟩)

theorem undelEvB_id (d : String) : ∀ x y, undelEvB d x y → y.branchId = x.branchId := by
  intro x y h
  rcases h with rfl | ⟨-, -, rfl⟩
  · rfl
  · rfl

theorem undelEvN_id (d : String) : ∀ x y, undelEvN d x y → y.noteId = x.noteId := by
  intro x y h
  rcases h with rfl | ⟨-, -, rfl⟩
  · rfl
  · rfl

theorem undelEvA_id (d : String) : ∀ x y, undelEvA d x y → y.attributeId = x.attributeId := by
  intro x y h
  rcases h with rfl | ⟨-, -, rfl⟩
  · rfl
  · rfl

theorem undelEvB_note (d : String) : ∀ x y, undelEvB d x y → y.noteId = x.noteId := by
  intro x y h
  rcases h with rfl | ⟨-, -, rfl⟩
  · rfl
  · rfl

theorem undelEvB_live {d : String} {x y : Branch} (h : undelEvB d x y)
    (hx : x.isDeleted = false) : y = x := by
  rcases h with h' | ⟨hdel, -, -⟩
  · exact h'
  · rw [hdel] at hx
    exact Bool.noConfusion hx

theorem undelEvN_live {d : String} {x y : Note} (h : undelEvN d x y)
    (hx : x.isDeleted = false) : y = x := by
  rcases h with h' | ⟨hdel, -, -⟩
  · exact h'
  · rw [hdel] at hx
    exact Bool.noConfusion hx

theorem undelEvA_live {d : String} {x y : Attribute} (h : undelEvA d x y)
    (hx : x.isDeleted = false) : y = x := by
  rcases h with h' | ⟨hdel, -, -⟩
  · exact h'
  · rw [hdel] at hx
    exact Bool.noConfusion hx

theorem undel_refl (d : String) (s : Store) :
    List.Forall₂ (undelEvB d) s.branches s.branches ∧
    List.Forall₂ (undelEvN d) s.notes s.notes ∧
    List.Forall₂ (undelEvA d) s.attributes s.attributes :=
  ⟨List.forall₂_same.mpr (fun _ _ => Or.inl rfl),
   List.forall₂_same.mpr (fun _ _ => Or.inl rfl),
   List.forall₂_same.mpr (fun _ _ => Or.inl rfl)⟩

theorem idsNodup_undel_evolve {d : String} {s t : Store}
    (hb : List.Forall₂ (undelEvB d) s.branches t.branches)
    (hn : List.Forall₂ (undelEvN d) s.notes t.notes)
    (ha : List.Forall₂ (undelEvA d) s.attributes t.attributes)
    (h : idsNodup s) : idsNodup t := by
  obtain ⟨h1, h2, h3⟩ := h
  refine ⟨?_, ?_, ?_⟩
  · rw [forall₂_map_eq (fun x => x.branchId) (undelEvB_id d) hb]; exact h1
  · rw [forall₂_map_eq (fun x => x.noteId) (undelEvN_id d) hn]; exact h2
  · rw [forall₂_map_eq (fun x => x.attributeId) (undelEvA_id d) ha]; exact h3

theorem undelInv_transport {d : String} {ids : List String} {s t : Store}
    (hE : List.Forall₂ (undelEvB d) s.branches t.branches)
    (hinv : ∀ id ∈ ids, ∀ row ∈ s.branches, row.branchId = id → row.isDeleted = true →
      row.deleteId = some d) :
    ∀ id ∈ ids, ∀ row ∈ t.branches, row.branchId = id → row.isDeleted = true →
      row.deleteId = some d := by
  intro id hid row hrow hrid hrdel
  obtain ⟨x, hx, hRx⟩ := forall₂_mem_right hE hrow
  rcases hRx with h' | ⟨-, -, h'⟩
  · rw [h'] at hrid hrdel
    rw [h']
    exact hinv id hid x hx hrid hrdel
  · exfalso
    rw [h'] at hrdel
    exact Bool.noConfusion hrdel

theorem undelNC_transport {d : String} {ids : List String} {s t : Store}
    (hEb : List.Forall₂ (undelEvB d) s.branches t.branches)
    (hEn : List.Forall₂ (undelEvN d) s.notes t.notes)
    (hnc : ∀ id ∈ ids, ∀ row ∈ s.branches, row.branchId = id →
      ∀ n ∈ s.notes, n.noteId = row.noteId → n.isDeleted = true → n.deleteId = some d) :
    ∀ id ∈ ids, ∀ row ∈ t.branches, row.branchId = id →
      ∀ n ∈ t.notes, n.noteId = row.noteId → n.isDeleted = true → n.deleteId = some d := by
  intro id hid row hrow hrid n' hn' hnid hndel
  obtain ⟨x, hx, hRx⟩ := forall₂_mem_right hEb hrow
  obtain ⟨m, hm, hRm⟩ := forall₂_mem_right hEn hn'
  have hmn : n' = m := by
    rcases hRm with h' | ⟨-, -, h'⟩
    · exact h'
    · exfalso
      rw [h'] at hndel
      exact Bool.noConfusion hndel
  have hxid : x.branchId = id := by
    rw [← undelEvB_id d x row hRx]
    exact hrid
  have hmnid : m.noteId = x.noteId := by
    rw [← hmn, hnid, ← undelEvB_note d x row hRx]
  rw [hmn] at hndel ⊢
  exact hnc id hid x hx hxid m hm hmnid hndel

theorem getBranch_of_mem {s : Store} {b : Branch}
    (hids : (s.branches.map (fun c => c.branchId)).Nodup) (hb : b ∈ s.branches) :
    getBranch s b.branchId = some b := by
  unfold getBranch
  cases hf : s.branches.find? (fun c => c.branchId == b.branchId) with
  | none =>
    exfalso
    exact (List.find?_eq_none.mp hf b hb) (beq_self_eq_true _)
  | some x =>
    have hxm := List.mem_of_find?_eq_some hf
    have hxp := List.find?_some hf
    have hxid : x.branchId = b.branchId := eq_of_beq hxp
    rw [List.inj_on_of_nodup_map hids hxm hb hxid]

theorem clearAttrsFold_evolves (d : String) :
    ∀ (l : List Attribute) (s : Store),
      (s.attributes.map (fun c => c.attributeId)).Nodup →
      (l.map (fun c => c.attributeId)).Nodup →
      (∀ a ∈ l, a ∈ s.attributes ∧ a.isDeleted = true ∧ a.deleteId = some d) →
      List.Forall₂ (undelEvA d) s.attributes
        ((l.foldl (fun st a => saveAttribute st { a with isDeleted := false }) s).attributes) ∧
      (l.foldl (fun st a => saveAttribute st { a with isDeleted := false }) s).branches =
        s.branches ∧
      (l.foldl (fun st a => saveAttribute st { a with isDeleted := false }) s).notes =
        s.notes ∧
      (∀ a ∈ l, { a with isDeleted := false } ∈
        (l.foldl (fun st a => saveAttribute st { a with isDeleted := false }) s).attributes) := by
  intro l
  induction l with
  | nil =>
    intro s _ _ _
    refine ⟨List.forall₂_same.mpr (fun x _ => Or.inl rfl), rfl, rfl, ?_⟩
    intro a ha
    cases ha
  | cons a0 rest ih =>
    intro s hnodupS hnodupL hmem
    rw [List.map_cons] at hnodupL
    obtain ⟨hnotin, hnodupRest⟩ := List.nodup_cons.mp hnodupL
    simp only [List.foldl_cons]
    have ha0 := hmem a0 (List.mem_cons_self a0 rest)
    have hstep : List.Forall₂ (undelEvA d) s.attributes
        (saveAttribute s { a0 with isDeleted := false }).attributes :=
      saveAttribute_evolves (undelEvA d) (fun c => Or.inl rfl) ha0.1 rfl hnodupS
        (Or.inr ⟨ha0.2.1, ha0.2.2, rfl⟩)
    have hids' : ((saveAttribute s { a0 with isDeleted := false }).attributes.map
        (fun c => c.attributeId)).Nodup := by
      rw [forall₂_map_eq (fun c => c.attributeId) (undelEvA_id d) hstep]
      exact hnodupS
    have hmemRest : ∀ a ∈ rest,
        a ∈ (saveAttribute s { a0 with isDeleted := false }).attributes ∧
        a.isDeleted = true ∧ a.deleteId = some d := by
      intro a ha
      have hm := hmem a (List.mem_cons_of_mem a0 ha)
      have hne : (a.attributeId == ({ a0 with isDeleted := false } : Attribute).attributeId) =
          false := by
        have hda : a.attributeId ≠ a0.attributeId := by
          intro hEq
          exact hnotin (hEq ▸ List.mem_map_of_mem (fun c => c.attributeId) ha)
        simpa using hda
      exact ⟨saveAttribute_mem_other hm.1 hne, hm.2⟩
    obtain ⟨ihF, ihB, ihN, ihM⟩ := ih (saveAttribute s { a0 with isDeleted := false })
      hids' hnodupRest hmemRest
    refine ⟨forall₂_compose (undelEvA_trans d) hstep ihF, ?_, ?_, ?_⟩
    · rw [ihB, saveAttribute_branches]
    · rw [ihN, saveAttribute_notes]
    · intro a ha
      rcases List.mem_cons.mp ha with rfl | ha
      · have hm0 : ({ a with isDeleted := false } : Attribute) ∈
            (saveAttribute s { a with isDeleted := false }).attributes :=
          saveAttribute_mem_upsert ha0.1 rfl
        obtain ⟨y, hy, hRy⟩ := forall₂_mem_left ihF hm0
        have hym : y = { a with isDeleted := false } := undelEvA_live hRy rfl
        exact hym ▸ hy
      · exact ihM a ha

theorem undelete_evolves (fuel : Nat) (d : String) :
    (∀ s bid t, idsNodup s →
      (∀ row ∈ s.branches, row.branchId = bid → row.isDeleted = true →
        row.deleteId = some d) →
      undeleteBranchGo fuel d s bid = Except.ok t →
      List.Forall₂ (undelEvB d) s.branches t.branches ∧
      List.Forall₂ (undelEvN d) s.notes t.notes ∧
      List.Forall₂ (undelEvA d) s.attributes t.attributes) ∧
    (∀ s ids t, idsNodup s →
      (∀ id ∈ ids, ∀ row ∈ s.branches, row.branchId = id → row.isDeleted = true →
        row.deleteId = some d) →
      undeleteBranchesGo fuel d s ids = Except.ok t →
      List.Forall₂ (undelEvB d) s.branches t.branches ∧
      List.Forall₂ (undelEvN d) s.notes t.notes ∧
      List.Forall₂ (undelEvA d) s.attributes t.attributes) := by
  induction fuel with
  | zero =>
    constructor
    · intro s bid t _ _ h
      exact absurd h (by simp [undeleteBranchGo])
    · intro s ids t _ _ h
      exact absurd h (by simp [undeleteBranchesGo])
  | succ fuel ih =>
    obtain ⟨ihA, ihL⟩ := ih
    constructor
    · intro s bid t hids hinv h
      unfold undeleteBranchGo at h
      cases hb : getBranch s bid with
      | none => rw [hb] at h; exact absurd h (by simp)
      | some branch =>
        rw [hb] at h
        simp only [] at h
        obtain ⟨hbm, hbid⟩ := getBranch_mem hb
        cases hld : branch.isDeleted with
        | false =>
          rw [hld] at h
          simp only [Bool.not_false, reduceIte, Except.ok.injEq] at h
          rw [← h]
          exact undel_refl d s
        | true =>
          rw [hld] at h
          simp only [Bool.not_true, Bool.false_eq_true, if_false, reduceIte] at h
          cases hn : getNote s branch.noteId with
          | none => rw [hn] at h; exact absurd h (by simp)
          | some note =>
            rw [hn] at h
            simp only [] at h
            cases hc1 : (note.isDeleted && note.deleteId != some d) with
            | true =>
              rw [hc1] at h
              simp only [reduceIte, Except.ok.injEq] at h
              rw [← h]
              exact undel_refl d s
            | false =>
              rw [hc1] at h
              simp only [Bool.false_eq_true, if_false, reduceIte] at h
              have hbd : branch.deleteId = some d := hinv branch hbm hbid hld
              generalize hs1 : saveBranch s { branch with isDeleted := false } = s1 at h
              have hE1 : List.Forall₂ (undelEvB d) s.branches s1.branches := by
                rw [← hs1]
                exact saveBranch_evolves (undelEvB d) (fun x => Or.inl rfl) hbm
                  (rfl : ({ branch with isDeleted := false } : Branch).branchId =
                    branch.branchId) hids.1 (Or.inr ⟨hld, hbd, rfl⟩)
              have hn1 : s1.notes = s.notes := by rw [← hs1]; exact saveBranch_notes s _
              have ha1 : s1.attributes = s.attributes := by
                rw [← hs1]; exact saveBranch_attributes s _
              have hids1 : idsNodup s1 := by
                refine ⟨?_, ?_, ?_⟩
                · rw [forall₂_map_eq (fun x => x.branchId) (undelEvB_id d) hE1]
                  exact hids.1
                · rw [hn1]; exact hids.2.1
                · rw [ha1]; exact hids.2.2
              cases hc2 : (note.isDeleted && note.deleteId == some d) with
              | false =>
                rw [hc2] at h
                simp only [Bool.false_eq_true, if_false, reduceIte, Except.ok.injEq] at h
                rw [← h]
                refine ⟨hE1, ?_, ?_⟩
                · rw [hn1]; exact List.forall₂_same.mpr (fun _ _ => Or.inl rfl)
                · rw [ha1]; exact List.forall₂_same.mpr (fun _ _ => Or.inl rfl)
              | true =>
                rw [hc2] at h
                simp only [reduceIte] at h
                simp only [Bool.and_eq_true, beq_iff_eq] at hc2
                obtain ⟨hnd, hndid⟩ := hc2
                have hnm1 : note ∈ s1.notes := by
                  rw [hn1]
                  exact (getNote_mem hn).1
                generalize hs2 : saveNote s1 { note with isDeleted := false } = s2 at h
                have hE2 : List.Forall₂ (undelEvN d) s1.notes s2.notes := by
                  rw [← hs2]
                  exact saveNote_evolves (undelEvN d) (fun x => Or.inl rfl) hnm1
                    (rfl : ({ note with isDeleted := false } : Note).noteId = note.noteId)
                    hids1.2.1 (Or.inr ⟨hnd, hndid, rfl⟩)
                have hb2 : s2.branches = s1.branches := by
                  rw [← hs2]; exact saveNote_branches s1 _
                have ha2 : s2.attributes = s1.attributes := by
                  rw [← hs2]; exact saveNote_attributes s1 _
                have hids2 : idsNodup s2 := by
                  refine ⟨?_, ?_, ?_⟩
                  · rw [hb2]; exact hids1.1
                  · rw [forall₂_map_eq (fun x => x.noteId) (undelEvN_id d) hE2]
                    exact hids1.2.1
                  · rw [ha2]; exact hids1.2.2
                have hmemL : ∀ a ∈ s2.attributes.filter (fun a =>
                    a.isDeleted && a.deleteId == some d &&
                      (a.noteId == note.noteId ||
                        (a.type == "relation" && a.value == note.noteId))),
                    a ∈ s2.attributes ∧ a.isDeleted = true ∧ a.deleteId = some d := by
                  intro a ha
                  have hma := List.mem_filter.mp ha
                  refine ⟨hma.1, ?_⟩
                  have hcond := hma.2
                  simp only [Bool.and_eq_true, beq_iff_eq] at hcond
                  exact hcond.1
                have hnodupL : ((s2.attributes.filter (fun a =>
                    a.isDeleted && a.deleteId == some d &&
                      (a.noteId == note.noteId ||
                        (a.type == "relation" && a.value == note.noteId)))).map
                    (fun c => c.attributeId)).Nodup := by
                  refine List.Nodup.sublist ?_ hids2.2.2
                  exact List.Sublist.map _ (List.filter_sublist _)
                obtain ⟨F1ev, F1b, F1n, F1m⟩ :=
                  clearAttrsFold_evolves d (s2.attributes.filter (fun a =>
                    a.isDeleted && a.deleteId == some d &&
                      (a.noteId == note.noteId ||
                        (a.type == "relation" && a.value == note.noteId)))) s2
                    hids2.2.2 hnodupL hmemL
                generalize hs3 : (s2.attributes.filter (fun a =>
                    a.isDeleted && a.deleteId == some d &&
                      (a.noteId == note.noteId ||
                        (a.type == "relation" && a.value == note.noteId)))).foldl
                    (fun st a => saveAttribute st { a with isDeleted := false }) s2 = s3 at h
                rw [hs3] at F1ev F1b F1n F1m
                have hids3 : idsNodup s3 := by
                  refine ⟨?_, ?_, ?_⟩
                  · rw [F1b]; exact hids2.1
                  · rw [F1n]; exact hids2.2.1
                  · rw [forall₂_map_eq (fun x => x.attributeId) (undelEvA_id d) F1ev]
                    exact hids2.2.2
                have hinv3 : ∀ id ∈ (s3.branches.filter (fun b =>
                    b.isDeleted && b.deleteId == some d &&
                      b.parentNoteId == note.noteId)).map (fun b => b.branchId),
                    ∀ row ∈ s3.branches, row.branchId = id → row.isDeleted = true →
                      row.deleteId = some d := by
                  intro id hidmem row hrow hrowid hrowdel
                  obtain ⟨b0, hb0f, hb0id⟩ := List.mem_map.mp hidmem
                  have hb0 := List.mem_filter.mp hb0f
                  have hb0props := hb0.2
                  simp only [Bool.and_eq_true, beq_iff_eq] at hb0props
                  have hrb0 : row = b0 :=
                    List.inj_on_of_nodup_map hids3.1 hrow hb0.1 (by rw [hrowid, ← hb0id])
                  rw [hrb0]
                  exact hb0props.1.2
                obtain ⟨hE4, hN4, hA4⟩ := ihL s3 _ t hids3 hinv3 h
                have hE4' : List.Forall₂ (undelEvB d) s1.branches t.branches := by
                  rw [← hb2, ← F1b]
                  exact hE4
                have hN4' : List.Forall₂ (undelEvN d) s2.notes t.notes := by
                  rw [← F1n]
                  exact hN4
                have hNs : List.Forall₂ (undelEvN d) s.notes s2.notes := by
                  rw [← hn1]
                  exact hE2
                have hAs : List.Forall₂ (undelEvA d) s.attributes s3.attributes := by
                  rw [← ha1, ← ha2]
                  exact F1ev
                exact ⟨forall₂_compose (undelEvB_trans d) hE1 hE4',
                  forall₂_compose (undelEvN_trans d) hNs hN4',
                  forall₂_compose (undelEvA_trans d) hAs hA4⟩
    · intro s ids t hids hinv h
      cases ids with
      | nil =>
        unfold undeleteBranchesGo at h
        simp only [Except.ok.injEq] at h
        rw [← h]
        exact undel_refl d s
      | cons c rest =>
        unfold undeleteBranchesGo at h
        cases hhd : undeleteBranchGo fuel d s c with
        | error e => rw [hhd] at h; exact absurd h (by simp)
        | ok s' =>
          rw [hhd] at h
          simp only [] at h
          have hinvc : ∀ row ∈ s.branches, row.branchId = c → row.isDeleted = true →
              row.deleteId = some d := hinv c (List.mem_cons_self c rest)
          obtain ⟨hE1, hN1, hA1⟩ := ihA s c s' hids hinvc hhd
          have hids1 : idsNodup s' := idsNodup_undel_evolve hE1 hN1 hA1 hids
          have hinvrest : ∀ id ∈ rest, ∀ row ∈ s'.branches, row.branchId = id →
              row.isDeleted = true → row.deleteId = some d :=
            undelInv_transport hE1 (fun id hid => hinv id (List.mem_cons_of_mem c hid))
          obtain ⟨hE2, hN2, hA2⟩ := ihL s' rest t hids1 hinvrest h
          exact ⟨forall₂_compose (undelEvB_trans d) hE1 hE2,
            forall₂_compose (undelEvN_trans d) hN1 hN2,
            forall₂_compose (undelEvA_trans d) hA1 hA2⟩

/-- A completed `undeleteBranch` call leaves the branch row of the processed
id live, provided all same-id rows deleted carry this deleteId and the
branch's note (if deleted) was deleted under this very deleteId. -/
theorem undeleteBranchGo_clears (fuel : Nat) (d : String) (s : Store) (bid : String)
    (t : Store) (hids : idsNodup s)
    (hinv : ∀ row ∈ s.branches, row.branchId = bid → row.isDeleted = true →
      row.deleteId = some d)
    (hnc : ∀ row ∈ s.branches, row.branchId = bid →
      ∀ n ∈ s.notes, n.noteId = row.noteId → n.isDeleted = true → n.deleteId = some d)
    (hrun : undeleteBranchGo fuel d s bid = Except.ok t) :
    ∀ row ∈ s.branches, row.branchId = bid →
    ∃ row' ∈ t.branches, row'.branchId = bid ∧ row'.isDeleted = false := by
  intro row hrow hrowid
  cases fuel with
  | zero => exact absurd hrun (by simp [undeleteBranchGo])
  | succ fuel =>
    unfold undeleteBranchGo at hrun
    cases hb : getBranch s bid with
    | none => rw [hb] at hrun; exact absurd hrun (by simp)
    | some branch =>
      rw [hb] at hrun
      simp only [] at hrun
      obtain ⟨hbm, hbid⟩ := getBranch_mem hb
      cases hld : branch.isDeleted with
      | false =>
        rw [hld] at hrun
        simp only [Bool.not_false, reduceIte, Except.ok.injEq] at hrun
        rw [← hrun]
        exact ⟨branch, hbm, hbid, hld⟩
      | true =>
        rw [hld] at hrun
        simp only [Bool.not_true, Bool.false_eq_true, if_false, reduceIte] at hrun
        cases hn : getNote s branch.noteId with
        | none => rw [hn] at hrun; exact absurd hrun (by simp)
        | some note =>
          rw [hn] at hrun
          simp only [] at hrun
          obtain ⟨hnm, hnid⟩ := getNote_mem hn
          have hncnote : note.isDeleted = true → note.deleteId = some d :=
            fun hdel => hnc branch hbm hbid note hnm hnid hdel
          cases hc1 : (note.isDeleted && note.deleteId != some d) with
          | true =>
            exfalso
            simp only [Bool.and_eq_true, bne_iff_ne] at hc1
            exact hc1.2 (hncnote hc1.1)
          | false =>
            rw [hc1] at hrun
            simp only [Bool.false_eq_true, if_false, reduceIte] at hrun
            have hbd : branch.deleteId = some d := hinv branch hbm hbid hld
            generalize hs1 : saveBranch s { branch with isDeleted := false } = s1 at hrun
            have hM : ({ branch with isDeleted := false } : Branch) ∈ s1.branches := by
              rw [← hs1]
              exact saveBranch_mem_upsert hbm rfl
            have hE1 : List.Forall₂ (undelEvB d) s.branches s1.branches := by
              rw [← hs1]
              exact saveBranch_evolves (undelEvB d) (fun x => Or.inl rfl) hbm
                (rfl : ({ branch with isDeleted := false } : Branch).branchId =
                  branch.branchId) hids.1 (Or.inr ⟨hld, hbd, rfl⟩)
            have hn1 : s1.notes = s.notes := by rw [← hs1]; exact saveBranch_notes s _
            have ha1 : s1.attributes = s.attributes := by
              rw [← hs1]; exact saveBranch_attributes s _
            have hids1 : idsNodup s1 := by
              refine ⟨?_, ?_, ?_⟩
              · rw [forall₂_map_eq (fun x => x.branchId) (undelEvB_id d) hE1]
                exact hids.1
              · rw [hn1]; exact hids.2.1
              · rw [ha1]; exact hids.2.2
            cases hc2 : (note.isDeleted && note.deleteId == some d) with
            | false =>
              rw [hc2] at hrun
              simp only [Bool.false_eq_true, if_false, reduceIte, Except.ok.injEq] at hrun
              rw [← hrun]
              exact ⟨{ branch with isDeleted := false }, hM, hbid, rfl⟩
            | true =>
              rw [hc2] at hrun
              simp only [reduceIte] at hrun
              simp only [Bool.and_eq_true, beq_iff_eq] at hc2
              obtain ⟨hnd, hndid⟩ := hc2
              have hnm1 : note ∈ s1.notes := by rw [hn1]; exact hnm
              generalize hs2 : saveNote s1 { note with isDeleted := false } = s2 at hrun
              have hE2 : List.Forall₂ (undelEvN d) s1.notes s2.notes := by
                rw [← hs2]
                exact saveNote_evolves (undelEvN d) (fun x => Or.inl rfl) hnm1
                  (rfl : ({ note with isDeleted := false } : Note).noteId = note.noteId)
                  hids1.2.1 (Or.inr ⟨hnd, hndid, rfl⟩)
              have hb2 : s2.branches = s1.branches := by
                rw [← hs2]; exact saveNote_branches s1 _
              have ha2 : s2.attributes = s1.attributes := by
                rw [← hs2]; exact saveNote_attributes s1 _
              have hids2 : idsNodup s2 := by
                refine ⟨?_, ?_, ?_⟩
                · rw [hb2]; exact hids1.1
                · rw [forall₂_map_eq (fun x => x.noteId) (undelEvN_id d) hE2]
                  exact hids1.2.1
                · rw [ha2]; exact hids1.2.2
              have hmemL : ∀ a ∈ s2.attributes.filter (fun a =>
                  a.isDeleted && a.deleteId == some d &&
                    (a.noteId == note.noteId ||
                      (a.type == "relation" && a.value == note.noteId))),
                  a ∈ s2.attributes ∧ a.isDeleted = true ∧ a.deleteId = some d := by
                intro a ha
                have hma := List.mem_filter.mp ha
                refine ⟨hma.1, ?_⟩
                have hcond := hma.2
                simp only [Bool.and_eq_true, beq_iff_eq] at hcond
                exact hcond.1
              have hnodupL : ((s2.attributes.filter (fun a =>
                  a.isDeleted && a.deleteId == some d &&
                    (a.noteId == note.noteId ||
                      (a.type == "relation" && a.value == note.noteId)))).map
                  (fun c => c.attributeId)).Nodup := by
                refine List.Nodup.sublist ?_ hids2.2.2
                exact List.Sublist.map _ (List.filter_sublist _)
              obtain ⟨F1ev, F1b, F1n, F1m⟩ :=
                clearAttrsFold_evolves d (s2.attributes.filter (fun a =>
                  a.isDeleted && a.deleteId == some d &&
                    (a.noteId == note.noteId ||
                      (a.type == "relation" && a.value == note.noteId)))) s2
                  hids2.2.2 hnodupL hmemL
              generalize hs3 : (s2.attributes.filter (fun a =>
                  a.isDeleted && a.deleteId == some d &&
                    (a.noteId == note.noteId ||
                      (a.type == "relation" && a.value == note.noteId)))).foldl
                  (fun st a => saveAttribute st { a with isDeleted := false }) s2 = s3
                  at hrun
              rw [hs3] at F1ev F1b F1n F1m
              have hids3 : idsNodup s3 := by
                refine ⟨?_, ?_, ?_⟩
                · rw [F1b]; exact hids2.1
                · rw [F1n]; exact hids2.2.1
                · rw [forall₂_map_eq (fun x => x.attributeId) (undelEvA_id d) F1ev]
                  exact hids2.2.2
              have hinv3 : ∀ id ∈ (s3.branches.filter (fun b =>
                  b.isDeleted && b.deleteId == some d &&
                    b.parentNoteId == note.noteId)).map (fun b => b.branchId),
                  ∀ row ∈ s3.branches, row.branchId = id → row.isDeleted = true →
                    row.deleteId = some d := by
                intro id hidmem row2 hrow2 hrow2id hrow2del
                obtain ⟨b0, hb0f, hb0id⟩ := List.mem_map.mp hidmem
                have hb0 := List.mem_filter.mp hb0f
                have hb0props := hb0.2
                simp only [Bool.and_eq_true, beq_iff_eq] at hb0props
                have hrb0 : row2 = b0 :=
                  List.inj_on_of_nodup_map hids3.1 hrow2 hb0.1 (by rw [hrow2id, ← hb0id])
                rw [hrb0]
                exact hb0props.1.2
              obtain ⟨hE4, -, -⟩ := (undelete_evolves fuel d).2 s3 _ t hids3 hinv3 hrun
              have hM3 : ({ branch with isDeleted := false } : Branch) ∈ s3.branches := by
                rw [F1b, hb2]
                exact hM
              obtain ⟨y, hy, hRy⟩ := forall₂_mem_left hE4 hM3
              have hyM : y = { branch with isDeleted := false } := undelEvB_live hRy rfl
              exact ⟨y, hy, by rw [hyM]; exact hbid, by rw [hyM]⟩

/-- Every id processed by the undelete loop that names an existing branch row
ends with a live row of that id, provided deleted same-id rows carry this
deleteId and the branches' notes (if deleted) were deleted under it. -/
theorem undeleteBranchesGo_restores (d : String) : ∀ (fuel : Nat) (ids : List String)
    (s t : Store), idsNodup s →
    (∀ id ∈ ids, ∀ row ∈ s.branches, row.branchId = id → row.isDeleted = true →
      row.deleteId = some d) →
    (∀ id ∈ ids, ∀ row ∈ s.branches, row.branchId = id →
      ∀ n ∈ s.notes, n.noteId = row.noteId → n.isDeleted = true → n.deleteId = some d) →
    undeleteBranchesGo fuel d s ids = Except.ok t →
    ∀ id ∈ ids, ∀ row ∈ s.branches, row.branchId = id →
    ∃ row' ∈ t.branches, row'.branchId = id ∧ row'.isDeleted = false := by
  intro fuel
  induction fuel with
  | zero =>
    intro ids s t _ _ _ h
    exact absurd h (by simp [undeleteBranchesGo])
  | succ fuel ih =>
    intro ids s t hids hinv hnc h id hid row hrow hrowid
    cases ids with
    | nil => cases hid
    | cons c rest =>
      unfold undeleteBranchesGo at h
      cases hhd : undeleteBranchGo fuel d s c with
      | error e => rw [hhd] at h; exact absurd h (by simp)
      | ok s' =>
        rw [hhd] at h
        simp only [] at h
        have hinvc := hinv c (List.mem_cons_self c rest)
        obtain ⟨hE1, hN1, hA1⟩ := (undelete_evolves fuel d).1 s c s' hids hinvc hhd
        have hids1 : idsNodup s' := idsNodup_undel_evolve hE1 hN1 hA1 hids
        have hinvrest : ∀ i ∈ rest, ∀ row2 ∈ s'.branches, row2.branchId = i →
            row2.isDeleted = true → row2.deleteId = some d :=
          undelInv_transport hE1 (fun i hi => hinv i (List.mem_cons_of_mem c hi))
        have hncrest : ∀ i ∈ rest, ∀ row2 ∈ s'.branches, row2.branchId = i →
            ∀ n ∈ s'.notes, n.noteId = row2.noteId → n.isDeleted = true →
              n.deleteId = some d :=
          undelNC_transport hE1 hN1 (fun i hi => hnc i (List.mem_cons_of_mem c hi))
        rcases List.mem_cons.mp hid with heq | hidr
        · subst heq
          obtain ⟨row', hrow', hrid', hrlive'⟩ :=
            undeleteBranchGo_clears fuel d s id s' hids hinvc
              (hnc id (List.mem_cons_self id rest)) hhd row hrow hrowid
          obtain ⟨hE2, -, -⟩ := (undelete_evolves fuel d).2 s' rest t hids1 hinvrest h
          obtain ⟨y, hy, hRy⟩ := forall₂_mem_left hE2 hrow'
          have hyM : y = row' := undelEvB_live hRy hrlive'
          exact ⟨y, hy, by rw [hyM]; exact hrid', by rw [hyM]; exact hrlive'⟩
        · obtain ⟨y, hy, hRy⟩ := forall₂_mem_left hE1 hrow
          have hyid : y.branchId = id := by rw [undelEvB_id d row y hRy]; exact hrowid
          exact ih rest s' t hids1 hinvrest hncrest h id hidr y hy hyid

/-- An `undeleteBranch` call whose branch and note are both soft-deleted under
this very deleteId clears the note and every attribute tagged with the
deleteId that is owned by or targets the note. -/
theorem undeleteBranchGo_restores_note (fuel : Nat) (d : String) (s : Store) (bid : String)
    (t : Store) (branch : Branch) (note : Note) (hids : idsNodup s)
    (hb : getBranch s bid = some branch) (hbdel : branch.isDeleted = true)
    (hbdid : branch.deleteId = some d)
    (hn : getNote s branch.noteId = some note) (hndel : note.isDeleted = true)
    (hndid : note.deleteId = some d)
    (hrun : undeleteBranchGo fuel d s bid = Except.ok t) :
    ({ note with isDeleted := false } : Note) ∈ t.notes ∧
    (∀ a ∈ s.attributes, a.isDeleted = true → a.deleteId = some d →
      (a.noteId = note.noteId ∨ (a.type = "relation" ∧ a.value = note.noteId)) →
      ({ a with isDeleted := false } : Attribute) ∈ t.attributes) := by
  cases fuel with
  | zero => exact absurd hrun (by simp [undeleteBranchGo])
  | succ fuel =>
    unfold undeleteBranchGo at hrun
    rw [hb] at hrun
    simp only [] at hrun
    rw [hbdel] at hrun
    simp only [Bool.not_true, Bool.false_eq_true, if_false, reduceIte] at hrun
    rw [hn] at hrun
    simp only [] at hrun
    obtain ⟨hbm, hbid⟩ := getBranch_mem hb
    obtain ⟨hnm, hnid⟩ := getNote_mem hn
    have hc1 : (note.isDeleted && note.deleteId != some d) = false := by
      rw [hndel, hndid]
      simp
    rw [hc1] at hrun
    simp only [Bool.false_eq_true, if_false, reduceIte] at hrun
    generalize hs1 : saveBranch s { branch with isDeleted := false } = s1 at hrun
    have hE1 : List.Forall₂ (undelEvB d) s.branches s1.branches := by
      rw [← hs1]
      exact saveBranch_evolves (undelEvB d) (fun x => Or.inl rfl) hbm
        (rfl : ({ branch with isDeleted := false } : Branch).branchId = branch.branchId)
        hids.1 (Or.inr ⟨hbdel, hbdid, rfl⟩)
    have hn1 : s1.notes = s.notes := by rw [← hs1]; exact saveBranch_notes s _
    have ha1 : s1.attributes = s.attributes := by
      rw [← hs1]; exact saveBranch_attributes s _
    have hids1 : idsNodup s1 := by
      refine ⟨?_, ?_, ?_⟩
      · rw [forall₂_map_eq (fun x => x.branchId) (undelEvB_id d) hE1]
        exact hids.1
      · rw [hn1]; exact hids.2.1
      · rw [ha1]; exact hids.2.2
    have hc2 : (note.isDeleted && note.deleteId == some d) = true := by
      rw [hndel, hndid]
      simp
    rw [hc2] at hrun
    simp only [reduceIte] at hrun
    have hnm1 : note ∈ s1.notes := by rw [hn1]; exact hnm
    generalize hs2 : saveNote s1 { note with isDeleted := false } = s2 at hrun
    have hMn : ({ note with isDeleted := false } : Note) ∈ s2.notes := by
      rw [← hs2]
      exact saveNote_mem_upsert hnm1 rfl
    have hE2 : List.Forall₂ (undelEvN d) s1.notes s2.notes := by
      rw [← hs2]
      exact saveNote_evolves (undelEvN d) (fun x => Or.inl rfl) hnm1
        (rfl : ({ note with isDeleted := false } : Note).noteId = note.noteId)
        hids1.2.1 (Or.inr ⟨hndel, hndid, rfl⟩)
    have hb2 : s2.branches = s1.branches := by
      rw [← hs2]; exact saveNote_branches s1 _
    have ha2 : s2.attributes = s1.attributes := by
      rw [← hs2]; exact saveNote_attributes s1 _
    have hids2 : idsNodup s2 := by
      refine ⟨?_, ?_, ?_⟩
      · rw [hb2]; exact hids1.1
      · rw [forall₂_map_eq (fun x => x.noteId) (undelEvN_id d) hE2]
        exact hids1.2.1
      · rw [ha2]; exact hids1.2.2
    have hmemL : ∀ a ∈ s2.attributes.filter (fun a =>
        a.isDeleted && a.deleteId == some d &&
          (a.noteId == note.noteId ||
            (a.type == "relation" && a.value == note.noteId))),
        a ∈ s2.attributes ∧ a.isDeleted = true ∧ a.deleteId = some d := by
      intro a ha
      have hma := List.mem_filter.mp ha
      refine ⟨hma.1, ?_⟩
      have hcond := hma.2
      simp only [Bool.and_eq_true, beq_iff_eq] at hcond
      exact hcond.1
    have hnodupL : ((s2.attributes.filter (fun a =>
        a.isDeleted && a.deleteId == some d &&
          (a.noteId == note.noteId ||
            (a.type == "relation" && a.value == note.noteId)))).map
        (fun c => c.attributeId)).Nodup := by
      refine List.Nodup.sublist ?_ hids2.2.2
      exact List.Sublist.map _ (List.filter_sublist _)
    obtain ⟨F1ev, F1b, F1n, F1m⟩ :=
      clearAttrsFold_evolves d (s2.attributes.filter (fun a =>
        a.isDeleted && a.deleteId == some d &&
          (a.noteId == note.noteId ||
            (a.type == "relation" && a.value == note.noteId)))) s2
        hids2.2.2 hnodupL hmemL
    generalize hs3 : (s2.attributes.filter (fun a =>
        a.isDeleted && a.deleteId == some d &&
          (a.noteId == note.noteId ||
            (a.type == "relation" && a.value == note.noteId)))).foldl
        (fun st a => saveAttribute st { a with isDeleted := false }) s2 = s3 at hrun
    rw [hs3] at F1ev F1b F1n F1m
    have hids3 : idsNodup s3 := by
      refine ⟨?_, ?_, ?_⟩
      · rw [F1b]; exact hids2.1
      · rw [F1n]; exact hids2.2.1
      · rw [forall₂_map_eq (fun x => x.attributeId) (undelEvA_id d) F1ev]
        exact hids2.2.2
    have hinv3 : ∀ id ∈ (s3.branches.filter (fun b =>
        b.isDeleted && b.deleteId == some d &&
          b.parentNoteId == note.noteId)).map (fun b => b.branchId),
        ∀ row ∈ s3.branches, row.branchId = id → row.isDeleted = true →
          row.deleteId = some d := by
      intro id hidmem row hrow hrowid hrowdel
      obtain ⟨b0, hb0f, hb0id⟩ := List.mem_map.mp hidmem
      have hb0 := List.mem_filter.mp hb0f
      have hb0props := hb0.2
      simp only [Bool.and_eq_true, beq_iff_eq] at hb0props
      have hrb0 : row = b0 :=
        List.inj_on_of_nodup_map hids3.1 hrow hb0.1 (by rw [hrowid, ← hb0id])
      rw [hrb0]
      exact hb0props.1.2
    obtain ⟨-, hN4, hA4⟩ := (undelete_evolves fuel d).2 s3 _ t hids3 hinv3 hrun
    have hMn3 : ({ note with isDeleted := false } : Note) ∈ s3.notes := by
      rw [F1n]
      exact hMn
    constructor
    · obtain ⟨y, hy, hRy⟩ := forall₂_mem_left hN4 hMn3
      have hyM : y = { note with isDeleted := false } := undelEvN_live hRy rfl
      exact hyM ▸ hy
    · intro a ham hadel hadid hacond
      have ham2 : a ∈ s2.attributes := by rw [ha2, ha1]; exact ham
      have hamF : a ∈ s2.attributes.filter (fun a =>
          a.isDeleted && a.deleteId == some d &&
            (a.noteId == note.noteId ||
              (a.type == "relation" && a.value == note.noteId))) := by
        refine List.mem_filter.mpr ⟨ham2, ?_⟩
        simp only [Bool.and_eq_true, Bool.or_eq_true, beq_iff_eq]
        refine ⟨⟨hadel, hadid⟩, ?_⟩
        rcases hacond with h' | ⟨h1, h2⟩
        · exact Or.inl h'
        · exact Or.inr ⟨h1, h2⟩
      have hMa3 : ({ a with isDeleted := false } : Attribute) ∈ s3.attributes := F1m a hamF
      obtain ⟨y, hy, hRy⟩ := forall₂_mem_left hA4 hMa3
      have hyM : y = { a with isDeleted := false } := undelEvA_live hRy rfl
      exact hyM ▸ hy

/-- C2 (amended).  A successful `undeleteNote(noteId, d)` run is a no-op when
the note has no branch deleted under `d` hanging below a live parent note.
Otherwise every branch, note and attribute row evolves by at most clearing the
deleted flag of a row that was soft-deleted under exactly `d` (the three
`Forall₂ undelEv` clauses — in particular nothing deleted under a different
deleteId is touched).  Every parent branch deleted under `d` below a live
parent is restored, provided the note itself is live or deleted under `d`; and
when the note is deleted under `d`, the note and every attribute tagged `d`
that is owned by or targets it are restored.  (Branches of sub-notes that
carry `d` but whose own note was deleted under a different deleteId are NOT
restored, contrary to the original claim.) -/
theorem undeleteNote_spec (fuel : Nat) (s : Store) (noteId d : String) (t : Store)
    (hids : idsNodup s)
    (hrun : undeleteNote fuel s noteId d = Except.ok t) :
    ((getUndeletedParentBranches s noteId d).isEmpty = true → t = s) ∧
    List.Forall₂ (undelEvB d) s.branches t.branches ∧
    List.Forall₂ (undelEvN d) s.notes t.notes ∧
    List.Forall₂ (undelEvA d) s.attributes t.attributes ∧
    ((∀ n ∈ s.notes, n.noteId = noteId → n.isDeleted = true → n.deleteId = some d) →
      ∀ br ∈ getUndeletedParentBranches s noteId d,
        ({ br with isDeleted := false } : Branch) ∈ t.branches) ∧
    (∀ note, getNote s noteId = some note → note.isDeleted = true →
      note.deleteId = some d →
      (getUndeletedParentBranches s noteId d).isEmpty = false →
      ({ note with isDeleted := false } : Note) ∈ t.notes ∧
      (∀ a ∈ s.attributes, a.isDeleted = true → a.deleteId = some d →
        (a.noteId = noteId ∨ (a.type = "relation" ∧ a.value = noteId)) →
        ({ a with isDeleted := false } : Attribute) ∈ t.attributes)) := by
  unfold undeleteNote at hrun
  simp only [] at hrun
  have hanchor : ∀ br ∈ getUndeletedParentBranches s noteId d,
      br ∈ s.branches ∧ br.noteId = noteId ∧ br.isDeleted = true ∧
        br.deleteId = some d := by
    intro br hbrP
    have hbrF := List.mem_filter.mp hbrP
    have hprops := hbrF.2
    simp only [Bool.and_eq_true, beq_iff_eq] at hprops
    exact ⟨hbrF.1, hprops.1.1.1, hprops.1.1.2, hprops.1.2⟩
  cases hpe : (getUndeletedParentBranches s noteId d).isEmpty with
  | true =>
    rw [hpe] at hrun
    simp only [reduceIte, Except.ok.injEq] at hrun
    refine ⟨fun _ => hrun.symm, ?_, ?_, ?_, ?_, ?_⟩
    · rw [← hrun]; exact (undel_refl d s).1
    · rw [← hrun]; exact (undel_refl d s).2.1
    · rw [← hrun]; exact (undel_refl d s).2.2
    · intro _ br hbr
      rw [List.isEmpty_iff.mp hpe] at hbr
      cases hbr
    · intro note _ _ _ hne
      exact Bool.noConfusion hne
  | false =>
    rw [hpe] at hrun
    simp only [Bool.false_eq_true, if_false, reduceIte] at hrun
    have hinvP : ∀ id ∈ (getUndeletedParentBranches s noteId d).map
        (fun b => b.branchId),
        ∀ row ∈ s.branches, row.branchId = id → row.isDeleted = true →
          row.deleteId = some d := by
      intro id hid row hrow hrowid hrowdel
      obtain ⟨br, hbrP, hbrid⟩ := List.mem_map.mp hid
      obtain ⟨hbrm, -, -, hbrdid⟩ := hanchor br hbrP
      have hrbr : row = br :=
        List.inj_on_of_nodup_map hids.1 hrow hbrm (by rw [hrowid, ← hbrid])
      rw [hrbr]
      exact hbrdid
    obtain ⟨hEvB, hEvN, hEvA⟩ :=
      (undelete_evolves fuel d).2 s _ t hids hinvP hrun
    refine ⟨?_, hEvB, hEvN, hEvA, ?_, ?_⟩
    · intro hpe'
      exact Bool.noConfusion hpe'
    · intro hncH br hbrP
      obtain ⟨hbrm, hbrnid, hbrdel, hbrdid⟩ := hanchor br hbrP
      have hnc : ∀ id ∈ (getUndeletedParentBranches s noteId d).map
          (fun b => b.branchId),
          ∀ row ∈ s.branches, row.branchId = id →
            ∀ n ∈ s.notes, n.noteId = row.noteId → n.isDeleted = true →
              n.deleteId = some d := by
        intro id hid row hrow hrowid n hnmem hnnid hndel2
        obtain ⟨br2, hbr2P, hbr2id⟩ := List.mem_map.mp hid
        obtain ⟨hbr2m, hbr2nid, -, -⟩ := hanchor br2 hbr2P
        have hrbr2 : row = br2 :=
          List.inj_on_of_nodup_map hids.1 hrow hbr2m (by rw [hrowid, ← hbr2id])
        refine hncH n hnmem ?_ hndel2
        rw [hnnid, hrbr2, hbr2nid]
      obtain ⟨row', hrow', hrid', hrlive'⟩ :=
        undeleteBranchesGo_restores d fuel _ s t hids hinvP hnc hrun br.branchId
          (List.mem_map_of_mem (fun b => b.branchId) hbrP) br hbrm rfl
      obtain ⟨x, hx, hRx⟩ := forall₂_mem_right hEvB hrow'
      have hxid : x.branchId = br.branchId := by
        rw [← undelEvB_id d x row' hRx]
        exact hrid'
      have hxbr : x = br := List.inj_on_of_nodup_map hids.1 hx hbrm hxid
      rw [hxbr] at hRx
      rcases hRx with h' | ⟨-, -, h'⟩
      · exfalso
        rw [h'] at hrlive'
        rw [hbrdel] at hrlive'
        exact Bool.noConfusion hrlive'
      · rw [h'] at hrow'
        exact hrow'
    · intro note hgn hndel hndid hne
      obtain ⟨hnoteM, hnoteId⟩ := getNote_mem hgn
      cases hP : getUndeletedParentBranches s noteId d with
      | nil =>
        rw [hP] at hpe
        exact Bool.noConfusion hpe
      | cons br1 restP =>
        rw [hP, List.map_cons] at hrun
        cases fuel with
        | zero => exact absurd hrun (by simp [undeleteBranchesGo])
        | succ f1 =>
          unfold undeleteBranchesGo at hrun
          cases hhd : undeleteBranchGo f1 d s br1.branchId with
          | error e => rw [hhd] at hrun; exact absurd hrun (by simp)
          | ok s' =>
            rw [hhd] at hrun
            simp only [] at hrun
            have hbr1P : br1 ∈ getUndeletedParentBranches s noteId d := by
              rw [hP]
              exact List.mem_cons_self _ _
            obtain ⟨hbr1m, hbr1nid, hbr1del, hbr1did⟩ := hanchor br1 hbr1P
            have hgn1 : getNote s br1.noteId = some note := by
              rw [hbr1nid]
              exact hgn
            obtain ⟨hMn, hMa⟩ :=
              undeleteBranchGo_restores_note f1 d s br1.branchId s' br1 note hids
                (getBranch_of_mem hids.1 hbr1m) hbr1del hbr1did hgn1 hndel hndid hhd
            have hinvhd : ∀ row ∈ s.branches, row.branchId = br1.branchId →
                row.isDeleted = true → row.deleteId = some d :=
              hinvP br1.branchId
                (List.mem_map_of_mem (fun b => b.branchId) hbr1P)
            obtain ⟨hE1, hN1, hA1⟩ :=
              (undelete_evolves f1 d).1 s br1.branchId s' hids hinvhd hhd
            have hids1 : idsNodup s' := idsNodup_undel_evolve hE1 hN1 hA1 hids
            have hinvrest : ∀ id ∈ restP.map (fun b => b.branchId),
                ∀ row ∈ s'.branches, row.branchId = id → row.isDeleted = true →
                  row.deleteId = some d :=
              undelInv_transport hE1 (fun id hid => hinvP id
                (by rw [hP, List.map_cons]; exact List.mem_cons_of_mem _ hid))
            obtain ⟨-, hN2, hA2⟩ :=
              (undelete_evolves f1 d).2 s' _ t hids1 hinvrest hrun
            constructor
            · obtain ⟨y, hy, hRy⟩ := forall₂_mem_left hN2 hMn
              have hyM : y = { note with isDeleted := false } := undelEvN_live hRy rfl
              exact hyM ▸ hy
            · intro a ham hadel hadid hacond
              have hacond' : a.noteId = note.noteId ∨
                  (a.type = "relation" ∧ a.value = note.noteId) := by
                rw [hnoteId]
                exact hacond
              have hMa' := hMa a ham hadel hadid hacond'
              obtain ⟨y, hy, hRy⟩ := forall₂_mem_left hA2 hMa'
              have hyM : y = { a with isDeleted := false } := undelEvA_live hRy rfl
              exact hyM ▸ hy

/-- Witness for C2: undeleting note "N" with deleteId "D" right after deleting
branch "bN" restores the parent branch "bN" and the note "N". -/
theorem undeleteNote_spec_witness :
    ({ markBranchDeleted "D" (exBranch "bN" "N" "root" 10) with isDeleted := false } :
      Branch) ∈ wUndelRestored.branches ∧
    ({ markNoteDeleted "D" (exNote "N") with isDeleted := false } : Note) ∈
      wUndelRestored.notes := by
  obtain ⟨-, -, -, -, hanch, hnote⟩ :=
    undeleteNote_spec 10 wUndelS1 "N" "D" wUndelRestored (by unfold idsNodup; decide) rfl
  constructor
  · exact hanch (by decide) (markBranchDeleted "D" (exBranch "bN" "N" "root" 10))
      (by decide)
  · exact (hnote (markNoteDeleted "D" (exNote "N")) rfl rfl rfl (by decide)).1

end Trilium
